import Mathlib

/-!
# Seat sorter: odd/even classification, sorting and seat mapping

A shallow embedding of `src/project.c` and the properties proved about it.

Conventions of the embedding.

* A C `int` array is a map `Int → Int` from index to stored value (`Arr`).  Element counts
  (`n`, `n_odd`, `n_even`) are natural numbers; every other C `int` is an `Int`.  No value of the
  program exceeds the 32-bit range for the inputs the program accepts (at most 1024 elements),
  so index arithmetic is exact.
* A loop that steps an index through a range is a structural recursion on the number of steps
  left in the range; the guards of the source are kept as written.  The other loops (the outer
  loop of `classify_two_ptr`, the sentinel scans, the partition loop and the recursion of
  `_qsort`, the loop of `_sift_down`) carry a fuel argument and return `none` when it runs
  out; the theorems prove that they return `some`.
* `gen_seat_map` never reads the grid, so it is embedded as the sequence of assignments it
  performs and the grid is the result of performing them in order.
-/

namespace SeatSort

/-! ## Constants and data structures -/

/-- Capacity of the `raw`, `odd` and `even` buffers. -/
def MAX_N : Nat := 1024

/-- Largest number of rows of the seat grid. -/
def MAX_R : Int := 32

/-- Largest number of columns of the seat grid. -/
def MAX_C : Int := 32

/-- A C `int` array: index to stored value. -/
abbrev Arr := Int → Int

/-- The record `Dataset`: three buffers and their element counts. -/
structure Dataset where
  raw : Arr
  n : Nat
  odd : Arr
  n_odd : Nat
  even : Arr
  n_even : Nat

/-- The test `x & 1`. -/
def is_odd (x : Int) : Int := Int.land x 1

/-- The call `swap_int(&a[i], &a[j])`: `t = a[i]; a[i] = a[j]; a[j] = t`. -/
def swap_int (a : Arr) (i j : Int) : Arr :=
  let t := a i
  let a1 := Function.update a i (a j)
  Function.update a1 j t

/-- The call `memcpy(dst, src + off, cnt * sizeof(int))` on two distinct buffers. -/
def memcpy (dst src : Arr) (off : Int) (cnt : Nat) : Arr :=
  fun k => if 0 ≤ k ∧ k < cnt then src (off + k) else dst k

/-- The first `n` cells of an array, as a list. -/
def slice (a : Arr) (n : Nat) : List Int := (List.range n).map (fun k : Nat => a (k : Int))

/-- Cells `i .. i+k-1` of an array, as a list. -/
def seg (a : Arr) (i k : Nat) : List Int := (List.range' i k).map (fun j : Nat => a (j : Int))

/-! ## Classification -/

/-- First loop of `classify_stable`:
`for (; i < n; ++i) if (is_odd(raw[i])) odd[n_odd++] = raw[i];` with `k = n - i`. -/
def collect_odd (raw : Arr) : Nat → Nat → Arr × Nat → Arr × Nat
  | 0, _, s => s
  | k + 1, i, (odd, n_odd) =>
    if is_odd (raw i) ≠ 0 then
      collect_odd raw k (i + 1) (Function.update odd n_odd (raw i), n_odd + 1)
    else collect_odd raw k (i + 1) (odd, n_odd)

/-- Second loop of `classify_stable`:
`for (; i < n; ++i) if (!is_odd(raw[i])) even[n_even++] = raw[i];` with `k = n - i`. -/
def collect_even (raw : Arr) : Nat → Nat → Arr × Nat → Arr × Nat
  | 0, _, s => s
  | k + 1, i, (even, n_even) =>
    if is_odd (raw i) = 0 then
      collect_even raw k (i + 1) (Function.update even n_even (raw i), n_even + 1)
    else collect_even raw k (i + 1) (even, n_even)

/-- The function `classify_stable`. -/
def classify_stable (ds : Dataset) : Dataset :=
  let o := collect_odd ds.raw ds.n 0 (ds.odd, 0)
  let e := collect_even ds.raw ds.n 0 (ds.even, 0)
  { raw := ds.raw, n := ds.n, odd := o.1, n_odd := o.2, even := e.1, n_even := e.2 }

/-- Loop of `classify_partition` over the work buffer:
`for (; i < n; ++i) if (is_odd(odd[i])) { swap_int(&odd[i], &odd[pivot]); ++pivot; }`
with `k = n - i`. -/
def partition_loop : Nat → Nat → Arr × Nat → Arr × Nat
  | 0, _, s => s
  | k + 1, i, (buf, pivot) =>
    if is_odd (buf i) ≠ 0 then partition_loop k (i + 1) (swap_int buf i pivot, pivot + 1)
    else partition_loop k (i + 1) (buf, pivot)

/-- The function `classify_partition`. -/
def classify_partition (ds : Dataset) : Dataset :=
  let buf := memcpy ds.odd ds.raw 0 ds.n
  let s := partition_loop ds.n 0 (buf, 0)
  let n_odd := s.2
  let n_even := ds.n - s.2
  { raw := ds.raw, n := ds.n, odd := s.1, n_odd := n_odd,
    even := memcpy ds.even s.1 n_odd n_even, n_even := n_even }

/-- Inner loop `while (l<=r && is_odd(buf[l])) ++l;` of `classify_two_ptr`;
`k` is the number of cells of `[l, r]`. -/
def skip_odd (buf : Arr) (r : Int) : Nat → Nat → Nat
  | 0, l => l
  | k + 1, l => if (l : Int) ≤ r ∧ is_odd (buf l) ≠ 0 then skip_odd buf r k (l + 1) else l

/-- Inner loop `while (l<=r && !is_odd(buf[r])) --r;` of `classify_two_ptr`;
`k` is the number of cells of `[l, r]`. -/
def skip_even (buf : Arr) (l : Nat) : Nat → Int → Int
  | 0, r => r
  | k + 1, r => if (l : Int) ≤ r ∧ is_odd (buf r) = 0 then skip_even buf l k (r - 1) else r

/-- Outer loop `while (l <= r) { ... }` of `classify_two_ptr`, with fuel. -/
def two_ptr_loop : Nat → Arr → Nat → Int → Option (Arr × Nat)
  | 0, _, _, _ => none
  | fuel + 1, buf, l, r =>
    if (l : Int) ≤ r then
      let l1 := skip_odd buf r (r - l + 1).toNat l
      let r1 := skip_even buf l1 (r - l1 + 1).toNat r
      let buf1 := if (l1 : Int) < r1 then swap_int buf l1 r1 else buf
      two_ptr_loop fuel buf1 l1 r1
    else some (buf, l)

/-- The function `classify_two_ptr`; the outer loop test runs at most `n + 2` times. -/
def classify_two_ptr (ds : Dataset) : Option Dataset :=
  let buf := memcpy ds.odd ds.raw 0 ds.n
  match two_ptr_loop (ds.n + 2) buf 0 ((ds.n : Int) - 1) with
  | none => none
  | some (buf1, l) =>
    let n_odd := l
    let n_even := ds.n - l
    some { raw := ds.raw, n := ds.n, odd := buf1, n_odd := n_odd,
           even := memcpy ds.even buf1 n_odd n_even, n_even := n_even }

/-! ## Seat mapping -/

/-- The record `SeatCfg`. -/
structure SeatCfg where
  rows : Int
  cols : Int
  mode_lr_or_fb : Int
  odd_side : Int

/-- The grid `seatMap`: the `id` stored at row `r`, column `c`. -/
abbrev SeatMap := Int → Int → Int

/-- One assignment `seatMap[r][c].id = v`, as `((r, c), v)`. -/
abbrev Write := (Int × Int) × Int

/-- Effect of one assignment on the grid. -/
def store (m : SeatMap) (w : Write) : SeatMap :=
  fun r c => if r = w.1.1 ∧ c = w.1.2 then w.2 else m r c

/-- Effect of a sequence of assignments, performed in order. -/
def run (m : SeatMap) (ws : List Write) : SeatMap := ws.foldl store m

/-- Step 1 of `gen_seat_map`: derive rows and columns when one of them is not positive. -/
def resolve_dims (total : Int) (cfg : SeatCfg) : SeatCfg :=
  if cfg.rows ≤ 0 ∨ cfg.cols ≤ 0 then
    let cfg1 : SeatCfg :=
      if cfg.mode_lr_or_fb = 0 then
        let c1 : SeatCfg := { cfg with cols := 6 }
        { c1 with rows := Int.tdiv (total + c1.cols - 1) c1.cols }
      else
        let c1 : SeatCfg := { cfg with rows := 2 }
        { c1 with cols := Int.tdiv (total + c1.rows - 1) c1.rows }
    let cfg2 : SeatCfg := if cfg1.rows > MAX_R then { cfg1 with rows := MAX_R } else cfg1
    if cfg2.cols > MAX_C then { cfg2 with cols := MAX_C } else cfg2
  else cfg

/-- Inner loop of the initialisation, `for (; c < cols; ++c) seatMap[r][c].id = 0;`
with `k = cols - c`: the assignments it performs. -/
def clear_row (r : Int) : Nat → Int → List Write
  | 0, _ => []
  | k + 1, c => ((r, c), 0) :: clear_row r k (c + 1)

/-- Outer loop of the initialisation, `for (; r < rows; ++r) ...` with `k = rows - r`. -/
def clear_rows (cols : Int) : Nat → Int → List Write
  | 0, _ => []
  | k + 1, r => clear_row r cols.toNat 0 ++ clear_rows cols k (r + 1)

/-- The loop `for (; c < bound && idx < n; ++c) seatMap[r][cStart + c].id = p[idx++];`
with `k = bound - c`: the assignments it performs and the final cursor.  The inner loops of
the front-back mode, which assign `seatMap[rStart + r][c]`, are this loop with row
`rStart + r` and `cStart = 0`. -/
def fill_cells (p : Arr) (n : Int) (r cStart : Int) : Nat → Int → Int → List Write × Int
  | 0, _, idx => ([], idx)
  | k + 1, c, idx =>
    if idx < n then
      let rest := fill_cells p n r cStart k (c + 1) (idx + 1)
      (((r, cStart + c), p idx) :: rest.1, rest.2)
    else ([], idx)

/-- Row loop of the left-right mode, `for (; r < rows; ++r) { odd half; even half }` with
`k = rows - r`: the assignments it performs and the two final cursors. -/
def fill_lr (ds : Dataset) (half cOddStart cEvenStart : Int) :
    Nat → Int → Int → Int → List Write × Int × Int
  | 0, _, idxOdd, idxEven => ([], idxOdd, idxEven)
  | k + 1, r, idxOdd, idxEven =>
    let o := fill_cells ds.odd ds.n_odd r cOddStart half.toNat 0 idxOdd
    let e := fill_cells ds.even ds.n_even r cEvenStart half.toNat 0 idxEven
    let rest := fill_lr ds half cOddStart cEvenStart k (r + 1) o.2 e.2
    (o.1 ++ e.1 ++ rest.1, rest.2)

/-- Row loop of the front-back mode,
`for (; r < half && idx < n; ++r) for (c = 0; c < cols && idx < n; ++c) ...` with
`k = half - r`: the assignments it performs and the final cursor. -/
def fill_fb (p : Arr) (n : Int) (rStart cols : Int) : Nat → Int → Int → List Write × Int
  | 0, _, idx => ([], idx)
  | k + 1, r, idx =>
    if idx < n then
      let row := fill_cells p n (rStart + r) 0 cols.toNat 0 idx
      let rest := fill_fb p n rStart cols k (r + 1) row.2
      (row.1 ++ rest.1, rest.2)
    else ([], idx)

/-- Assignments of the odd values, step 3 of `gen_seat_map` after the initialisation, in
front-back mode. -/
def fb_odd_writes (ds : Dataset) (cfg : SeatCfg) : List Write :=
  let half := Int.tdiv cfg.rows 2
  let rOddStart := if cfg.odd_side ≠ 0 then half else 0
  (fill_fb ds.odd ds.n_odd rOddStart cfg.cols half.toNat 0 0).1

/-- Assignments of the even values in front-back mode. -/
def fb_even_writes (ds : Dataset) (cfg : SeatCfg) : List Write :=
  let half := Int.tdiv cfg.rows 2
  let rEvenStart := if cfg.odd_side = 0 then half else 0
  (fill_fb ds.even ds.n_even rEvenStart cfg.cols half.toNat 0 0).1

/-- Assignments of step 3 of `gen_seat_map` after the initialisation, in program order. -/
def fill_writes (ds : Dataset) (cfg : SeatCfg) : List Write :=
  if cfg.mode_lr_or_fb = 0 then
    let half := Int.tdiv cfg.cols 2
    let cOddStart := if cfg.odd_side ≠ 0 then half else 0
    let cEvenStart := if cfg.odd_side = 0 then half else 0
    (fill_lr ds half cOddStart cEvenStart cfg.rows.toNat 0 0 0).1
  else fb_odd_writes ds cfg ++ fb_even_writes ds cfg

/-- The function `gen_seat_map`: the grid after the call and the resolved configuration.
The function never reads `seatMap`, so the grid is the result of its assignments. -/
def gen_seat_map (ds : Dataset) (seatMap : SeatMap) (cfg : SeatCfg) : SeatMap × SeatCfg :=
  let cfg1 := resolve_dims ds.n cfg
  (run seatMap (clear_rows cfg1.cols cfg1.rows.toNat 0 ++ fill_writes ds cfg1), cfg1)

/-- The cells of row `r`, columns `0 .. cols-1`, as a list. -/
def grid_row (m : SeatMap) (cols : Nat) (r : Int) : List Int :=
  (List.range cols).map (fun c : Nat => m r c)

/-- The positions of the grid of `rows` rows and `cols` columns, row by row. -/
def grid_cells (rows cols : Nat) : List (Int × Int) :=
  (List.range rows).flatMap (fun r : Nat => (List.range cols).map (fun c : Nat => ((r : Int), (c : Int))))

/-- The number of non-empty cells among rows `0 .. rows-1`, columns `0 .. cols-1`. -/
def placed (m : SeatMap) (rows cols : Nat) : Nat :=
  (grid_cells rows cols).countP (fun p => decide (m p.1 p.2 ≠ 0))

/-- An array holding the given values from index 0 on. -/
def arr_of (l : List Int) : Arr := fun i => if 0 ≤ i then l.getD i.toNat 0 else 0

/-! ## Incremental insertion -/

/-- The loop `while (i > 0 && a[i-1] > val) { a[i] = a[i-1]; --i; }` of `insert_value`, by
recursion on `i`: the array after the shifts and the final `i`. -/
def shift_right (val : Int) : Nat → Arr → Arr × Nat
  | 0, a => (a, 0)
  | i + 1, a =>
    if a i > val then shift_right val i (Function.update a ((i : Int) + 1) (a i))
    else (a, i + 1)

/-- The function `insert_value`: the dataset after the call and the returned status. -/
def insert_value (ds : Dataset) (val : Int) : Dataset × Int :=
  if ds.n ≥ MAX_N then (ds, -1)
  else
    let ds1 : Dataset := { ds with raw := Function.update ds.raw ds.n val, n := ds.n + 1 }
    if ds1.n_odd + ds1.n_even = ds1.n - 1 then
      if is_odd val ≠ 0 then
        let s := shift_right val ds1.n_odd ds1.odd
        ({ ds1 with odd := Function.update s.1 s.2 val, n_odd := ds1.n_odd + 1 }, 0)
      else
        let s := shift_right val ds1.n_even ds1.even
        ({ ds1 with even := Function.update s.1 s.2 val, n_even := ds1.n_even + 1 }, 0)
    else (ds1, 0)

/-! ## Sorting -/

/-- The function `_median3`: the pivot and the array after the call.  For `r ≥ l` the shift
`(r-l)>>1` is the quotient by 2. -/
def _median3 (a : Arr) (l r : Int) : Int × Arr :=
  let m := l + (r - l) / 2
  let a1 := if a l > a m then swap_int a l m else a
  let a2 := if a1 l > a1 r then swap_int a1 l r else a1
  let a3 := if a2 m > a2 r then swap_int a2 m r else a2
  let a4 := swap_int a3 m (r - 1)
  (a4 (r - 1), a4)

/-- Inner loop of the insertion sort of `_qsort`, `while (j>=l && a[j]>key) a[j+1]=a[j--];`
with `k` the number of cells of `[l, j]`: the array after the rounds and the final `j`.
The assignment reads `j` for the index `j+1` and decrements it in `a[j--]` with no sequence
point between the two, so the language leaves the order open.  The embedding takes the order
of the build the source documents (`gcc seat_sort.c -o seat_sort`): the right operand and
its decrement come first, so the value stored is the old `a[j]` and the index `j+1` is
computed from the decremented `j`.  The cell written is the cell just read: a round changes
`j` and leaves the array as it was. -/
def insert_shift (l key : Int) : Nat → Int → Arr → Arr × Int
  | 0, j, a => (a, j)
  | k + 1, j, a =>
    if j ≥ l ∧ a j > key then
      insert_shift l key k (j - 1) (Function.update a ((j - 1) + 1) (a j))
    else (a, j)

/-- Outer loop of the insertion sort of `_qsort`,
`for (; i<=r; ++i) { key = a[i]; j = i-1; <inner loop>; a[j+1] = key; }` with
`k = r - i + 1`. -/
def insertion_loop (l : Int) : Nat → Int → Arr → Arr
  | 0, _, a => a
  | k + 1, i, a =>
    let key := a i
    let s := insert_shift l key (i - l).toNat (i - 1) a
    insertion_loop l k (i + 1) (Function.update s.1 (s.2 + 1) key)

/-- The scan `while (a[++i] < pivot);`: the final `i`.  It may read `k` cells; `none` when
none of them stops it. -/
def scan_up (a : Arr) (pivot : Int) : Nat → Int → Option Int
  | 0, _ => none
  | k + 1, i => if a (i + 1) < pivot then scan_up a pivot k (i + 1) else some (i + 1)

/-- The scan `while (a[--j] > pivot);`: the final `j`.  It may read `k` cells; `none` when
none of them stops it. -/
def scan_down (a : Arr) (pivot : Int) : Nat → Int → Option Int
  | 0, _ => none
  | k + 1, j => if a (j - 1) > pivot then scan_down a pivot k (j - 1) else some (j - 1)

/-- The partition loop `while (1) { scan up; scan down; if (i<j) swap else break; }` of
`_qsort` on the range `[l, r]`, with fuel: the array and the final `i`.  The upward scan may
read up to `a[r]` and the downward scan down to `a[l]`. -/
def partition_scan (pivot l r : Int) : Nat → Arr → Int → Int → Option (Arr × Int)
  | 0, _, _, _ => none
  | fuel + 1, a, i, j =>
    match scan_up a pivot (r - i).toNat i with
    | none => none
    | some i1 =>
      match scan_down a pivot (j - l).toNat j with
      | none => none
      | some j1 =>
        if i1 < j1 then partition_scan pivot l r fuel (swap_int a i1 j1) i1 j1
        else some (a, i1)

/-- The function `_qsort`, with fuel: the loop `while (l < r)` continues as a call on the
remaining range. -/
def _qsort : Nat → Arr → Int → Int → Option Arr
  | 0, _, _, _ => none
  | fuel + 1, a, l, r =>
    if l < r then
      if r - l < 16 then some (insertion_loop l (r - l).toNat (l + 1) a)
      else
        let p := _median3 a l r
        match partition_scan p.1 l r (r - l).toNat p.2 l (r - 1) with
        | none => none
        | some (a2, i) =>
          let a3 := swap_int a2 i (r - 1)
          if i - l < r - i then
            match _qsort fuel a3 l (i - 1) with
            | none => none
            | some a4 => _qsort fuel a4 (i + 1) r
          else
            match _qsort fuel a3 (i + 1) r with
            | none => none
            | some a4 => _qsort fuel a4 l (i - 1)
    else some a

/-- The function `quick_sort_wrapper`; `n` units of fuel cover every call of `_qsort`. -/
def quick_sort_wrapper (a : Arr) (n : Int) : Option Arr :=
  if n > 1 then _qsort n.toNat a 0 (n - 1) else some a

/-- The function `_sift_down`, with fuel for its loop `for(;;)`. -/
def _sift_down (n : Int) : Nat → Arr → Int → Option Arr
  | 0, _, _ => none
  | fuel + 1, a, i =>
    let l := 2 * i + 1
    let r := l + 1
    let largest := i
    let largest := if l < n ∧ a l > a largest then l else largest
    let largest := if r < n ∧ a r > a largest then r else largest
    if largest = i then some a
    else _sift_down n fuel (swap_int a i largest) largest

/-- First loop of `heap_sort`, `for (; i>=0; --i) _sift_down(a,n,i);` with `k = i + 1`. -/
def build_heap (n : Int) : Nat → Int → Arr → Option Arr
  | 0, _, a => some a
  | k + 1, i, a =>
    match _sift_down n n.toNat a i with
    | none => none
    | some a1 => build_heap n k (i - 1) a1

/-- Second loop of `heap_sort`,
`for (; i>0; --i) { swap_int(&a[0],&a[i]); _sift_down(a,i,0); }` with `k = i`. -/
def extract_max : Nat → Int → Arr → Option Arr
  | 0, _, a => some a
  | k + 1, i, a =>
    match _sift_down i i.toNat (swap_int a 0 i) 0 with
    | none => none
    | some a1 => extract_max k (i - 1) a1

/-- The function `heap_sort`. -/
def heap_sort (a : Arr) (n : Int) : Option Arr :=
  match build_heap n (Int.tdiv n 2).toNat (Int.tdiv n 2 - 1) a with
  | none => none
  | some a1 => extract_max (n - 1).toNat (n - 1) a1

/-- The tag `SORT_QUICK` of the enumeration `SortAlg`. -/
def SORT_QUICK : Int := 1

/-- The tag `SORT_HEAP` of the enumeration `SortAlg`. -/
def SORT_HEAP : Int := 2

/-- The function `sort_array`. -/
def sort_array (a : Arr) (n : Int) (alg : Int) : Option Arr :=
  if alg = SORT_QUICK then quick_sort_wrapper a n
  else if alg = SORT_HEAP then heap_sort a n
  else quick_sort_wrapper a n

/-- The cells `l .. r` of the array are in non-decreasing order. -/
def SortedOn (a : Arr) (l r : Int) : Prop :=
  ∀ i j : Int, l ≤ i → i ≤ j → j ≤ r → a i ≤ a j

/-- A small dataset used to instantiate the theorems: `raw = 2, 4, 6, 1, 3, 8, 5`, not yet
classified. -/
def demo_dataset : Dataset :=
  { raw := fun i => [2, 4, 6, 1, 3, 8, 5].getD i.toNat 0, n := 7,
    odd := fun _ => 0, n_odd := 0, even := fun _ => 0, n_even := 0 }

/-! ## Specification vocabulary -/

/-- The array `b` is a rearrangement of `a` that moves cells of `[l, r]` only. -/
def PermOn (l r : Int) (a b : Arr) : Prop :=
  ∃ σ : Equiv.Perm Int, (∀ k, k < l ∨ r < k → σ k = k) ∧ ∀ k, b k = a (σ k)

/-- What all three classifiers establish, from the dataset `ds` before to `ds1` after. -/
def Classified (ds ds1 : Dataset) : Prop :=
  ds1.n = ds.n ∧ ds1.raw = ds.raw ∧
  ds1.n_odd + ds1.n_even = ds.n ∧
  (∀ x ∈ slice ds1.odd ds1.n_odd, Odd x) ∧
  (∀ x ∈ slice ds1.even ds1.n_even, Even x) ∧
  (slice ds1.odd ds1.n_odd ++ slice ds1.even ds1.n_even).Perm (slice ds.raw ds.n) ∧
  ds1.n_odd = (slice ds.raw ds.n).countP (fun x => decide (Odd x))

/-- Closed form of the assignments of `fill_cells`: `min k (n - i)` cells from column
`cStart + c` on receive `p[i], p[i+1], ...`. -/
def cells_cf (p : Arr) (n : Nat) (r cStart : Int) (k : Nat) (c : Int) (i : Nat) : List Write :=
  (List.range (min k (n - i))).map
    (fun t : Nat => ((r, cStart + c + (t : Int)), p ((i + t : Nat) : Int)))

/-- Closed form of the assignments of one row of the left-right mode. -/
def lr_row (ds : Dataset) (H : Nat) (oS eS : Int) (r : Nat) : List Write :=
  cells_cf ds.odd ds.n_odd r oS H 0 (min (r * H) ds.n_odd) ++
    cells_cf ds.even ds.n_even r eS H 0 (min (r * H) ds.n_even)

/-- Closed form of the assignments of one row of one half in front-back mode. -/
def fb_row (p : Arr) (n : Nat) (rStart : Int) (C : Nat) (r : Nat) : List Write :=
  cells_cf p n (rStart + r) 0 C 0 (min (r * C) n)

/-- The dataset of the left-right scenario: `odd = 1, 3, 5` and `even = 2, 4`. -/
def demo_lr_dataset : Dataset :=
  { raw := arr_of [1, 2, 3, 4, 5], n := 5, odd := arr_of [1, 3, 5], n_odd := 3,
    even := arr_of [2, 4], n_even := 2 }

/-- The configuration of the left-right scenario: 3 rows, 6 columns, odd values first. -/
def demo_lr_cfg : SeatCfg := { rows := 3, cols := 6, mode_lr_or_fb := 0, odd_side := 0 }

/-- The dataset of the front-back scenario: `odd = 7, 9` and `even = 2, 4, 6, 8`. -/
def demo_fb_dataset : Dataset :=
  { raw := arr_of [2, 7, 4, 9, 6, 8], n := 6, odd := arr_of [7, 9], n_odd := 2,
    even := arr_of [2, 4, 6, 8], n_even := 4 }

/-- The configuration of the front-back scenario: 2 rows, 4 columns, odd values second. -/
def demo_fb_cfg : SeatCfg := { rows := 2, cols := 4, mode_lr_or_fb := 1, odd_side := 1 }

/-- A dataset of twenty values `1 .. 20`, not yet classified. -/
def demo_dataset20 : Dataset :=
  { raw := fun i => i + 1, n := 20, odd := fun _ => 0, n_odd := 0,
    even := fun _ => 0, n_even := 0 }

/-- A dataset with five odd and three even values, all non-zero. -/
def demo_overflow_dataset : Dataset :=
  { raw := arr_of [1, 2, 3, 4, 5, 6, 7, 9], n := 8, odd := arr_of [1, 3, 5, 7, 9], n_odd := 5,
    even := arr_of [2, 4, 6], n_even := 3 }

/-- A grid of capacity 5: one row of five columns, left-right mode, odd values first. -/
def demo_overflow_cfg : SeatCfg := { rows := 1, cols := 5, mode_lr_or_fb := 0, odd_side := 0 }

/-- The number of cells of one half of the grid: `rows * (cols / 2)` in left-right mode and
`(rows / 2) * cols` in front-back mode. -/
def half_cells (cfg : SeatCfg) : Nat :=
  if cfg.mode_lr_or_fb = 0 then cfg.rows.toNat * (cfg.cols / 2).toNat
  else (cfg.rows / 2).toNat * cfg.cols.toNat

/-- The region of the grid that receives odd values: a column range in left-right mode, a
row range in front-back mode. -/
def in_odd_region (cfg : SeatCfg) (p : Int × Int) : Bool :=
  if cfg.mode_lr_or_fb = 0 then
    decide ((if cfg.odd_side ≠ 0 then cfg.cols / 2 else 0) ≤ p.2 ∧
      p.2 < (if cfg.odd_side ≠ 0 then cfg.cols / 2 else 0) + cfg.cols / 2)
  else
    decide ((if cfg.odd_side ≠ 0 then cfg.rows / 2 else 0) ≤ p.1 ∧
      p.1 < (if cfg.odd_side ≠ 0 then cfg.rows / 2 else 0) + cfg.rows / 2)

/-- The region of the grid that receives even values. -/
def in_even_region (cfg : SeatCfg) (p : Int × Int) : Bool :=
  if cfg.mode_lr_or_fb = 0 then
    decide ((if cfg.odd_side = 0 then cfg.cols / 2 else 0) ≤ p.2 ∧
      p.2 < (if cfg.odd_side = 0 then cfg.cols / 2 else 0) + cfg.cols / 2)
  else
    decide ((if cfg.odd_side = 0 then cfg.rows / 2 else 0) ≤ p.1 ∧
      p.1 < (if cfg.odd_side = 0 then cfg.rows / 2 else 0) + cfg.rows / 2)

/-- A dataset classified and sorted, with `odd = 1` and `even = 2, 6, 8`. -/
def demo_sorted_dataset : Dataset :=
  { raw := arr_of [1, 2, 6, 8], n := 4, odd := arr_of [1], n_odd := 1,
    even := arr_of [2, 6, 8], n_even := 3 }

/-- Twenty even values in non-decreasing order, the value 18 twice. -/
def demo_sorted_evens : Arr :=
  arr_of [2, 4, 6, 8, 10, 12, 14, 16, 18, 18, 22, 24, 26, 28, 30, 32, 34, 36, 38, 40]

/-- A dataset of twenty values, classified and sorted: the even values 6 and 8 and the
eighteen odd values `1, 3, .., 35`. -/
def demo_loaded_dataset : Dataset :=
  { raw := arr_of [6, 8, 1, 3, 5, 7, 9, 11, 13, 15, 17, 19, 21, 23, 25, 27, 29, 31, 33, 35],
    n := 20,
    odd := arr_of [1, 3, 5, 7, 9, 11, 13, 15, 17, 19, 21, 23, 25, 27, 29, 31, 33, 35],
    n_odd := 18, even := arr_of [6, 8], n_even := 2 }

/-- A dataset whose raw buffer is full: `n = 1024`, classified as three odd values and the
rest even. -/
def demo_full_dataset : Dataset :=
  { raw := fun i => 2 * i, n := 1024, odd := arr_of [1, 3, 5], n_odd := 3,
    even := fun i => 2 * i, n_even := 1021 }

/-- A dataset with negative values, `raw = -1, 0, -3, -4`, not yet classified. -/
def demo_negative_dataset : Dataset :=
  { raw := arr_of [-1, 0, -3, -4], n := 4, odd := arr_of [], n_odd := 0,
    even := arr_of [], n_even := 0 }

/-- Max-heap order among the first `n` cells, for every parent of index at least `s`: no
child exceeds its parent. -/
def IsHeapFrom (a : Arr) (n s : Int) : Prop :=
  ∀ p c : Int, s ≤ p → (c = 2 * p + 1 ∨ c = 2 * p + 2) → c < n → a c ≤ a p

/-- Max-heap order for every parent of index at least `s` except `i`, whose children are
still dominated by the parent of `i`. -/
def HeapExcept (a : Arr) (n s i : Int) : Prop :=
  (∀ p c : Int, s ≤ p → p ≠ i → (c = 2 * p + 1 ∨ c = 2 * p + 2) → c < n → a c ≤ a p) ∧
  (∀ g c : Int, s ≤ g → (i = 2 * g + 1 ∨ i = 2 * g + 2) → (c = 2 * i + 1 ∨ c = 2 * i + 2) →
    c < n → a c ≤ a g)

/-- The odd and even sequences of `cur` are what sorting the classified dataset `c` with
`sort_array` and the algorithm tag `alg` gives, element for element. -/
def RerunAgrees (alg : Int) (cur c : Dataset) : Prop :=
  c.n_odd = cur.n_odd ∧ c.n_even = cur.n_even ∧
  ∃ bo be : Arr,
    sort_array c.odd c.n_odd alg = some bo ∧ sort_array c.even c.n_even alg = some be ∧
    slice bo c.n_odd = slice cur.odd cur.n_odd ∧ slice be c.n_even = slice cur.even cur.n_even

/-- A recursive call of `_qsort`, recorded as `((l, r), (cl, cr), (kl, kr))`: while the loop
held the range `[l, r]` the function called itself on `[cl, cr]` and kept `[kl, kr]` for
the next iteration of its loop. -/
abbrev RecCall := (Int × Int) × (Int × Int) × (Int × Int)

/-- The function `_qsort` with its call structure made visible: besides the array it
returns the number of activations of `_qsort` ever stacked below this one, and the
recursive calls made, in order.  The continuation of the loop `while (l < r)` runs in the
same activation; only the calls written `_qsort(...)` in the source add one. -/
def _qsort_calls : Nat → Arr → Int → Int → Option (Arr × Nat × List RecCall)
  | 0, _, _, _ => none
  | fuel + 1, a, l, r =>
    if l < r then
      if r - l < 16 then some (insertion_loop l (r - l).toNat (l + 1) a, 0, [])
      else
        let p := _median3 a l r
        match partition_scan p.1 l r (r - l).toNat p.2 l (r - 1) with
        | none => none
        | some (a2, i) =>
          let a3 := swap_int a2 i (r - 1)
          if i - l < r - i then
            match _qsort_calls fuel a3 l (i - 1) with
            | none => none
            | some (a4, d1, c1) =>
              match _qsort_calls fuel a4 (i + 1) r with
              | none => none
              | some (a5, d2, c2) =>
                some (a5, max (d1 + 1) d2, ((l, r), (l, i - 1), (i + 1, r)) :: (c1 ++ c2))
          else
            match _qsort_calls fuel a3 (i + 1) r with
            | none => none
            | some (a4, d1, c1) =>
              match _qsort_calls fuel a4 l (i - 1) with
              | none => none
              | some (a5, d2, c2) =>
                some (a5, max (d1 + 1) d2, ((l, r), (i + 1, r), (l, i - 1)) :: (c1 ++ c2))
    else some (a, 0, [])

/-- The function `quick_sort_wrapper` with the recursion depth (the largest number of
activations of `_qsort` on the stack at once) and the recursive calls made. -/
def quick_sort_wrapper_calls (a : Arr) (n : Int) : Option (Arr × Nat × List RecCall) :=
  if n > 1 then
    match _qsort_calls n.toNat a 0 (n - 1) with
    | none => none
    | some (b, d, c) => some (b, d + 1, c)
  else some (a, 0, [])

/-- A recursive call is made from a range of at least 17 cells, on the part that is no
longer than the part kept for the loop and has at most `(r - l) / 2` cells; the two parts
and the pivot make up the range. -/
def SmallerSide (c : RecCall) : Prop :=
  16 ≤ c.1.2 - c.1.1 ∧
  c.2.1.2 - c.2.1.1 + 1 ≤ c.2.2.2 - c.2.2.1 + 1 ∧
  c.2.1.2 - c.2.1.1 + 1 ≤ (c.1.2 - c.1.1) / 2 ∧
  (c.2.1.2 - c.2.1.1 + 1) + (c.2.2.2 - c.2.2.1 + 1) = c.1.2 - c.1.1 ∧
  c.1.1 ≤ c.2.1.1 ∧ c.2.1.2 ≤ c.1.2 ∧ c.1.1 ≤ c.2.2.1 ∧ c.2.2.2 ≤ c.1.2

/-- The scan `while (a[++i] < pivot);` with the indices it reads, in order. -/
def scan_up_reads (a : Arr) (pivot : Int) : Nat → Int → Option Int × List Int
  | 0, _ => (none, [])
  | k + 1, i =>
    if a (i + 1) < pivot then
      let s := scan_up_reads a pivot k (i + 1)
      (s.1, (i + 1) :: s.2)
    else (some (i + 1), [i + 1])

/-- The scan `while (a[--j] > pivot);` with the indices it reads, in order. -/
def scan_down_reads (a : Arr) (pivot : Int) : Nat → Int → Option Int × List Int
  | 0, _ => (none, [])
  | k + 1, j =>
    if a (j - 1) > pivot then
      let s := scan_down_reads a pivot k (j - 1)
      (s.1, (j - 1) :: s.2)
    else (some (j - 1), [j - 1])

/-- The partition loop of `_qsort` with the indices read through `i` and through `j`.  The
swap `swap_int(&a[i], &a[j])` touches the two cells the scans read last. -/
def partition_scan_reads (pivot l r : Int) :
    Nat → Arr → Int → Int → Option (Arr × Int) × List Int × List Int
  | 0, _, _, _ => (none, [], [])
  | fuel + 1, a, i, j =>
    let u := scan_up_reads a pivot (r - i).toNat i
    match u.1 with
    | none => (none, u.2, [])
    | some i1 =>
      let d := scan_down_reads a pivot (j - l).toNat j
      match d.1 with
      | none => (none, u.2, d.2)
      | some j1 =>
        if i1 < j1 then
          let p := partition_scan_reads pivot l r fuel (swap_int a i1 j1) i1 j1
          (p.1, u.2 ++ p.2.1, d.2 ++ p.2.2)
        else (some (a, i1), u.2, d.2)

/-- The inner loop of the insertion sort with the indices it reads and writes, in order:
each round reads `a[j]` for the test and, when the test holds, reads `a[j]` again for the
right operand and writes the cell of index `j+1` taken after the decrement, as in
`insert_shift`. -/
def insert_shift_acc (l key : Int) : Nat → Int → Arr → (Arr × Int) × List Int
  | 0, j, a => ((a, j), [])
  | k + 1, j, a =>
    if j ≥ l then
      if a j > key then
        let s := insert_shift_acc l key k (j - 1) (Function.update a ((j - 1) + 1) (a j))
        (s.1, j :: j :: ((j - 1) + 1) :: s.2)
      else ((a, j), [j])
    else ((a, j), [])

/-- The insertion sort of `_qsort` with the indices it reads and writes, in order: each
round reads `a[i]`, runs the inner loop and writes `a[j+1]`. -/
def insertion_loop_acc (l : Int) : Nat → Int → Arr → Arr × List Int
  | 0, _, a => (a, [])
  | k + 1, i, a =>
    let key := a i
    let s := insert_shift_acc l key (i - l).toNat (i - 1) a
    let rest := insertion_loop_acc l k (i + 1) (Function.update s.1.1 (s.1.2 + 1) key)
    (rest.1, i :: (s.2 ++ (s.1.2 + 1) :: rest.2))

/-! ## Basic facts -/

theorem ldiff_one (n : Nat) : Nat.ldiff 1 n = (n + 1) % 2 := by
  apply Nat.eq_of_testBit_eq
  intro i
  rw [Nat.testBit_ldiff]
  cases i with
  | zero =>
    simp [Nat.testBit_zero]
    rcases Nat.mod_two_eq_zero_or_one n with h | h <;> simp [h, Nat.add_mod]
  | succ i =>
    have h1 : Nat.testBit 1 (i + 1) = false := by
      simp [Nat.testBit_succ]
    have h2 : Nat.testBit ((n + 1) % 2) (i + 1) = false := by
      rcases Nat.mod_two_eq_zero_or_one (n + 1) with h | h <;> simp [h, Nat.testBit_succ]
    simp [h1, h2]

theorem is_odd_eq_emod (x : Int) : is_odd x = x % 2 := by
  unfold is_odd
  cases x with
  | ofNat n =>
    show ((Nat.land n 1 : Nat) : Int) = (n : Int) % 2
    have h2 : Nat.land n 1 = n % 2 := Nat.and_one_is_mod n
    rw [h2]; omega
  | negSucc n =>
    show ((Nat.ldiff 1 n : Nat) : Int) = (Int.negSucc n) % 2
    rw [ldiff_one, Int.negSucc_eq]; omega

theorem is_odd_ne_zero_iff (x : Int) : is_odd x ≠ 0 ↔ Odd x := by
  rw [is_odd_eq_emod, Int.odd_iff]; omega

theorem is_odd_eq_zero_iff (x : Int) : is_odd x = 0 ↔ Even x := by
  rw [is_odd_eq_emod, Int.even_iff]

theorem slice_length (a : Arr) (n : Nat) : (slice a n).length = n := by
  simp [slice]

theorem slice_succ (a : Arr) (n : Nat) : slice a (n + 1) = slice a n ++ [a n] := by
  simp [slice, List.range_succ]

theorem mem_slice {a : Arr} {n : Nat} {x : Int} :
    x ∈ slice a n ↔ ∃ k : Nat, k < n ∧ a k = x := by
  simp [slice]

theorem slice_congr {a b : Arr} {n : Nat} (h : ∀ k : Nat, k < n → a k = b k) :
    slice a n = slice b n := by
  unfold slice
  apply List.map_congr_left
  intro k hk
  exact h k (List.mem_range.mp hk)

theorem swap_int_apply (a : Arr) (i j k : Int) :
    swap_int a i j k = a (Equiv.swap i j k) := by
  unfold swap_int
  by_cases hj : k = j
  · subst hj; simp
  · by_cases hi : k = i
    · subst hi; simp [Function.update_noteq hj]
    · simp [Function.update_noteq hj, Function.update_noteq hi,
        Equiv.swap_apply_of_ne_of_ne hi hj]

theorem PermOn.refl (l r : Int) (a : Arr) : PermOn l r a a :=
  ⟨Equiv.refl _, fun _ _ => rfl, fun _ => rfl⟩

theorem PermOn.trans {l r : Int} {a b c : Arr} (h1 : PermOn l r a b) (h2 : PermOn l r b c) :
    PermOn l r a c := by
  obtain ⟨σ, hσ, hb⟩ := h1
  obtain ⟨τ, hτ, hc⟩ := h2
  refine ⟨τ.trans σ, ?_, ?_⟩
  · intro k hk
    simp [Equiv.trans_apply, hτ k hk, hσ k hk]
  · intro k
    simp [Equiv.trans_apply, hc k, hb (τ k)]

theorem PermOn.mono {l r l1 r1 : Int} {a b : Arr} (h : PermOn l r a b)
    (hl : l1 ≤ l) (hr : r ≤ r1) : PermOn l1 r1 a b := by
  obtain ⟨σ, hσ, hb⟩ := h
  exact ⟨σ, fun k hk => hσ k (by omega), hb⟩

theorem PermOn.swap (a : Arr) {l r i j : Int} (hi : l ≤ i ∧ i ≤ r) (hj : l ≤ j ∧ j ≤ r) :
    PermOn l r a (swap_int a i j) := by
  refine ⟨Equiv.swap i j, ?_, fun k => swap_int_apply a i j k⟩
  intro k hk
  apply Equiv.swap_apply_of_ne_of_ne <;> omega

theorem PermOn.frame {l r : Int} {a b : Arr} (h : PermOn l r a b) {k : Int}
    (hk : k < l ∨ r < k) : b k = a k := by
  obtain ⟨σ, hσ, hb⟩ := h
  rw [hb k, hσ k hk]

theorem PermOn.exists_source {l r : Int} {a b : Arr} (h : PermOn l r a b) {k : Int}
    (hk : l ≤ k ∧ k ≤ r) : ∃ k1, (l ≤ k1 ∧ k1 ≤ r) ∧ b k = a k1 := by
  obtain ⟨σ, hσ, hb⟩ := h
  refine ⟨σ k, ?_, hb k⟩
  by_contra hcon
  have h1 : σ (σ k) = σ k := hσ (σ k) (by omega)
  have h2 : σ k = k := σ.injective h1
  omega

theorem PermOn.forall_range {l r : Int} {a b : Arr} (h : PermOn l r a b) {P : Int → Prop}
    (hP : ∀ k, l ≤ k → k ≤ r → P (a k)) : ∀ k, l ≤ k → k ≤ r → P (b k) := by
  intro k h1 h2
  obtain ⟨k1, hk1, e⟩ := h.exists_source ⟨h1, h2⟩
  rw [e]; exact hP k1 hk1.1 hk1.2

theorem PermOn.slice_perm {a b : Arr} {n : Nat} (h : PermOn 0 ((n : Int) - 1) a b) :
    (slice b n).Perm (slice a n) := by
  obtain ⟨σ, hσ, hb⟩ := h
  have hmaps : ∀ k : Int, 0 ≤ k ∧ k ≤ (n : Int) - 1 → 0 ≤ σ k ∧ σ k ≤ (n : Int) - 1 := by
    intro k hk
    by_contra hcon
    have h1 : σ (σ k) = σ k := hσ (σ k) (by omega)
    have h2 : σ k = k := σ.injective h1
    omega
  have hmaps2 : ∀ k : Int, 0 ≤ k ∧ k ≤ (n : Int) - 1 →
      0 ≤ σ.symm k ∧ σ.symm k ≤ (n : Int) - 1 := by
    intro k hk
    by_contra hcon
    have h1 : σ (σ.symm k) = σ.symm k := hσ (σ.symm k) (by omega)
    rw [Equiv.apply_symm_apply] at h1
    omega
  have e1 : slice b n = ((List.range n).map (fun k : Nat => (σ k).toNat)).map
      (fun k : Nat => a (k : Int)) := by
    unfold slice
    rw [List.map_map]
    apply List.map_congr_left
    intro k hk
    have hk1 := List.mem_range.mp hk
    have := hmaps k (by omega)
    simp only [Function.comp_apply]
    rw [hb k, Int.toNat_of_nonneg this.1]
  rw [e1]
  unfold slice
  apply List.Perm.map
  apply List.perm_of_nodup_nodup_toFinset_eq
  · apply List.Nodup.map_on _ (List.nodup_range n)
    intro x hx y hy hxy
    have hx1 := hmaps x (by have := List.mem_range.mp hx; omega)
    have hy1 := hmaps y (by have := List.mem_range.mp hy; omega)
    have : σ (x : Int) = σ (y : Int) := by omega
    have := σ.injective this
    omega
  · exact List.nodup_range n
  · ext x
    simp only [List.mem_toFinset, List.mem_map, List.mem_range]
    constructor
    · rintro ⟨k, hk, rfl⟩
      have := hmaps k (by omega)
      omega
    · intro hx
      have := hmaps2 x (by omega)
      refine ⟨(σ.symm x).toNat, by omega, ?_⟩
      rw [Int.toNat_of_nonneg this.1, Equiv.apply_symm_apply]
      simp

/-! ## Classification: proofs -/

theorem seg_zero (a : Arr) (n : Nat) : seg a 0 n = slice a n := by
  simp [seg, slice, List.range_eq_range']

theorem seg_succ (a : Arr) (i k : Nat) : seg a i (k + 1) = a i :: seg a (i + 1) k := by
  simp [seg, List.range'_succ]

theorem slice_update_ge (a : Arr) (n : Nat) (j : Int) (v : Int) (h : (n : Int) ≤ j) :
    slice (Function.update a j v) n = slice a n := by
  apply slice_congr
  intro k hk
  apply Function.update_noteq
  omega

theorem collect_odd_spec (raw : Arr) : ∀ (k i : Nat) (odd : Arr) (c : Nat),
    slice (collect_odd raw k i (odd, c)).1 (collect_odd raw k i (odd, c)).2
      = slice odd c ++ (seg raw i k).filter (fun x => decide (Odd x)) := by
  intro k
  induction k with
  | zero => intro i odd c; simp [collect_odd, seg]
  | succ k ih =>
    intro i odd c
    rw [collect_odd, seg_succ]
    by_cases h : is_odd (raw i) ≠ 0
    · rw [if_pos h, ih]
      have ho : Odd (raw i) := (is_odd_ne_zero_iff _).mp h
      rw [slice_succ, slice_update_ge _ _ _ _ (le_refl _)]
      simp [ho]
    · rw [if_neg h, ih]
      have ho : ¬ Odd (raw i) := fun hh => h ((is_odd_ne_zero_iff _).mpr hh)
      simp [ho]

theorem collect_even_spec (raw : Arr) : ∀ (k i : Nat) (even : Arr) (c : Nat),
    slice (collect_even raw k i (even, c)).1 (collect_even raw k i (even, c)).2
      = slice even c ++ (seg raw i k).filter (fun x => decide (Even x)) := by
  intro k
  induction k with
  | zero => intro i even c; simp [collect_even, seg]
  | succ k ih =>
    intro i even c
    rw [collect_even, seg_succ]
    by_cases h : is_odd (raw i) = 0
    · rw [if_pos h, ih]
      have ho : Even (raw i) := (is_odd_eq_zero_iff _).mp h
      rw [slice_succ, slice_update_ge _ _ _ _ (le_refl _)]
      simp [ho]
    · rw [if_neg h, ih]
      have ho : ¬ Even (raw i) := fun hh => h ((is_odd_eq_zero_iff _).mpr hh)
      simp [ho]

/-- The odd part of `classify_stable` is the odd elements of `raw` in their order. -/
theorem classify_stable_odd (ds : Dataset) :
    slice (classify_stable ds).odd (classify_stable ds).n_odd
      = (slice ds.raw ds.n).filter (fun x => decide (Odd x)) := by
  have := collect_odd_spec ds.raw ds.n 0 ds.odd 0
  simp only [classify_stable]
  rw [this, seg_zero]; simp [slice]

theorem classify_stable_even (ds : Dataset) :
    slice (classify_stable ds).even (classify_stable ds).n_even
      = (slice ds.raw ds.n).filter (fun x => decide (Even x)) := by
  have := collect_even_spec ds.raw ds.n 0 ds.even 0
  simp only [classify_stable]
  rw [this, seg_zero]; simp [slice]

/-- Parity of the two parts and the permutation fix the number of odd values. -/
theorem count_of_split {o e l : List Int} (ho : ∀ x ∈ o, Odd x) (he : ∀ x ∈ e, Even x)
    (hp : (o ++ e).Perm l) : o.length = l.countP (fun x => decide (Odd x)) := by
  rw [← hp.countP_eq, List.countP_append]
  have h1 : o.countP (fun x => decide (Odd x)) = o.length := by
    rw [List.countP_eq_length]; intro x hx; simpa using ho x hx
  have h2 : e.countP (fun x => decide (Odd x)) = 0 := by
    rw [List.countP_eq_zero]; intro x hx
    have := he x hx
    simp only [decide_eq_true_eq]
    intro hodd
    exact (Int.not_even_iff_odd.mpr hodd) this
  omega

theorem classify_stable_classified (ds : Dataset) : Classified ds (classify_stable ds) := by
  have ho := classify_stable_odd ds
  have he := classify_stable_even ds
  have hperm : (slice (classify_stable ds).odd (classify_stable ds).n_odd ++
      slice (classify_stable ds).even (classify_stable ds).n_even).Perm (slice ds.raw ds.n) := by
    rw [ho, he]
    have h := List.filter_append_perm (fun x => decide (Odd x)) (slice ds.raw ds.n)
    have e : (fun x : Int => !decide (Odd x)) = (fun x => decide (Even x)) := by
      funext x; by_cases hx : Odd x
      · have : ¬ Even x := Int.not_even_iff_odd.mpr hx
        simp [hx, this]
      · have : Even x := Int.not_odd_iff_even.mp hx
        simp [hx, this]
    rw [e] at h
    exact h
  have hodd : ∀ x ∈ slice (classify_stable ds).odd (classify_stable ds).n_odd, Odd x := by
    rw [ho]; intro x hx; simpa using (List.mem_filter.mp hx).2
  have heven : ∀ x ∈ slice (classify_stable ds).even (classify_stable ds).n_even, Even x := by
    rw [he]; intro x hx; simpa using (List.mem_filter.mp hx).2
  refine ⟨rfl, rfl, ?_, hodd, heven, hperm, ?_⟩
  · have := hperm.length_eq
    simpa [slice_length] using this
  · have := count_of_split hodd heven hperm
    simpa [slice_length] using this

theorem swap_int_left (a : Arr) (i j : Int) : swap_int a i j i = a j := by
  rw [swap_int_apply, Equiv.swap_apply_left]

theorem swap_int_right (a : Arr) (i j : Int) : swap_int a i j j = a i := by
  rw [swap_int_apply, Equiv.swap_apply_right]

theorem swap_int_other (a : Arr) {i j k : Int} (hi : k ≠ i) (hj : k ≠ j) :
    swap_int a i j k = a k := by
  rw [swap_int_apply, Equiv.swap_apply_of_ne_of_ne hi hj]

/-- Invariant of the loop of `classify_partition`. -/
theorem partition_loop_spec : ∀ (k i : Nat) (buf : Arr) (p : Nat), p ≤ i →
    (∀ j : Nat, j < p → Odd (buf j)) → (∀ j : Nat, p ≤ j → j < i → Even (buf j)) →
    PermOn 0 ((i + k : Nat) - 1) buf (partition_loop k i (buf, p)).1 ∧
    (partition_loop k i (buf, p)).2 ≤ i + k ∧
    (∀ j : Nat, j < (partition_loop k i (buf, p)).2 → Odd ((partition_loop k i (buf, p)).1 j)) ∧
    (∀ j : Nat, (partition_loop k i (buf, p)).2 ≤ j → j < i + k →
      Even ((partition_loop k i (buf, p)).1 j)) := by
  intro k
  induction k with
  | zero =>
    intro i buf p hp ho he
    simp only [partition_loop, Nat.add_zero]
    exact ⟨PermOn.refl _ _ _, hp, ho, he⟩
  | succ k ih =>
    intro i buf p hp ho he
    rw [partition_loop]
    by_cases h : is_odd (buf i) ≠ 0
    · rw [if_pos h]
      have hodd : Odd (buf i) := (is_odd_ne_zero_iff _).mp h
      have hsw : PermOn 0 ((i + (k + 1) : Nat) - 1) buf (swap_int buf i p) :=
        PermOn.swap buf (by omega) (by omega)
      have := ih (i + 1) (swap_int buf i p) (p + 1) (by omega)
        (by
          intro j hj
          by_cases hjp : j = p
          · subst hjp; rw [swap_int_right]; exact hodd
          · rw [swap_int_other _ (by omega) (by omega)]; exact ho j (by omega))
        (by
          intro j hj1 hj2
          by_cases hji : j = i
          · subst hji; rw [swap_int_left]; exact he p (le_refl _) (by omega)
          · rw [swap_int_other _ (by omega) (by omega)]; exact he j (by omega) (by omega))
      have e : i + 1 + k = i + (k + 1) := by omega
      rw [e] at this
      exact ⟨hsw.trans this.1, this.2⟩
    · rw [if_neg h]
      have heven : Even (buf i) := (is_odd_eq_zero_iff _).mp (not_not.mp h)
      have := ih (i + 1) buf p (by omega) ho
        (by
          intro j hj1 hj2
          by_cases hji : j = i
          · subst hji; exact heven
          · exact he j hj1 (by omega))
      have e : i + 1 + k = i + (k + 1) := by omega
      rw [e] at this
      exact this

theorem slice_memcpy_zero (dst src : Arr) (n : Nat) : slice (memcpy dst src 0 n) n = slice src n := by
  apply slice_congr
  intro k hk
  simp [memcpy, hk]

/-- A prefix of the work buffer and the copy of the rest make up the whole buffer. -/
theorem slice_split (buf dst : Arr) (n p : Nat) (hp : p ≤ n) :
    slice buf p ++ slice (memcpy dst buf p (n - p)) (n - p) = slice buf n := by
  apply List.ext_getElem
  · simp [slice_length]; omega
  · intro i h1 h2
    simp only [slice_length, List.length_append] at h1 h2
    by_cases hi : i < p
    · rw [List.getElem_append_left (by simpa [slice_length] using hi)]
      simp [slice]
    · rw [List.getElem_append_right (by simpa [slice_length] using hi)]
      simp only [slice, List.getElem_map, List.getElem_range, List.length_map, List.length_range,
        memcpy]
      have : (0:Int) ≤ ((i - p : Nat) : Int) ∧ ((i - p : Nat) : Int) < ((n - p : Nat) : Int) := by
        omega
      rw [if_pos this]
      congr 1; omega

/-- The common final step of `classify_partition` and `classify_two_ptr`. -/
theorem classified_of_buffer (ds : Dataset) (buf : Arr) (p : Nat)
    (hperm : PermOn 0 ((ds.n : Int) - 1) (memcpy ds.odd ds.raw 0 ds.n) buf) (hp : p ≤ ds.n)
    (ho : ∀ j : Nat, j < p → Odd (buf j)) (he : ∀ j : Nat, p ≤ j → j < ds.n → Even (buf j)) :
    Classified ds { raw := ds.raw, n := ds.n, odd := buf, n_odd := p,
                    even := memcpy ds.even buf p (ds.n - p), n_even := ds.n - p } := by
  have hodd : ∀ x ∈ slice buf p, Odd x := by
    intro x hx
    obtain ⟨k, hk, rfl⟩ := mem_slice.mp hx
    exact ho k hk
  have heven : ∀ x ∈ slice (memcpy ds.even buf p (ds.n - p)) (ds.n - p), Even x := by
    intro x hx
    obtain ⟨k, hk, rfl⟩ := mem_slice.mp hx
    have : (0:Int) ≤ (k : Int) ∧ (k : Int) < ((ds.n - p : Nat) : Int) := by omega
    simp only [memcpy, if_pos this]
    have := he (p + k) (by omega) (by omega)
    simpa using this
  have hP : (slice buf p ++ slice (memcpy ds.even buf p (ds.n - p)) (ds.n - p)).Perm
      (slice ds.raw ds.n) := by
    rw [slice_split _ _ _ _ hp, ← slice_memcpy_zero ds.odd ds.raw ds.n]
    exact hperm.slice_perm
  refine ⟨rfl, rfl, by simp; omega, hodd, heven, hP, ?_⟩
  have := count_of_split hodd heven hP
  simpa [slice_length] using this

theorem classify_partition_classified (ds : Dataset) : Classified ds (classify_partition ds) := by
  have h := partition_loop_spec ds.n 0 (memcpy ds.odd ds.raw 0 ds.n) 0 (le_refl _)
    (by intro j hj; omega) (by intro j h1 h2; omega)
  simp only [Nat.zero_add] at h
  obtain ⟨h1, h2, h3, h4⟩ := h
  have h1' : PermOn 0 ((ds.n : Int) - 1) (memcpy ds.odd ds.raw 0 ds.n)
      (partition_loop ds.n 0 (memcpy ds.odd ds.raw 0 ds.n, 0)).1 := by
    simpa using h1
  exact classified_of_buffer ds _ _ h1' h2 h3 h4

theorem skip_odd_spec (buf : Arr) (r : Int) : ∀ (k l : Nat), (r - l + 1).toNat ≤ k →
    l ≤ skip_odd buf r k l ∧ ((l : Int) ≤ r + 1 → (skip_odd buf r k l : Int) ≤ r + 1) ∧
    (∀ j : Nat, l ≤ j → j < skip_odd buf r k l → Odd (buf j)) ∧
    ((skip_odd buf r k l : Int) ≤ r → Even (buf (skip_odd buf r k l))) := by
  intro k
  induction k with
  | zero =>
    intro l hk
    simp only [skip_odd]
    refine ⟨le_refl _, fun h => h, fun j h1 h2 => by omega, fun h => by omega⟩
  | succ k ih =>
    intro l hk
    rw [skip_odd]
    by_cases h : (l : Int) ≤ r ∧ is_odd (buf l) ≠ 0
    · rw [if_pos h]
      obtain ⟨h1, h2, h3, h4⟩ := ih (l + 1) (by push_cast; omega)
      refine ⟨by omega, fun _ => h2 (by push_cast; omega), ?_, h4⟩
      intro j hj1 hj2
      by_cases hjl : j = l
      · subst hjl; exact (is_odd_ne_zero_iff _).mp h.2
      · exact h3 j (by omega) hj2
    · rw [if_neg h]
      refine ⟨le_refl _, fun h => h, fun j h1 h2 => by omega, ?_⟩
      intro hl
      have : ¬ is_odd (buf l) ≠ 0 := fun hh => h ⟨hl, hh⟩
      exact (is_odd_eq_zero_iff _).mp (not_not.mp this)

theorem skip_even_spec (buf : Arr) (l : Nat) : ∀ (k : Nat) (r : Int), (r - l + 1).toNat ≤ k →
    skip_even buf l k r ≤ r ∧ ((l : Int) - 1 ≤ r → (l : Int) - 1 ≤ skip_even buf l k r) ∧
    (∀ j : Int, skip_even buf l k r < j → j ≤ r → Even (buf j)) ∧
    ((l : Int) ≤ skip_even buf l k r → Odd (buf (skip_even buf l k r))) := by
  intro k
  induction k with
  | zero =>
    intro r hk
    simp only [skip_even]
    refine ⟨le_refl _, fun h => h, fun j h1 h2 => by omega, fun h => by omega⟩
  | succ k ih =>
    intro r hk
    rw [skip_even]
    by_cases h : (l : Int) ≤ r ∧ is_odd (buf r) = 0
    · rw [if_pos h]
      obtain ⟨h1, h2, h3, h4⟩ := ih (r - 1) (by omega)
      refine ⟨by omega, fun _ => h2 (by omega), ?_, h4⟩
      intro j hj1 hj2
      by_cases hjl : j = r
      · subst hjl; exact (is_odd_eq_zero_iff _).mp h.2
      · exact h3 j hj1 (by omega)
    · rw [if_neg h]
      refine ⟨le_refl _, fun h => h, fun j h1 h2 => by omega, ?_⟩
      intro hl
      have : ¬ is_odd (buf r) = 0 := fun hh => h ⟨hl, hh⟩
      exact (is_odd_ne_zero_iff _).mp this

theorem not_odd_and_even {x : Int} (h1 : Odd x) (h2 : Even x) : False :=
  (Int.not_even_iff_odd.mpr h1) h2

/-- Invariant of the outer loop of `classify_two_ptr`, for an array of `N` cells. -/
theorem two_ptr_loop_spec (N : Nat) : ∀ (fuel : Nat) (buf : Arr) (l : Nat) (r : Int),
    (l : Int) ≤ r + 1 → r ≤ (N : Int) - 1 →
    (∀ j : Nat, j < l → Odd (buf j)) →
    (∀ j : Int, r < j → j ≤ (N : Int) - 1 → Even (buf j)) →
    ((r - l + 1).toNat + 2 ≤ fuel ∨
      ((r - l + 1).toNat + 1 ≤ fuel ∧ ¬ ((l : Int) < r ∧ Even (buf l) ∧ Odd (buf r)))) →
    ∃ (buf1 : Arr) (l1 : Nat), two_ptr_loop fuel buf l r = some (buf1, l1) ∧
      PermOn 0 ((N : Int) - 1) buf buf1 ∧ l1 ≤ N ∧
      (∀ j : Nat, j < l1 → Odd (buf1 j)) ∧ (∀ j : Nat, l1 ≤ j → j < N → Even (buf1 j)) := by
  intro fuel
  induction fuel with
  | zero => intro buf l r _ _ _ _ hf; omega
  | succ fuel ih =>
    intro buf l r hlr hrN ho he hf
    rw [two_ptr_loop]
    by_cases hle : (l : Int) ≤ r
    · rw [if_pos hle]
      dsimp only
      obtain ⟨a1, a2, a3, a4⟩ := skip_odd_spec buf r (r - l + 1).toNat l (le_refl _)
      generalize skip_odd buf r (r - l + 1).toNat l = l1 at a1 a2 a3 a4 ⊢
      have a2' := a2 hlr
      obtain ⟨b1, b2, b3, b4⟩ := skip_even_spec buf l1 (r - l1 + 1).toNat r (le_refl _)
      generalize skip_even buf l1 (r - l1 + 1).toNat r = r1 at b1 b2 b3 b4 ⊢
      have b2' := b2 (by omega)
      -- facts shared by both branches
      have hoddl1 : ∀ j : Nat, j < l1 → Odd (buf j) := by
        intro j hj
        by_cases hjl : j < l
        · exact ho j hjl
        · exact a3 j (by omega) hj
      have hevenr1 : ∀ j : Int, r1 < j → j ≤ (N : Int) - 1 → Even (buf j) := by
        intro j hj1 hj2
        by_cases hjr : j ≤ r
        · exact b3 j hj1 hjr
        · exact he j (by omega) hj2
      by_cases hsw : (l1 : Int) < r1
      · simp only [if_pos hsw]
        have hEl1 : Even (buf l1) := a4 (by omega)
        have hOr1 : Odd (buf r1) := b4 (by omega)
        have hperm : PermOn 0 ((N : Int) - 1) buf (swap_int buf l1 r1) :=
          PermOn.swap buf (by omega) (by omega)
        obtain ⟨buf2, l2, e, p2, q1, q2, q3⟩ := ih (swap_int buf l1 r1) l1 r1 (by omega) (by omega)
          (by
            intro j hj
            rw [swap_int_other _ (by omega) (by omega)]
            exact hoddl1 j hj)
          (by
            intro j hj1 hj2
            rw [swap_int_other _ (by omega) (by omega)]
            exact hevenr1 j hj1 hj2)
          (by
            right
            refine ⟨?_, ?_⟩
            · rcases hf with hf | ⟨hf, hns⟩
              · omega
              · have hprog : (l : Int) < l1 ∨ r1 < r := by
                  by_contra hcon
                  have e1 : l1 = l := by omega
                  have e2 : r1 = r := by omega
                  subst e1; subst e2
                  exact hns ⟨hsw, hEl1, hOr1⟩
                omega
            · rintro ⟨_, h2, _⟩
              rw [swap_int_left] at h2
              exact not_odd_and_even hOr1 h2)
        exact ⟨buf2, l2, e, hperm.trans p2, q1, q2, q3⟩
      · simp only [if_neg hsw]
        have hne : (l1 : Int) ≠ r1 := by
          intro heq
          have h1 : Even (buf l1) := a4 (by omega)
          have h2 : Odd (buf r1) := b4 (by omega)
          rw [← heq] at h2
          exact not_odd_and_even h2 h1
        exact ih buf l1 r1 (by omega) (by omega) hoddl1 hevenr1
          (by
            right
            refine ⟨by omega, ?_⟩
            rintro ⟨h1, _, _⟩
            exact hsw h1)
    · rw [if_neg hle]
      refine ⟨buf, l, rfl, PermOn.refl _ _ _, by omega, ho, ?_⟩
      intro j hj1 hj2
      exact he j (by omega) (by omega)

theorem classify_two_ptr_classified (ds : Dataset) :
    ∃ ds1, classify_two_ptr ds = some ds1 ∧ Classified ds ds1 := by
  obtain ⟨buf1, l1, e, hp, h2, h3, h4⟩ := two_ptr_loop_spec ds.n (ds.n + 2)
    (memcpy ds.odd ds.raw 0 ds.n) 0 ((ds.n : Int) - 1) (by omega) (le_refl _)
    (by intro j hj; omega) (by intro j h1 h2; omega) (by left; omega)
  refine ⟨_, ?_, classified_of_buffer ds buf1 l1 hp h2 h3 h4⟩
  simp only [classify_two_ptr]
  have e' : two_ptr_loop (ds.n + 2) (memcpy ds.odd ds.raw 0 ds.n) (0 : Nat) ((ds.n : Int) - 1)
      = some (buf1, l1) := e
  rw [e']


/-- C1: for every dataset with `n ≤ 1024`, each of `classify_stable`, `classify_partition` and
`classify_two_ptr` returns with `n_odd + n_even = n`, only odd values in `odd[0..n_odd)`, only
even values in `even[0..n_even)`, the two parts together a permutation of `raw[0..n)`, and
`n_odd` the number of odd values of `raw[0..n)` (so the three agree on it). -/
theorem classify_all_correct (ds : Dataset) (_hn : ds.n ≤ MAX_N) :
    Classified ds (classify_stable ds) ∧ Classified ds (classify_partition ds) ∧
    ∃ ds1, classify_two_ptr ds = some ds1 ∧ Classified ds ds1 :=
  ⟨classify_stable_classified ds, classify_partition_classified ds,
    classify_two_ptr_classified ds⟩

theorem classify_all_correct_witness :
    demo_dataset.n ≤ MAX_N ∧
    (Classified demo_dataset (classify_stable demo_dataset) ∧
     Classified demo_dataset (classify_partition demo_dataset) ∧
     ∃ ds1, classify_two_ptr demo_dataset = some ds1 ∧ Classified demo_dataset ds1) :=
  ⟨by decide, classify_all_correct demo_dataset (by decide)⟩

theorem run_append (m : SeatMap) (ws1 ws2 : List Write) :
    run m (ws1 ++ ws2) = run (run m ws1) ws2 := by
  simp [run, List.foldl_append]

theorem run_of_not_mem (ws : List Write) : ∀ (m : SeatMap) (r c : Int),
    (r, c) ∉ ws.map Prod.fst → run m ws r c = m r c := by
  induction ws with
  | nil => intro m r c _; rfl
  | cons w ws ih =>
    intro m r c h
    simp only [List.map_cons, List.mem_cons, not_or] at h
    show run (store m w) ws r c = m r c
    rw [ih _ r c h.2]
    unfold store
    rw [if_neg]
    rintro ⟨h1, h2⟩
    exact h.1 (by rw [h1, h2])

theorem run_of_mem (ws : List Write) : ∀ (m : SeatMap) (r c v : Int),
    (ws.map Prod.fst).Nodup → ((r, c), v) ∈ ws → run m ws r c = v := by
  induction ws with
  | nil => intro m r c v _ h; simp at h
  | cons w ws ih =>
    intro m r c v hnd h
    simp only [List.map_cons, List.nodup_cons] at hnd
    show run (store m w) ws r c = v
    rcases List.mem_cons.mp h with h | h
    · subst h
      rw [run_of_not_mem ws _ r c hnd.1]
      simp [store]
    · exact ih _ r c v hnd.2 h

theorem fill_cells_eq (p : Arr) (n : Nat) (r cStart : Int) : ∀ (k : Nat) (c : Int) (i : Nat),
    fill_cells p n r cStart k c i
      = (cells_cf p n r cStart k c i, ((i + min k (n - i) : Nat) : Int)) := by
  intro k
  induction k with
  | zero => intro c i; simp [fill_cells, cells_cf]
  | succ k ih =>
    intro c i
    rw [fill_cells]
    by_cases h : (i : Int) < n
    · rw [if_pos h]
      have hi : i < n := by omega
      have e := ih (c + 1) (i + 1)
      have e' : fill_cells p n r cStart k (c + 1) ((i : Int) + 1)
          = (cells_cf p n r cStart k (c + 1) (i + 1),
             ((i + 1 + min k (n - (i + 1)) : Nat) : Int)) := by
        have : ((i : Int) + 1) = ((i + 1 : Nat) : Int) := by push_cast; rfl
        rw [this]; exact e
      rw [e']
      have hm : min (k + 1) (n - i) = min k (n - (i + 1)) + 1 := by omega
      simp only [cells_cf, hm, List.range_succ_eq_map, List.map_cons, List.map_map]
      refine Prod.ext ?_ ?_
      · simp only [Nat.cast_zero, add_zero, Nat.add_zero, List.cons.injEq, true_and]
        apply List.map_congr_left
        intro t _
        simp only [Function.comp_apply, Nat.succ_eq_add_one]
        refine Prod.ext (Prod.ext rfl ?_) ?_
        · simp only; push_cast; ring
        · simp only; congr 1; push_cast; ring
      · simp only; omega
    · rw [if_neg h]
      have hm : min (k + 1) (n - i) = 0 := by omega
      simp [cells_cf, hm]

theorem cursor_step (r H n : Nat) :
    min (r * H) n + min H (n - min (r * H) n) = min ((r + 1) * H) n := by
  have : (r + 1) * H = r * H + H := by ring
  rw [this]; omega

theorem fill_lr_eq (ds : Dataset) (H : Nat) (oS eS : Int) : ∀ (k r : Nat),
    fill_lr ds (H : Int) oS eS k (r : Int)
        ((min (r * H) ds.n_odd : Nat) : Int) ((min (r * H) ds.n_even : Nat) : Int)
      = (((List.range' r k).map (lr_row ds H oS eS)).flatten,
         ((min ((r + k) * H) ds.n_odd : Nat) : Int),
         ((min ((r + k) * H) ds.n_even : Nat) : Int)) := by
  intro k
  induction k with
  | zero => intro r; simp [fill_lr]
  | succ k ih =>
    intro r
    rw [fill_lr]
    simp only [Int.toNat_ofNat, fill_cells_eq]
    rw [cursor_step, cursor_step]
    have e := ih (r + 1)
    have hc : ((r : Int) + 1) = ((r + 1 : Nat) : Int) := by push_cast; rfl
    rw [hc, e]
    have e2 : r + 1 + k = r + (k + 1) := by omega
    simp only [List.range'_succ, List.map_cons, List.flatten_cons, lr_row, e2,
      List.append_assoc]

theorem cells_cf_nil_of_le (p : Arr) (n : Nat) (r cStart : Int) (k : Nat) (c : Int) (i : Nat)
    (h : n ≤ i) : cells_cf p n r cStart k c i = [] := by
  have : min k (n - i) = 0 := by omega
  simp [cells_cf, this]

theorem fb_rows_nil (p : Arr) (n : Nat) (rStart : Int) (C : Nat) : ∀ (k r : Nat), n ≤ r * C →
    ((List.range' r k).map (fb_row p n rStart C)).flatten = [] := by
  intro k
  induction k with
  | zero => intro r _; simp
  | succ k ih =>
    intro r h
    have h1 : n ≤ (r + 1) * C := by
      have : (r + 1) * C = r * C + C := by ring
      omega
    simp only [List.range'_succ, List.map_cons, List.flatten_cons, ih (r + 1) h1,
      List.append_nil]
    exact cells_cf_nil_of_le _ _ _ _ _ _ _ (by omega)

theorem fill_fb_eq (p : Arr) (n : Nat) (rStart : Int) (C : Nat) : ∀ (k r : Nat),
    (fill_fb p n rStart (C : Int) k (r : Int) ((min (r * C) n : Nat) : Int)).1
      = ((List.range' r k).map (fb_row p n rStart C)).flatten := by
  intro k
  induction k with
  | zero => intro r; simp [fill_fb]
  | succ k ih =>
    intro r
    rw [fill_fb]
    by_cases h : ((min (r * C) n : Nat) : Int) < (n : Int)
    · rw [if_pos h]
      simp only [Int.toNat_ofNat, fill_cells_eq]
      rw [cursor_step]
      have hc : ((r : Int) + 1) = ((r + 1 : Nat) : Int) := by push_cast; rfl
      rw [hc, ih (r + 1)]
      simp only [List.range'_succ, List.map_cons, List.flatten_cons, fb_row]
    · rw [if_neg h]
      rw [fb_rows_nil p n rStart C (k + 1) r (by omega)]

theorem mem_clear_row (r : Int) (w : Write) : ∀ (k : Nat) (c : Int),
    w ∈ clear_row r k c ↔ w.2 = 0 ∧ w.1.1 = r ∧ c ≤ w.1.2 ∧ w.1.2 < c + k := by
  intro k
  induction k with
  | zero => intro c; simp [clear_row]
  | succ k ih =>
    intro c
    rw [clear_row, List.mem_cons, ih]
    obtain ⟨⟨wr, wc⟩, wv⟩ := w
    simp only [Prod.mk.injEq]
    constructor
    · rintro (⟨⟨h1, h2⟩, h3⟩ | ⟨h1, h2, h3, h4⟩)
      · exact ⟨h3, h1, by omega, by omega⟩
      · exact ⟨h1, h2, by omega, by push_cast; omega⟩
    · rintro ⟨h1, h2, h3, h4⟩
      by_cases hc : wc = c
      · left; exact ⟨⟨h2, hc⟩, h1⟩
      · right; exact ⟨h1, h2, by omega, by push_cast at h4; omega⟩

theorem mem_clear_rows (cols : Int) (w : Write) : ∀ (k : Nat) (r : Int),
    w ∈ clear_rows cols k r ↔
      w.2 = 0 ∧ (r ≤ w.1.1 ∧ w.1.1 < r + k) ∧ 0 ≤ w.1.2 ∧ w.1.2 < cols := by
  intro k
  induction k with
  | zero => intro r; simp [clear_rows]
  | succ k ih =>
    intro r
    rw [clear_rows, List.mem_append, ih, mem_clear_row]
    constructor
    · rintro (⟨h1, h2, h3, h4⟩ | ⟨h1, h2, h3, h4⟩)
      · exact ⟨h1, by omega, h3, by omega⟩
      · exact ⟨h1, by push_cast; omega, h3, h4⟩
    · rintro ⟨h1, h2, h3, h4⟩
      by_cases hr : w.1.1 = r
      · left; exact ⟨h1, hr, h3, by omega⟩
      · right; exact ⟨h1, by push_cast at h2; omega, h3, h4⟩

/-- Assignments that all store 0 leave 0 in the cells they touch and nothing else changed. -/
theorem run_zero (ws : List Write) (hz : ∀ w ∈ ws, w.2 = 0) : ∀ (m : SeatMap) (r c : Int),
    run m ws r c = if (r, c) ∈ ws.map Prod.fst then 0 else m r c := by
  induction ws with
  | nil => intro m r c; simp [run]
  | cons w ws ih =>
    intro m r c
    show run (store m w) ws r c = _
    rw [ih (fun w1 h => hz w1 (List.mem_cons_of_mem _ h))]
    by_cases h : (r, c) ∈ ws.map Prod.fst
    · simp [h]
    · simp only [h, if_false, List.map_cons, List.mem_cons, or_false]
      unfold store
      by_cases h2 : (r, c) = w.1
      · have : r = w.1.1 ∧ c = w.1.2 := by rw [← h2]; exact ⟨rfl, rfl⟩
        rw [if_pos this, if_pos h2]
        exact hz w (List.mem_cons_self _ _)
      · have : ¬ (r = w.1.1 ∧ c = w.1.2) := by
          rintro ⟨h3, h4⟩; exact h2 (Prod.ext h3 h4)
        rw [if_neg this, if_neg h2]

/-- The grid after the initialisation loops. -/
theorem run_clear_rows (m : SeatMap) (rows cols : Int) (r c : Int) :
    run m (clear_rows cols rows.toNat 0) r c
      = if (0 ≤ r ∧ r < rows) ∧ (0 ≤ c ∧ c < cols) then 0 else m r c := by
  rw [run_zero _ (fun w hw => ((mem_clear_rows cols w _ _).mp hw).1)]
  have : (r, c) ∈ (clear_rows cols rows.toNat 0).map Prod.fst ↔
      (0 ≤ r ∧ r < rows) ∧ (0 ≤ c ∧ c < cols) := by
    rw [List.mem_map]
    constructor
    · rintro ⟨w, hw, e⟩
      have := (mem_clear_rows cols w _ _).mp hw
      rw [e] at this
      simp only at this
      exact ⟨by omega, this.2.2⟩
    · intro h
      exact ⟨((r, c), 0), (mem_clear_rows cols _ _ _).mpr ⟨rfl, by simp only; omega, h.2⟩, rfl⟩
  by_cases h : (0 ≤ r ∧ r < rows) ∧ (0 ≤ c ∧ c < cols)
  · rw [if_pos (this.mpr h), if_pos h]
  · rw [if_neg (fun hh => h (this.mp hh)), if_neg h]

theorem mem_cells_cf {p : Arr} {n : Nat} {r cStart : Int} {k : Nat} {c : Int} {i : Nat}
    {w : Write} : w ∈ cells_cf p n r cStart k c i ↔
      ∃ t : Nat, t < k ∧ i + t < n ∧ w = ((r, cStart + c + (t : Int)), p ((i + t : Nat) : Int)) := by
  simp only [cells_cf, List.mem_map, List.mem_range]
  constructor
  · rintro ⟨t, ht, rfl⟩
    exact ⟨t, by omega, by omega, rfl⟩
  · rintro ⟨t, h1, h2, rfl⟩
    exact ⟨t, by omega, rfl⟩

theorem cells_cf_length (p : Arr) (n : Nat) (r cStart : Int) (k : Nat) (c : Int) (i : Nat) :
    (cells_cf p n r cStart k c i).length = min k (n - i) := by
  simp [cells_cf]

theorem cells_cf_values (p : Arr) (n : Nat) (r cStart : Int) (k : Nat) (c : Int) (i : Nat) :
    (cells_cf p n r cStart k c i).map Prod.snd = seg p i (min k (n - i)) := by
  simp only [cells_cf, seg, List.map_map]
  rw [List.range'_eq_map_range, List.map_map]
  rfl

theorem cells_cf_nodup (p : Arr) (n : Nat) (r cStart : Int) (k : Nat) (c : Int) (i : Nat) :
    ((cells_cf p n r cStart k c i).map Prod.fst).Nodup := by
  simp only [cells_cf, List.map_map]
  apply List.Nodup.map_on _ (List.nodup_range _)
  intro x _ y _ h
  simp only [Function.comp_apply, Prod.mk.injEq, true_and] at h
  omega

theorem mem_lr_row {ds : Dataset} {H : Nat} {oS eS : Int} {r : Nat} {w : Write} :
    w ∈ lr_row ds H oS eS r ↔ ∃ t : Nat, t < H ∧
      ((r * H + t < ds.n_odd ∧ w = (((r : Int), oS + (t : Int)), ds.odd ((r * H + t : Nat) : Int))) ∨
       (r * H + t < ds.n_even ∧
         w = (((r : Int), eS + (t : Int)), ds.even ((r * H + t : Nat) : Int)))) := by
  simp only [lr_row, List.mem_append, mem_cells_cf, add_zero]
  constructor
  · rintro (⟨t, h1, h2, rfl⟩ | ⟨t, h1, h2, rfl⟩)
    · have e : min (r * H) ds.n_odd + t = r * H + t := by omega
      exact ⟨t, h1, Or.inl ⟨by omega, by rw [e]⟩⟩
    · have e : min (r * H) ds.n_even + t = r * H + t := by omega
      exact ⟨t, h1, Or.inr ⟨by omega, by rw [e]⟩⟩
  · rintro ⟨t, h1, (⟨h2, rfl⟩ | ⟨h2, rfl⟩)⟩
    · have e : min (r * H) ds.n_odd + t = r * H + t := by omega
      exact Or.inl ⟨t, h1, by omega, by rw [e]⟩
    · have e : min (r * H) ds.n_even + t = r * H + t := by omega
      exact Or.inr ⟨t, h1, by omega, by rw [e]⟩

theorem mem_fb_row {p : Arr} {n : Nat} {rStart : Int} {C r : Nat} {w : Write} :
    w ∈ fb_row p n rStart C r ↔ ∃ t : Nat, t < C ∧ r * C + t < n ∧
      w = ((rStart + (r : Int), (t : Int)), p ((r * C + t : Nat) : Int)) := by
  simp only [fb_row, mem_cells_cf, add_zero, zero_add]
  constructor
  · rintro ⟨t, h1, h2, rfl⟩
    have e : min (r * C) n + t = r * C + t := by omega
    exact ⟨t, h1, by omega, by rw [e]⟩
  · rintro ⟨t, h1, h2, rfl⟩
    have e : min (r * C) n + t = r * C + t := by omega
    exact ⟨t, h1, by omega, by rw [e]⟩

/-- Rows built by a function whose positions lie in their own row never repeat a position. -/
theorem rows_nodup (f : Nat → List Write) (rowOf : Nat → Int)
    (hinj : ∀ a b, rowOf a = rowOf b → a = b)
    (hrow : ∀ r, ∀ w ∈ f r, w.1.1 = rowOf r)
    (hnd : ∀ r, ((f r).map Prod.fst).Nodup) (s k : Nat) :
    ((((List.range' s k).map f).flatten).map Prod.fst).Nodup := by
  rw [List.map_flatten, List.nodup_flatten]
  constructor
  · intro l hl
    simp only [List.map_map, List.mem_map, List.mem_range'_1] at hl
    obtain ⟨r, _, rfl⟩ := hl
    exact hnd r
  · rw [List.map_map, List.pairwise_map]
    apply (List.nodup_range' s k).imp
    intro a b hab
    simp only [Function.comp_apply]
    intro x hx hy
    obtain ⟨w, hw, rfl⟩ := List.mem_map.mp hx
    obtain ⟨w1, hw1, e⟩ := List.mem_map.mp hy
    have h1 := hrow a w hw
    have h2 := hrow b w1 hw1
    rw [e] at h2
    exact hab (hinj a b (by rw [← h1, ← h2]))

theorem lr_row_nodup (ds : Dataset) (H : Nat) (oS eS : Int)
    (hsep : oS + H ≤ eS ∨ eS + H ≤ oS) (r : Nat) :
    ((lr_row ds H oS eS r).map Prod.fst).Nodup := by
  simp only [lr_row, List.map_append]
  apply List.Nodup.append (cells_cf_nodup _ _ _ _ _ _ _) (cells_cf_nodup _ _ _ _ _ _ _)
  intro x hx hy
  obtain ⟨w, hw, rfl⟩ := List.mem_map.mp hx
  obtain ⟨w1, hw1, e⟩ := List.mem_map.mp hy
  obtain ⟨t, ht, _, rfl⟩ := mem_cells_cf.mp hw
  obtain ⟨t1, ht1, _, rfl⟩ := mem_cells_cf.mp hw1
  simp only [Prod.mk.injEq, true_and, add_zero] at e
  omega

theorem lr_nodup (ds : Dataset) (H : Nat) (oS eS : Int)
    (hsep : oS + H ≤ eS ∨ eS + H ≤ oS) (s k : Nat) :
    ((((List.range' s k).map (lr_row ds H oS eS)).flatten).map Prod.fst).Nodup := by
  apply rows_nodup _ (fun r => (r : Int)) (fun a b h => by simp only at h; omega) _
    (lr_row_nodup ds H oS eS hsep)
  intro r w hw
  obtain ⟨t, _, (⟨_, rfl⟩ | ⟨_, rfl⟩)⟩ := mem_lr_row.mp hw <;> rfl

theorem fb_nodup (p : Arr) (n : Nat) (rStart : Int) (C : Nat) (s k : Nat) :
    ((((List.range' s k).map (fb_row p n rStart C)).flatten).map Prod.fst).Nodup := by
  apply rows_nodup _ (fun r => rStart + (r : Int)) (fun a b h => by simp only at h; omega) _
    (fun r => cells_cf_nodup _ _ _ _ _ _ _)
  intro r w hw
  obtain ⟨t, _, _, rfl⟩ := mem_fb_row.mp hw
  rfl

theorem mem_rows {f : Nat → List Write} {s k : Nat} {w : Write} :
    w ∈ ((List.range' s k).map f).flatten ↔ ∃ r : Nat, (s ≤ r ∧ r < s + k) ∧ w ∈ f r := by
  simp only [List.mem_flatten, List.mem_map, List.mem_range'_1]
  constructor
  · rintro ⟨l, ⟨r, hr, rfl⟩, hw⟩
    exact ⟨r, hr, hw⟩
  · rintro ⟨r, hr, hw⟩
    exact ⟨f r, ⟨r, hr, rfl⟩, hw⟩

theorem resolve_dims_of_pos (total : Int) (cfg : SeatCfg) (hr : 0 < cfg.rows) (hc : 0 < cfg.cols) :
    resolve_dims total cfg = cfg := by
  unfold resolve_dims
  rw [if_neg (by omega)]

/-- A cell of the grid after initialisation and a sequence of assignments that writes no cell
twice. -/
theorem run_clear_fill (m : SeatMap) (rows cols : Int) (L : List Write)
    (hnd : (L.map Prod.fst).Nodup) (r c : Int) (hr : 0 ≤ r ∧ r < rows) (hc : 0 ≤ c ∧ c < cols) :
    (∀ v, ((r, c), v) ∈ L → run m (clear_rows cols rows.toNat 0 ++ L) r c = v) ∧
    ((r, c) ∉ L.map Prod.fst → run m (clear_rows cols rows.toNat 0 ++ L) r c = 0) := by
  rw [run_append]
  refine ⟨fun v hv => run_of_mem L _ r c v hnd hv, fun h => ?_⟩
  rw [run_of_not_mem L _ r c h, run_clear_rows, if_pos ⟨hr, hc⟩]

theorem half_cast (x : Int) (hx : 0 ≤ x) : Int.tdiv x 2 = (((x / 2).toNat : Nat) : Int) := by
  rw [Int.tdiv_eq_ediv hx (by norm_num)]
  omega

/-- The assignments of the left-right mode, in closed form. -/
theorem fill_writes_lr (ds : Dataset) (cfg : SeatCfg) (hmode : cfg.mode_lr_or_fb = 0)
    (hc : 0 ≤ cfg.cols) :
    fill_writes ds cfg = ((List.range' 0 cfg.rows.toNat).map
      (lr_row ds (cfg.cols / 2).toNat
        (if cfg.odd_side ≠ 0 then (((cfg.cols / 2).toNat : Nat) : Int) else 0)
        (if cfg.odd_side = 0 then (((cfg.cols / 2).toNat : Nat) : Int) else 0))).flatten := by
  unfold fill_writes
  rw [if_pos hmode]
  simp only [half_cast cfg.cols hc]
  have := fill_lr_eq ds (cfg.cols / 2).toNat
    (if cfg.odd_side ≠ 0 then (((cfg.cols / 2).toNat : Nat) : Int) else 0)
    (if cfg.odd_side = 0 then (((cfg.cols / 2).toNat : Nat) : Int) else 0) cfg.rows.toNat 0
  simp only [Nat.zero_mul, Nat.zero_min, Nat.cast_zero] at this
  rw [this]

theorem fill_fb_zero (p : Arr) (n : Nat) (rStart : Int) (C k : Nat) :
    (fill_fb p n rStart (C : Int) k 0 0).1
      = ((List.range' 0 k).map (fb_row p n rStart C)).flatten := by
  have := fill_fb_eq p n rStart C k 0
  simp only [Nat.zero_mul, Nat.zero_min, Nat.cast_zero] at this
  exact this

/-- The assignments of the front-back mode, in closed form. -/
theorem fill_writes_fb (ds : Dataset) (cfg : SeatCfg) (hmode : cfg.mode_lr_or_fb ≠ 0)
    (hr : 0 ≤ cfg.rows) (hc : 0 ≤ cfg.cols) :
    fill_writes ds cfg =
      ((List.range' 0 (cfg.rows / 2).toNat).map
        (fb_row ds.odd ds.n_odd
          (if cfg.odd_side ≠ 0 then (((cfg.rows / 2).toNat : Nat) : Int) else 0)
          cfg.cols.toNat)).flatten ++
      ((List.range' 0 (cfg.rows / 2).toNat).map
        (fb_row ds.even ds.n_even
          (if cfg.odd_side = 0 then (((cfg.rows / 2).toNat : Nat) : Int) else 0)
          cfg.cols.toNat)).flatten := by
  unfold fill_writes fb_odd_writes fb_even_writes
  rw [if_neg hmode]
  simp only [half_cast cfg.rows hr]
  have hcc : cfg.cols = ((cfg.cols.toNat : Nat) : Int) := by omega
  rw [hcc]
  simp only [Int.toNat_ofNat, fill_fb_zero]

/-- Cells of the left-right mode, over the closed form of the assignments. -/
theorem lr_cells (ds : Dataset) (m : SeatMap) (rows cols : Int) (H : Nat) (oS eS : Int)
    (hH : 2 * (H : Int) ≤ cols)
    (hsep : (oS = 0 ∧ eS = H) ∨ (oS = H ∧ eS = 0)) (r c : Nat) (hr : (r : Int) < rows) :
    let g := run m (clear_rows cols rows.toNat 0 ++
      ((List.range' 0 rows.toNat).map (lr_row ds H oS eS)).flatten)
    (c < H → g r (oS + c) = (if r * H + c < ds.n_odd then ds.odd ((r * H + c : Nat) : Int) else 0)
      ∧ g r (eS + c) = (if r * H + c < ds.n_even then ds.even ((r * H + c : Nat) : Int) else 0))
    ∧ ((c : Int) < cols → 2 * H ≤ c → g r c = 0) := by
  intro g
  have hnd := lr_nodup ds H oS eS (by omega) 0 rows.toNat
  have key := fun (c1 : Int) (h : 0 ≤ c1 ∧ c1 < cols) =>
    run_clear_fill m rows cols _ hnd r c1 ⟨by omega, hr⟩ h
  have hmem : ∀ w : Write, w ∈ ((List.range' 0 rows.toNat).map (lr_row ds H oS eS)).flatten →
      ∃ r1 t : Nat, t < H ∧
      ((r1 * H + t < ds.n_odd ∧
          w = (((r1 : Int), oS + (t : Int)), ds.odd ((r1 * H + t : Nat) : Int))) ∨
       (r1 * H + t < ds.n_even ∧
          w = (((r1 : Int), eS + (t : Int)), ds.even ((r1 * H + t : Nat) : Int)))) := by
    intro w hw
    obtain ⟨r1, _, hw1⟩ := mem_rows.mp hw
    obtain ⟨t, ht, h⟩ := mem_lr_row.mp hw1
    exact ⟨r1, t, ht, h⟩
  have hin : ∀ w : Write, (∃ t : Nat, t < H ∧
      ((r * H + t < ds.n_odd ∧
          w = (((r : Int), oS + (t : Int)), ds.odd ((r * H + t : Nat) : Int))) ∨
       (r * H + t < ds.n_even ∧
          w = (((r : Int), eS + (t : Int)), ds.even ((r * H + t : Nat) : Int))))) →
      w ∈ ((List.range' 0 rows.toNat).map (lr_row ds H oS eS)).flatten := by
    intro w hw
    exact mem_rows.mpr ⟨r, ⟨by omega, by omega⟩, mem_lr_row.mpr hw⟩
  refine ⟨fun hc => ⟨?_, ?_⟩, fun hc1 hc2 => ?_⟩
  · by_cases h : r * H + c < ds.n_odd
    · rw [if_pos h]
      exact (key (oS + c) (by omega)).1 _ (hin _ ⟨c, hc, Or.inl ⟨h, rfl⟩⟩)
    · rw [if_neg h]
      apply (key (oS + c) (by omega)).2
      intro hx
      obtain ⟨w, hw, e⟩ := List.mem_map.mp hx
      obtain ⟨r1, t, ht, (⟨h1, rfl⟩ | ⟨h1, rfl⟩)⟩ := hmem w hw
      · simp only [Prod.mk.injEq] at e
        have e1 : r1 = r := by omega
        have e2 : t = c := by omega
        subst e1 e2
        exact h h1
      · simp only [Prod.mk.injEq] at e
        omega
  · by_cases h : r * H + c < ds.n_even
    · rw [if_pos h]
      exact (key (eS + c) (by omega)).1 _ (hin _ ⟨c, hc, Or.inr ⟨h, rfl⟩⟩)
    · rw [if_neg h]
      apply (key (eS + c) (by omega)).2
      intro hx
      obtain ⟨w, hw, e⟩ := List.mem_map.mp hx
      obtain ⟨r1, t, ht, (⟨h1, rfl⟩ | ⟨h1, rfl⟩)⟩ := hmem w hw
      · simp only [Prod.mk.injEq] at e
        omega
      · simp only [Prod.mk.injEq] at e
        have e1 : r1 = r := by omega
        have e2 : t = c := by omega
        subst e1 e2
        exact h h1
  · apply (key c (by omega)).2
    intro hx
    obtain ⟨w, hw, e⟩ := List.mem_map.mp hx
    obtain ⟨r1, t, ht, (⟨h1, rfl⟩ | ⟨h1, rfl⟩)⟩ := hmem w hw
    · simp only [Prod.mk.injEq] at e
      omega
    · simp only [Prod.mk.injEq] at e
      omega

/-- C4: in left-right mode with explicit `1 ≤ rows ≤ 32` and `1 ≤ cols ≤ 32`, with
`half = cols / 2`, `oddStart = (odd_side != 0 ? half : 0)` and
`evenStart = (odd_side == 0 ? half : 0)`: after `gen_seat_map` the configuration is unchanged,
cell `(r, oddStart + c)` holds `odd[r*half + c]` when `r*half + c < n_odd` and 0 otherwise,
cell `(r, evenStart + c)` holds `even[r*half + c]` when `r*half + c < n_even` and 0 otherwise
(for `r < rows`, `c < half`), and every other cell of the `rows x cols` grid holds 0, whatever
the grid held before. -/
theorem gen_seat_map_left_right (ds : Dataset) (m : SeatMap) (cfg : SeatCfg)
    (hmode : cfg.mode_lr_or_fb = 0)
    (hrows : 1 ≤ cfg.rows ∧ cfg.rows ≤ 32) (hcols : 1 ≤ cfg.cols ∧ cfg.cols ≤ 32) :
    let half := cfg.cols / 2
    let oddStart := if cfg.odd_side ≠ 0 then half else 0
    let evenStart := if cfg.odd_side = 0 then half else 0
    let g := (gen_seat_map ds m cfg).1
    (gen_seat_map ds m cfg).2 = cfg ∧
    (∀ r c : Int, 0 ≤ r → r < cfg.rows → 0 ≤ c → c < half →
      g r (oddStart + c)
          = (if r * half + c < ds.n_odd then ds.odd (r * half + c) else 0) ∧
      g r (evenStart + c)
          = (if r * half + c < ds.n_even then ds.even (r * half + c) else 0)) ∧
    (∀ r c : Int, 0 ≤ r → r < cfg.rows → 0 ≤ c → c < cfg.cols →
      ¬ (oddStart ≤ c ∧ c < oddStart + half) → ¬ (evenStart ≤ c ∧ c < evenStart + half) →
      g r c = 0) := by
  intro half oddStart evenStart g
  have hres : resolve_dims ds.n cfg = cfg := resolve_dims_of_pos _ _ (by omega) (by omega)
  have hg : g = run m (clear_rows cfg.cols cfg.rows.toNat 0 ++
      ((List.range' 0 cfg.rows.toNat).map (lr_row ds (cfg.cols / 2).toNat
        (if cfg.odd_side ≠ 0 then (((cfg.cols / 2).toNat : Nat) : Int) else 0)
        (if cfg.odd_side = 0 then (((cfg.cols / 2).toNat : Nat) : Int) else 0))).flatten) := by
    show (gen_seat_map ds m cfg).1 = _
    simp only [gen_seat_map, hres]
    rw [fill_writes_lr ds cfg hmode (by omega)]
  have hhalf : half = (((cfg.cols / 2).toNat : Nat) : Int) := by
    show cfg.cols / 2 = _
    omega
  have hsep : ((if cfg.odd_side ≠ 0 then (((cfg.cols / 2).toNat : Nat) : Int) else 0) = 0 ∧
      (if cfg.odd_side = 0 then (((cfg.cols / 2).toNat : Nat) : Int) else 0)
        = (((cfg.cols / 2).toNat : Nat) : Int)) ∨
      ((if cfg.odd_side ≠ 0 then (((cfg.cols / 2).toNat : Nat) : Int) else 0)
        = (((cfg.cols / 2).toNat : Nat) : Int) ∧
      (if cfg.odd_side = 0 then (((cfg.cols / 2).toNat : Nat) : Int) else 0) = 0) := by
    by_cases h : cfg.odd_side = 0
    · left; simp [h]
    · right; simp [h]
  have hoS : oddStart = (if cfg.odd_side ≠ 0 then (((cfg.cols / 2).toNat : Nat) : Int) else 0) := by
    show (if cfg.odd_side ≠ 0 then half else 0) = _
    rw [hhalf]
  have heS : evenStart = (if cfg.odd_side = 0 then (((cfg.cols / 2).toNat : Nat) : Int) else 0) := by
    show (if cfg.odd_side = 0 then half else 0) = _
    rw [hhalf]
  refine ⟨by simp only [gen_seat_map, hres], ?_, ?_⟩
  · intro r c hr0 hr1 hc0 hc1
    obtain ⟨r1, rfl⟩ := Int.eq_ofNat_of_zero_le hr0
    obtain ⟨c1, rfl⟩ := Int.eq_ofNat_of_zero_le hc0
    have := (lr_cells ds m cfg.rows cfg.cols _ _ _ (by omega) hsep r1 c1 hr1).1 (by omega)
    rw [hg, hoS, heS, hhalf]
    have e : (r1 : Int) * (((cfg.cols / 2).toNat : Nat) : Int) + (c1 : Int)
        = ((r1 * (cfg.cols / 2).toNat + c1 : Nat) : Int) := by push_cast; rfl
    rw [e]
    simp only [Nat.cast_lt]
    exact this
  · intro r c hr0 hr1 hc0 hc1 hno hne
    obtain ⟨r1, rfl⟩ := Int.eq_ofNat_of_zero_le hr0
    obtain ⟨c1, rfl⟩ := Int.eq_ofNat_of_zero_le hc0
    rw [hg]
    apply (lr_cells ds m cfg.rows cfg.cols _ _ _ (by omega) hsep r1 c1 hr1).2 hc1
    rw [hoS, hhalf] at hno
    rw [heS, hhalf] at hne
    rcases hsep with ⟨h1, h2⟩ | ⟨h1, h2⟩
    · rw [h1] at hno; rw [h2] at hne; omega
    · rw [h1] at hno; rw [h2] at hne; omega

theorem gen_seat_map_left_right_witness :
    demo_lr_cfg.mode_lr_or_fb = 0 ∧
    (1 ≤ demo_lr_cfg.rows ∧ demo_lr_cfg.rows ≤ 32) ∧
    (1 ≤ demo_lr_cfg.cols ∧ demo_lr_cfg.cols ≤ 32) ∧
    (gen_seat_map demo_lr_dataset (fun _ _ => 9) demo_lr_cfg).1 0 0 = 1 ∧
    grid_row (gen_seat_map demo_lr_dataset (fun _ _ => 9) demo_lr_cfg).1 6 0 = [1, 3, 5, 2, 4, 0] ∧
    grid_row (gen_seat_map demo_lr_dataset (fun _ _ => 9) demo_lr_cfg).1 6 1 = [0, 0, 0, 0, 0, 0] ∧
    grid_row (gen_seat_map demo_lr_dataset (fun _ _ => 9) demo_lr_cfg).1 6 2 = [0, 0, 0, 0, 0, 0] :=
  ⟨by decide, by decide, by decide,
   by
    have h := (gen_seat_map_left_right demo_lr_dataset (fun _ _ => 9) demo_lr_cfg
      (by decide) (by decide) (by decide)).2.1 0 0 (by decide) (by decide) (by decide) (by decide)
    exact h.1,
   by decide, by decide, by decide⟩

theorem mem_fb_rows {p : Arr} {n : Nat} {rStart : Int} {C k : Nat} {w : Write} :
    w ∈ ((List.range' 0 k).map (fb_row p n rStart C)).flatten ↔
      ∃ r t : Nat, r < k ∧ t < C ∧ r * C + t < n ∧
        w = ((rStart + (r : Int), (t : Int)), p ((r * C + t : Nat) : Int)) := by
  rw [mem_rows]
  constructor
  · rintro ⟨r, hr, hw⟩
    obtain ⟨t, h1, h2, h3⟩ := mem_fb_row.mp hw
    exact ⟨r, t, by omega, h1, h2, h3⟩
  · rintro ⟨r, t, h1, h2, h3, h4⟩
    exact ⟨r, ⟨by omega, by omega⟩, mem_fb_row.mpr ⟨t, h2, h3, h4⟩⟩

theorem fb_all_nodup (ds : Dataset) (C Hr : Nat) (rO rE : Int)
    (hsep : rO + Hr ≤ rE ∨ rE + Hr ≤ rO) :
    ((((List.range' 0 Hr).map (fb_row ds.odd ds.n_odd rO C)).flatten ++
      ((List.range' 0 Hr).map (fb_row ds.even ds.n_even rE C)).flatten).map Prod.fst).Nodup := by
  rw [List.map_append]
  apply List.Nodup.append (fb_nodup _ _ _ _ _ _) (fb_nodup _ _ _ _ _ _)
  intro x hx hy
  obtain ⟨w, hw, rfl⟩ := List.mem_map.mp hx
  obtain ⟨w1, hw1, e⟩ := List.mem_map.mp hy
  obtain ⟨r, t, hr, _, _, rfl⟩ := mem_fb_rows.mp hw
  obtain ⟨r1, t1, hr1, _, _, rfl⟩ := mem_fb_rows.mp hw1
  simp only [Prod.mk.injEq] at e
  omega

/-- Cells of the front-back mode, over the closed form of the assignments. -/
theorem fb_cells (ds : Dataset) (m : SeatMap) (rows : Int) (C Hr : Nat) (rO rE : Int)
    (hH : 2 * (Hr : Int) ≤ rows)
    (hsep : (rO = 0 ∧ rE = Hr) ∨ (rO = Hr ∧ rE = 0)) (r c : Nat) (hc : c < C) :
    let g := run m (clear_rows (C : Int) rows.toNat 0 ++
      (((List.range' 0 Hr).map (fb_row ds.odd ds.n_odd rO C)).flatten ++
       ((List.range' 0 Hr).map (fb_row ds.even ds.n_even rE C)).flatten))
    (r < Hr → g (rO + r) c = (if r * C + c < ds.n_odd then ds.odd ((r * C + c : Nat) : Int) else 0)
      ∧ g (rE + r) c = (if r * C + c < ds.n_even then ds.even ((r * C + c : Nat) : Int) else 0))
    ∧ ((r : Int) < rows → 2 * Hr ≤ r → g r c = 0) := by
  intro g
  have hnd := fb_all_nodup ds C Hr rO rE (by omega)
  have key := fun (r1 : Int) (h : 0 ≤ r1 ∧ r1 < rows) =>
    run_clear_fill m rows (C : Int) _ hnd r1 c h ⟨by omega, by omega⟩
  refine ⟨fun hr => ⟨?_, ?_⟩, fun hr1 hr2 => ?_⟩
  · by_cases h : r * C + c < ds.n_odd
    · rw [if_pos h]
      apply (key (rO + r) (by omega)).1
      exact List.mem_append_left _ (mem_fb_rows.mpr ⟨r, c, hr, hc, h, rfl⟩)
    · rw [if_neg h]
      apply (key (rO + r) (by omega)).2
      intro hx
      obtain ⟨w, hw, e⟩ := List.mem_map.mp hx
      rcases List.mem_append.mp hw with hw | hw
      · obtain ⟨r1, t, h1, h2, h3, rfl⟩ := mem_fb_rows.mp hw
        simp only [Prod.mk.injEq] at e
        have e1 : r1 = r := by omega
        have e2 : t = c := by omega
        subst e1 e2
        exact h h3
      · obtain ⟨r1, t, h1, h2, h3, rfl⟩ := mem_fb_rows.mp hw
        simp only [Prod.mk.injEq] at e
        omega
  · by_cases h : r * C + c < ds.n_even
    · rw [if_pos h]
      apply (key (rE + r) (by omega)).1
      exact List.mem_append_right _ (mem_fb_rows.mpr ⟨r, c, hr, hc, h, rfl⟩)
    · rw [if_neg h]
      apply (key (rE + r) (by omega)).2
      intro hx
      obtain ⟨w, hw, e⟩ := List.mem_map.mp hx
      rcases List.mem_append.mp hw with hw | hw
      · obtain ⟨r1, t, h1, h2, h3, rfl⟩ := mem_fb_rows.mp hw
        simp only [Prod.mk.injEq] at e
        omega
      · obtain ⟨r1, t, h1, h2, h3, rfl⟩ := mem_fb_rows.mp hw
        simp only [Prod.mk.injEq] at e
        have e1 : r1 = r := by omega
        have e2 : t = c := by omega
        subst e1 e2
        exact h h3
  · apply (key r (by omega)).2
    intro hx
    obtain ⟨w, hw, e⟩ := List.mem_map.mp hx
    rcases List.mem_append.mp hw with hw | hw
    · obtain ⟨r1, t, h1, h2, h3, rfl⟩ := mem_fb_rows.mp hw
      simp only [Prod.mk.injEq] at e
      omega
    · obtain ⟨r1, t, h1, h2, h3, rfl⟩ := mem_fb_rows.mp hw
      simp only [Prod.mk.injEq] at e
      omega

/-- The two possible placements of the halves. -/
theorem starts_cases (side : Int) (H : Nat) :
    ((if side ≠ 0 then (H : Int) else 0) = 0 ∧ (if side = 0 then (H : Int) else 0) = H) ∨
    ((if side ≠ 0 then (H : Int) else 0) = H ∧ (if side = 0 then (H : Int) else 0) = 0) := by
  by_cases h : side = 0
  · left; simp [h]
  · right; simp [h]

/-- C5: in front-back mode with explicit `1 ≤ rows ≤ 32` and `1 ≤ cols ≤ 32`, with
`half = rows / 2`, `rOddStart = (odd_side != 0 ? half : 0)` and
`rEvenStart = (odd_side == 0 ? half : 0)`: after `gen_seat_map` the configuration is unchanged,
cell `(rOddStart + r, c)` holds `odd[r*cols + c]` when `r*cols + c < n_odd` and 0 otherwise,
cell `(rEvenStart + r, c)` holds `even[r*cols + c]` when `r*cols + c < n_even` and 0 otherwise
(for `r < half`, `c < cols`), and every other cell of the `rows x cols` grid holds 0. -/
theorem gen_seat_map_front_back (ds : Dataset) (m : SeatMap) (cfg : SeatCfg)
    (hmode : cfg.mode_lr_or_fb ≠ 0)
    (hrows : 1 ≤ cfg.rows ∧ cfg.rows ≤ 32) (hcols : 1 ≤ cfg.cols ∧ cfg.cols ≤ 32) :
    let half := cfg.rows / 2
    let rOddStart := if cfg.odd_side ≠ 0 then half else 0
    let rEvenStart := if cfg.odd_side = 0 then half else 0
    let g := (gen_seat_map ds m cfg).1
    (gen_seat_map ds m cfg).2 = cfg ∧
    (∀ r c : Int, 0 ≤ r → r < half → 0 ≤ c → c < cfg.cols →
      g (rOddStart + r) c
          = (if r * cfg.cols + c < ds.n_odd then ds.odd (r * cfg.cols + c) else 0) ∧
      g (rEvenStart + r) c
          = (if r * cfg.cols + c < ds.n_even then ds.even (r * cfg.cols + c) else 0)) ∧
    (∀ r c : Int, 0 ≤ r → r < cfg.rows → 0 ≤ c → c < cfg.cols →
      ¬ (rOddStart ≤ r ∧ r < rOddStart + half) → ¬ (rEvenStart ≤ r ∧ r < rEvenStart + half) →
      g r c = 0) := by
  intro half rOddStart rEvenStart g
  have hres : resolve_dims ds.n cfg = cfg := resolve_dims_of_pos _ _ (by omega) (by omega)
  have hcc : cfg.cols = ((cfg.cols.toNat : Nat) : Int) := by omega
  have hg : g = run m (clear_rows ((cfg.cols.toNat : Nat) : Int) cfg.rows.toNat 0 ++
      (((List.range' 0 (cfg.rows / 2).toNat).map
        (fb_row ds.odd ds.n_odd
          (if cfg.odd_side ≠ 0 then (((cfg.rows / 2).toNat : Nat) : Int) else 0)
          cfg.cols.toNat)).flatten ++
      ((List.range' 0 (cfg.rows / 2).toNat).map
        (fb_row ds.even ds.n_even
          (if cfg.odd_side = 0 then (((cfg.rows / 2).toNat : Nat) : Int) else 0)
          cfg.cols.toNat)).flatten)) := by
    show (gen_seat_map ds m cfg).1 = _
    simp only [gen_seat_map, hres]
    rw [fill_writes_fb ds cfg hmode (by omega) (by omega), ← hcc]
  have hhalf : half = (((cfg.rows / 2).toNat : Nat) : Int) := by
    show cfg.rows / 2 = _
    omega
  have hsep := starts_cases cfg.odd_side (cfg.rows / 2).toNat
  have hoS : rOddStart
      = (if cfg.odd_side ≠ 0 then (((cfg.rows / 2).toNat : Nat) : Int) else 0) := by
    show (if cfg.odd_side ≠ 0 then half else 0) = _
    rw [hhalf]
  have heS : rEvenStart
      = (if cfg.odd_side = 0 then (((cfg.rows / 2).toNat : Nat) : Int) else 0) := by
    show (if cfg.odd_side = 0 then half else 0) = _
    rw [hhalf]
  refine ⟨by simp only [gen_seat_map, hres], ?_, ?_⟩
  · intro r c hr0 hr1 hc0 hc1
    obtain ⟨r1, rfl⟩ := Int.eq_ofNat_of_zero_le hr0
    obtain ⟨c1, rfl⟩ := Int.eq_ofNat_of_zero_le hc0
    have := (fb_cells ds m cfg.rows cfg.cols.toNat _ _ _ (by omega) hsep r1 c1 (by omega)).1
      (by omega)
    rw [hg, hoS, heS]
    have e : (r1 : Int) * cfg.cols + (c1 : Int)
        = ((r1 * cfg.cols.toNat + c1 : Nat) : Int) := by
      rw [hcc]; push_cast; simp
    rw [e]
    simp only [Nat.cast_lt]
    exact this
  · intro r c hr0 hr1 hc0 hc1 hno hne
    obtain ⟨r1, rfl⟩ := Int.eq_ofNat_of_zero_le hr0
    obtain ⟨c1, rfl⟩ := Int.eq_ofNat_of_zero_le hc0
    rw [hg]
    apply (fb_cells ds m cfg.rows cfg.cols.toNat _ _ _ (by omega) hsep r1 c1 (by omega)).2 hr1
    rw [hoS, hhalf] at hno
    rw [heS, hhalf] at hne
    rcases hsep with ⟨h1, h2⟩ | ⟨h1, h2⟩
    · rw [h1] at hno; rw [h2] at hne; omega
    · rw [h1] at hno; rw [h2] at hne; omega

theorem gen_seat_map_front_back_witness :
    demo_fb_cfg.mode_lr_or_fb ≠ 0 ∧
    (1 ≤ demo_fb_cfg.rows ∧ demo_fb_cfg.rows ≤ 32) ∧
    (1 ≤ demo_fb_cfg.cols ∧ demo_fb_cfg.cols ≤ 32) ∧
    (gen_seat_map demo_fb_dataset (fun _ _ => 9) demo_fb_cfg).1 1 0 = 7 ∧
    grid_row (gen_seat_map demo_fb_dataset (fun _ _ => 9) demo_fb_cfg).1 4 0 = [2, 4, 6, 8] ∧
    grid_row (gen_seat_map demo_fb_dataset (fun _ _ => 9) demo_fb_cfg).1 4 1 = [7, 9, 0, 0] :=
  ⟨by decide, by decide, by decide,
   by
    have h := (gen_seat_map_front_back demo_fb_dataset (fun _ _ => 9) demo_fb_cfg
      (by decide) (by decide) (by decide)).2.1 0 0 (by decide) (by decide) (by decide) (by decide)
    exact h.1,
   by decide, by decide⟩

theorem ceil_div_eq (n d : Int) (hd : 0 < d) : ⌈(n : ℚ) / (d : ℚ)⌉ = (n + d - 1) / d := by
  rw [Int.ceil_eq_iff]
  have hdq : (0 : ℚ) < (d : ℚ) := by exact_mod_cast hd
  have h1 : d * ((n + d - 1) / d) ≤ n + d - 1 := Int.mul_ediv_self_le (by omega)
  have h2 : n + d - 1 < d * ((n + d - 1) / d) + d := Int.lt_mul_ediv_self_add hd
  constructor
  · rw [lt_div_iff₀ hdq]
    have : ((n + d - 1) / d - 1) * d < n := by nlinarith
    exact_mod_cast this
  · rw [div_le_iff₀ hdq]
    have : n ≤ ((n + d - 1) / d) * d := by nlinarith
    exact_mod_cast this

theorem resolve_dims_auto (total : Int) (cfg : SeatCfg) (ht : 0 ≤ total)
    (h : cfg.rows ≤ 0 ∨ cfg.cols ≤ 0) :
    (cfg.mode_lr_or_fb = 0 →
      (resolve_dims total cfg).cols = 6 ∧
      (resolve_dims total cfg).rows = min ((total + 5) / 6) 32) ∧
    (cfg.mode_lr_or_fb ≠ 0 →
      (resolve_dims total cfg).rows = 2 ∧
      (resolve_dims total cfg).cols = min ((total + 1) / 2) 32) := by
  unfold resolve_dims
  rw [if_pos h]
  constructor
  · intro hm
    simp only [if_pos hm, MAX_R, MAX_C]
    rw [Int.tdiv_eq_ediv (by omega) (by norm_num)]
    have e : total + 6 - 1 = total + 5 := by ring
    rw [e]
    by_cases h1 : (total + 5) / 6 > 32
    · simp [h1]; omega
    · simp [h1]; omega
  · intro hm
    simp only [if_neg hm, MAX_R, MAX_C]
    rw [Int.tdiv_eq_ediv (by omega) (by norm_num)]
    have e : total + 2 - 1 = total + 1 := by ring
    rw [e]
    by_cases h1 : (total + 1) / 2 > 32
    · simp [h1]; omega
    · simp [h1]; omega

/-- C9: dimension resolution in `gen_seat_map` for `n ≤ 1024`.  When `rows ≤ 0` or `cols ≤ 0`,
left-right mode yields `cols = 6` and `rows = min(ceil(n / 6), 32)` and front-back mode yields
`rows = 2` and `cols = min(ceil(n / 2), 32)`, with `n` the raw count; when both are positive,
neither is changed. -/
theorem gen_seat_map_dims (ds : Dataset) (m : SeatMap) (cfg : SeatCfg) (_hn : ds.n ≤ MAX_N) :
    (cfg.rows ≤ 0 ∨ cfg.cols ≤ 0 →
      (cfg.mode_lr_or_fb = 0 →
        (gen_seat_map ds m cfg).2.cols = 6 ∧
        (gen_seat_map ds m cfg).2.rows = min ⌈(ds.n : ℚ) / 6⌉ 32) ∧
      (cfg.mode_lr_or_fb ≠ 0 →
        (gen_seat_map ds m cfg).2.rows = 2 ∧
        (gen_seat_map ds m cfg).2.cols = min ⌈(ds.n : ℚ) / 2⌉ 32)) ∧
    (0 < cfg.rows → 0 < cfg.cols →
      (gen_seat_map ds m cfg).2.rows = cfg.rows ∧ (gen_seat_map ds m cfg).2.cols = cfg.cols) := by
  constructor
  · intro h
    have := resolve_dims_auto ds.n cfg (by omega) h
    have c6 := ceil_div_eq ds.n 6 (by norm_num)
    have c2 := ceil_div_eq ds.n 2 (by norm_num)
    simp only [Int.cast_natCast, Int.cast_ofNat] at c6 c2
    rw [c6, c2]
    have e6 : ((ds.n : Int) + 6 - 1) = (ds.n : Int) + 5 := by ring
    have e2 : ((ds.n : Int) + 2 - 1) = (ds.n : Int) + 1 := by ring
    rw [e6, e2]
    exact this
  · intro hr hc
    simp only [gen_seat_map, resolve_dims_of_pos _ _ hr hc, and_self]

theorem gen_seat_map_dims_witness :
    demo_dataset20.n ≤ MAX_N ∧
    (gen_seat_map demo_dataset20 (fun _ _ => 0)
      { rows := 0, cols := 0, mode_lr_or_fb := 0, odd_side := 0 }).2.rows
        = min ⌈((demo_dataset20.n : ℕ) : ℚ) / 6⌉ 32 ∧
    (gen_seat_map demo_dataset20 (fun _ _ => 0)
      { rows := 0, cols := 0, mode_lr_or_fb := 0, odd_side := 0 }).2.rows = 4 :=
  ⟨by decide,
   ((gen_seat_map_dims demo_dataset20 (fun _ _ => 0)
      { rows := 0, cols := 0, mode_lr_or_fb := 0, odd_side := 0 } (by decide)).1
      (Or.inl (by decide))).1 (by decide) |>.2,
   by decide⟩

/-- C8 (the code at the failing input): with explicit `rows = 33` and `cols = 1` the call of
`gen_seat_map` returns `rows = 33`, above `MAX_R = 32`, for a dataset of 20 values: the clamp
is applied only to derived dimensions. -/
theorem gen_seat_map_rows_above_max :
    20 ≤ demo_dataset20.n ∧ demo_dataset20.n ≤ MAX_N ∧
    (gen_seat_map demo_dataset20 (fun _ _ => 0)
      { rows := 33, cols := 1, mode_lr_or_fb := 0, odd_side := 0 }).2.rows = 33 ∧
    ¬ ((gen_seat_map demo_dataset20 (fun _ _ => 0)
      { rows := 33, cols := 1, mode_lr_or_fb := 0, odd_side := 0 }).2.rows ≤ MAX_R) := by
  refine ⟨by decide, by decide, by decide, by decide⟩

/-- When a dimension is left unspecified and `20 ≤ n`, the derived dimensions are within
`1 .. 32`. -/
theorem resolve_dims_auto_bounds (total : Int) (cfg : SeatCfg) (ht : 20 ≤ total)
    (h : cfg.rows ≤ 0 ∨ cfg.cols ≤ 0) :
    (1 ≤ (resolve_dims total cfg).rows ∧ (resolve_dims total cfg).rows ≤ MAX_R) ∧
    (1 ≤ (resolve_dims total cfg).cols ∧ (resolve_dims total cfg).cols ≤ MAX_C) := by
  have := resolve_dims_auto total cfg (by omega) h
  by_cases hm : cfg.mode_lr_or_fb = 0
  · obtain ⟨h1, h2⟩ := this.1 hm
    rw [h1, h2]; simp only [MAX_R, MAX_C]; omega
  · obtain ⟨h1, h2⟩ := this.2 hm
    rw [h1, h2]; simp only [MAX_R, MAX_C]; omega

theorem mem_grid_cells {rows cols : Nat} {p : Int × Int} :
    p ∈ grid_cells rows cols ↔ ∃ r c : Nat, r < rows ∧ c < cols ∧ p = ((r : Int), (c : Int)) := by
  simp only [grid_cells, List.mem_flatMap, List.mem_range, List.mem_map]
  constructor
  · rintro ⟨r, hr, c, hc, rfl⟩; exact ⟨r, c, hr, hc, rfl⟩
  · rintro ⟨r, c, hr, hc, rfl⟩; exact ⟨r, hr, c, hc, rfl⟩

theorem grid_cells_nodup (rows cols : Nat) : (grid_cells rows cols).Nodup := by
  unfold grid_cells
  rw [List.nodup_flatMap]
  constructor
  · intro r _
    apply List.Nodup.map_on _ (List.nodup_range _)
    intro x _ y _ h
    simp only [Prod.mk.injEq, true_and] at h
    omega
  · apply (List.nodup_range rows).imp
    intro a b hab x hx hy
    obtain ⟨c, _, rfl⟩ := List.mem_map.mp hx
    obtain ⟨c1, _, e⟩ := List.mem_map.mp hy
    simp only [Prod.mk.injEq] at e
    omega

/-- The number of non-empty cells after initialisation and a sequence of assignments that
stay in the grid, write no cell twice and store no 0 is the number of assignments. -/
theorem placed_eq_length (m : SeatMap) (R C : Nat) (L : List Write)
    (hnd : (L.map Prod.fst).Nodup)
    (hin : ∀ w ∈ L, w.1 ∈ grid_cells R C) (hnz : ∀ w ∈ L, w.2 ≠ 0) :
    placed (run m (clear_rows (C : Int) ((R : Int)).toNat 0 ++ L)) R C = L.length := by
  unfold placed
  have hcongr : ∀ p ∈ grid_cells R C,
      (decide (run m (clear_rows (C : Int) ((R : Int)).toNat 0 ++ L) p.1 p.2 ≠ 0) = true ↔
       decide (p ∈ L.map Prod.fst) = true) := by
    intro p hp
    obtain ⟨r, c, hr, hc, rfl⟩ := mem_grid_cells.mp hp
    have key := run_clear_fill m (R : Int) (C : Int) L hnd r c ⟨by omega, by omega⟩
      ⟨by omega, by omega⟩
    simp only [decide_eq_true_eq]
    constructor
    · intro h
      by_contra hcon
      exact h (key.2 hcon)
    · intro h
      obtain ⟨w, hw, e⟩ := List.mem_map.mp h
      have : run m (clear_rows (C : Int) ((R : Int)).toNat 0 ++ L) r c = w.2 := by
        apply key.1
        rw [← e]; exact hw
      rw [this]; exact hnz w hw
  rw [List.countP_congr hcongr, List.countP_eq_length_filter]
  have hperm : ((grid_cells R C).filter (fun p => decide (p ∈ L.map Prod.fst))).Perm
      (L.map Prod.fst) := by
    rw [List.perm_ext_iff_of_nodup ((grid_cells_nodup R C).filter _) hnd]
    intro p
    simp only [List.mem_filter, decide_eq_true_eq]
    constructor
    · exact fun h => h.2
    · intro h
      obtain ⟨w, hw, e⟩ := List.mem_map.mp h
      exact ⟨by rw [← e]; exact hin w hw, h⟩
  rw [hperm.length_eq, List.length_map]

theorem fb_rows_length (p : Arr) (n : Nat) (rStart : Int) (C : Nat) : ∀ (k s : Nat),
    (((List.range' s k).map (fb_row p n rStart C)).flatten).length + min (s * C) n
      = min ((s + k) * C) n := by
  intro k
  induction k with
  | zero => intro s; simp
  | succ k ih =>
    intro s
    have := ih (s + 1)
    have e : s + 1 + k = s + (k + 1) := by omega
    rw [e] at this
    have c := cursor_step s C n
    simp only [List.range'_succ, List.map_cons, List.flatten_cons, List.length_append, fb_row,
      cells_cf_length]
    omega

theorem lr_rows_length (ds : Dataset) (H : Nat) (oS eS : Int) : ∀ (k s : Nat),
    (((List.range' s k).map (lr_row ds H oS eS)).flatten).length
        + (min (s * H) ds.n_odd + min (s * H) ds.n_even)
      = min ((s + k) * H) ds.n_odd + min ((s + k) * H) ds.n_even := by
  intro k
  induction k with
  | zero => intro s; simp
  | succ k ih =>
    intro s
    have := ih (s + 1)
    have e : s + 1 + k = s + (k + 1) := by omega
    rw [e] at this
    have c1 := cursor_step s H ds.n_odd
    have c2 := cursor_step s H ds.n_even
    simp only [List.range'_succ, List.map_cons, List.flatten_cons, List.length_append, lr_row,
      cells_cf_length]
    omega

/-- With explicit positive dimensions and non-zero values, `gen_seat_map` leaves
`min(n_odd, H) + min(n_even, H)` cells non-empty, `H` the number of cells of one half. -/
theorem placed_gen_seat_map (ds : Dataset) (m : SeatMap) (cfg : SeatCfg)
    (hrows : 1 ≤ cfg.rows) (hcols : 1 ≤ cfg.cols)
    (hO : ∀ k : Nat, k < ds.n_odd → ds.odd k ≠ 0)
    (hE : ∀ k : Nat, k < ds.n_even → ds.even k ≠ 0) :
    placed (gen_seat_map ds m cfg).1 cfg.rows.toNat cfg.cols.toNat
      = min ds.n_odd (half_cells cfg) + min ds.n_even (half_cells cfg) := by
  have hres : resolve_dims ds.n cfg = cfg := resolve_dims_of_pos _ _ (by omega) (by omega)
  have hcc : cfg.cols = ((cfg.cols.toNat : Nat) : Int) := by omega
  have hrr : cfg.rows = ((cfg.rows.toNat : Nat) : Int) := by omega
  by_cases hmode : cfg.mode_lr_or_fb = 0
  · have hg : (gen_seat_map ds m cfg).1
        = run m (clear_rows ((cfg.cols.toNat : Nat) : Int)
            (((cfg.rows.toNat : Nat) : Int)).toNat 0 ++
          ((List.range' 0 cfg.rows.toNat).map (lr_row ds (cfg.cols / 2).toNat
            (if cfg.odd_side ≠ 0 then (((cfg.cols / 2).toNat : Nat) : Int) else 0)
            (if cfg.odd_side = 0 then (((cfg.cols / 2).toNat : Nat) : Int) else 0))).flatten) := by
      simp only [gen_seat_map, hres]
      rw [fill_writes_lr ds cfg hmode (by omega), ← hcc, ← hrr]
    have hsep := starts_cases cfg.odd_side (cfg.cols / 2).toNat
    rw [hg, placed_eq_length]
    · have := lr_rows_length ds (cfg.cols / 2).toNat
        (if cfg.odd_side ≠ 0 then (((cfg.cols / 2).toNat : Nat) : Int) else 0)
        (if cfg.odd_side = 0 then (((cfg.cols / 2).toNat : Nat) : Int) else 0) cfg.rows.toNat 0
      simp only [half_cells, if_pos hmode]
      simp only [Nat.zero_mul, Nat.zero_min, Nat.zero_add, Nat.add_zero] at this
      rw [this, Nat.min_comm, Nat.min_comm ds.n_even]
    · exact lr_nodup ds _ _ _ (by omega) 0 _
    · intro w hw
      obtain ⟨r, hr, hw1⟩ := mem_rows.mp hw
      obtain ⟨t, ht, (⟨_, rfl⟩ | ⟨_, rfl⟩)⟩ := mem_lr_row.mp hw1
      · rcases hsep with ⟨h1, h2⟩ | ⟨h1, h2⟩
        · exact mem_grid_cells.mpr ⟨r, t, by omega, by omega, by rw [h1]; simp⟩
        · exact mem_grid_cells.mpr ⟨r, (cfg.cols / 2).toNat + t, by omega, by omega,
            by rw [h1]; push_cast; rfl⟩
      · rcases hsep with ⟨h1, h2⟩ | ⟨h1, h2⟩
        · exact mem_grid_cells.mpr ⟨r, (cfg.cols / 2).toNat + t, by omega, by omega,
            by rw [h2]; push_cast; rfl⟩
        · exact mem_grid_cells.mpr ⟨r, t, by omega, by omega, by rw [h2]; simp⟩
    · intro w hw
      obtain ⟨r, hr, hw1⟩ := mem_rows.mp hw
      obtain ⟨t, ht, (⟨h, rfl⟩ | ⟨h, rfl⟩)⟩ := mem_lr_row.mp hw1
      · exact hO _ h
      · exact hE _ h
  · have hg : (gen_seat_map ds m cfg).1
        = run m (clear_rows ((cfg.cols.toNat : Nat) : Int)
            (((cfg.rows.toNat : Nat) : Int)).toNat 0 ++
          (((List.range' 0 (cfg.rows / 2).toNat).map
            (fb_row ds.odd ds.n_odd
              (if cfg.odd_side ≠ 0 then (((cfg.rows / 2).toNat : Nat) : Int) else 0)
              cfg.cols.toNat)).flatten ++
          ((List.range' 0 (cfg.rows / 2).toNat).map
            (fb_row ds.even ds.n_even
              (if cfg.odd_side = 0 then (((cfg.rows / 2).toNat : Nat) : Int) else 0)
              cfg.cols.toNat)).flatten)) := by
      simp only [gen_seat_map, hres]
      rw [fill_writes_fb ds cfg hmode (by omega) (by omega), ← hcc, ← hrr]
    have hsep := starts_cases cfg.odd_side (cfg.rows / 2).toNat
    rw [hg, placed_eq_length]
    · have h1 := fb_rows_length ds.odd ds.n_odd
        (if cfg.odd_side ≠ 0 then (((cfg.rows / 2).toNat : Nat) : Int) else 0) cfg.cols.toNat
        (cfg.rows / 2).toNat 0
      have h2 := fb_rows_length ds.even ds.n_even
        (if cfg.odd_side = 0 then (((cfg.rows / 2).toNat : Nat) : Int) else 0) cfg.cols.toNat
        (cfg.rows / 2).toNat 0
      simp only [half_cells, if_neg hmode]
      simp only [Nat.zero_mul, Nat.zero_min, Nat.zero_add, Nat.add_zero] at h1 h2
      rw [List.length_append, h1, h2, Nat.min_comm, Nat.min_comm ds.n_even]
    · exact fb_all_nodup ds _ _ _ _ (by omega)
    · intro w hw
      rcases List.mem_append.mp hw with hw | hw
      · obtain ⟨r, t, h1, h2, h3, rfl⟩ := mem_fb_rows.mp hw
        rcases hsep with ⟨e1, e2⟩ | ⟨e1, e2⟩
        · exact mem_grid_cells.mpr ⟨r, t, by omega, by omega, by rw [e1]; simp⟩
        · exact mem_grid_cells.mpr ⟨(cfg.rows / 2).toNat + r, t, by omega, by omega,
            by rw [e1]; push_cast; rfl⟩
      · obtain ⟨r, t, h1, h2, h3, rfl⟩ := mem_fb_rows.mp hw
        rcases hsep with ⟨e1, e2⟩ | ⟨e1, e2⟩
        · exact mem_grid_cells.mpr ⟨(cfg.rows / 2).toNat + r, t, by omega, by omega,
            by rw [e2]; push_cast; rfl⟩
        · exact mem_grid_cells.mpr ⟨r, t, by omega, by omega, by rw [e2]; simp⟩
    · intro w hw
      rcases List.mem_append.mp hw with hw | hw
      · obtain ⟨r, t, h1, h2, h3, rfl⟩ := mem_fb_rows.mp hw
        exact hO _ h3
      · obtain ⟨r, t, h1, h2, h3, rfl⟩ := mem_fb_rows.mp hw
        exact hE _ h3

theorem half_cells_of_capacity_five (cfg : SeatCfg) (hrows : 1 ≤ cfg.rows) (hcols : 1 ≤ cfg.cols)
    (hcap : cfg.rows * cfg.cols = 5) : half_cells cfg ≤ 2 := by
  have h1 : cfg.rows ≤ 5 := by nlinarith
  have h2 : cfg.cols ≤ 5 := by nlinarith
  have hcases : (cfg.rows = 1 ∧ cfg.cols = 5) ∨ (cfg.rows = 5 ∧ cfg.cols = 1) := by
    have hr : cfg.rows = 1 ∨ cfg.rows = 2 ∨ cfg.rows = 3 ∨ cfg.rows = 4 ∨ cfg.rows = 5 := by
      omega
    rcases hr with h | h | h | h | h <;> rw [h] at hcap <;> omega
  unfold half_cells
  rcases hcases with ⟨e1, e2⟩ | ⟨e1, e2⟩ <;> rw [e1, e2] <;> split <;> decide

/-- C6 (as amended): for every configuration with explicit positive `rows` and `cols` and
`rows * cols = 5`, in either mode and for either `odd_side`, and every dataset of non-zero
values with `n_odd + n_even = 8`, `gen_seat_map` keeps the configuration and leaves exactly
`min(n_odd, H) + min(n_even, H)` cells non-empty, where `H` (the cells of one half) is at most
2: at most 4 values are placed and at least 4 are left unplaced. -/
theorem gen_seat_map_capacity_five (ds : Dataset) (m : SeatMap) (cfg : SeatCfg)
    (hrows : 1 ≤ cfg.rows) (hcols : 1 ≤ cfg.cols) (hcap : cfg.rows * cfg.cols = 5)
    (hsum : ds.n_odd + ds.n_even = 8)
    (hO : ∀ k : Nat, k < ds.n_odd → ds.odd k ≠ 0)
    (hE : ∀ k : Nat, k < ds.n_even → ds.even k ≠ 0) :
    (gen_seat_map ds m cfg).2 = cfg ∧
    placed (gen_seat_map ds m cfg).1 cfg.rows.toNat cfg.cols.toNat
      = min ds.n_odd (half_cells cfg) + min ds.n_even (half_cells cfg) ∧
    half_cells cfg ≤ 2 ∧
    placed (gen_seat_map ds m cfg).1 cfg.rows.toNat cfg.cols.toNat ≤ 4 ∧
    4 ≤ ds.n_odd + ds.n_even - placed (gen_seat_map ds m cfg).1 cfg.rows.toNat cfg.cols.toNat := by
  have h1 := placed_gen_seat_map ds m cfg hrows hcols hO hE
  have h2 := half_cells_of_capacity_five cfg hrows hcols hcap
  have hres : resolve_dims ds.n cfg = cfg := resolve_dims_of_pos _ _ (by omega) (by omega)
  refine ⟨by simp only [gen_seat_map, hres], h1, h2, ?_, ?_⟩
  · rw [h1]; omega
  · rw [h1]; omega

theorem gen_seat_map_capacity_five_witness :
    1 ≤ demo_overflow_cfg.rows ∧ 1 ≤ demo_overflow_cfg.cols ∧
    demo_overflow_cfg.rows * demo_overflow_cfg.cols = 5 ∧
    demo_overflow_dataset.n_odd + demo_overflow_dataset.n_even = 8 ∧
    placed (gen_seat_map demo_overflow_dataset (fun _ _ => 0) demo_overflow_cfg).1
      demo_overflow_cfg.rows.toNat demo_overflow_cfg.cols.toNat ≤ 4 :=
  ⟨by decide, by decide, by decide, by decide,
   (gen_seat_map_capacity_five demo_overflow_dataset (fun _ _ => 0) demo_overflow_cfg
      (by decide) (by decide) (by decide) (by decide) (by decide) (by decide)).2.2.2.1⟩

/-- C6 as stated fails: a grid of one row and five columns (capacity 5) in left-right mode,
given five odd and three even non-zero values, ends with 4 non-empty cells, not 5. -/
theorem gen_seat_map_capacity_five_counterexample :
    demo_overflow_cfg.rows * demo_overflow_cfg.cols = 5 ∧
    demo_overflow_dataset.n_odd + demo_overflow_dataset.n_even = 8 ∧
    (∀ k : Nat, k < demo_overflow_dataset.n_odd → demo_overflow_dataset.odd k ≠ 0) ∧
    (∀ k : Nat, k < demo_overflow_dataset.n_even → demo_overflow_dataset.even k ≠ 0) ∧
    grid_row (gen_seat_map demo_overflow_dataset (fun _ _ => 0) demo_overflow_cfg).1 5 0
      = [1, 3, 2, 4, 0] ∧
    placed (gen_seat_map demo_overflow_dataset (fun _ _ => 0) demo_overflow_cfg).1 1 5 = 4 ∧
    ¬ (placed (gen_seat_map demo_overflow_dataset (fun _ _ => 0) demo_overflow_cfg).1 1 5 = 5) := by
  refine ⟨by decide, by decide, by decide, by decide, by decide, by decide, by decide⟩

theorem seg_append (p : Arr) (i a b : Nat) : seg p i a ++ seg p (i + a) b = seg p i (a + b) := by
  simp only [seg, ← List.map_append]
  congr 1
  rw [Nat.add_comm a b]
  exact List.range'_append_1 i a b

theorem seg_rows (p : Arr) (n W : Nat) (f : Nat → List Int)
    (hf : ∀ r, f r = seg p (min (r * W) n) (min W (n - min (r * W) n))) : ∀ (k s : Nat),
    ((List.range' s k).map f).flatten
      = seg p (min (s * W) n) (min ((s + k) * W) n - min (s * W) n) := by
  intro k
  induction k with
  | zero => intro s; simp [seg]
  | succ k ih =>
    intro s
    have c := cursor_step s W n
    have hmono : min ((s + 1) * W) n ≤ min ((s + 1 + k) * W) n := by
      have : (s + 1) * W ≤ (s + 1 + k) * W := Nat.mul_le_mul_right _ (by omega)
      omega
    have e : s + 1 + k = s + (k + 1) := by omega
    simp only [List.range'_succ, List.map_cons, List.flatten_cons, ih (s + 1), hf s]
    rw [← c, seg_append, e]
    congr 1
    rw [e] at hmono
    omega

theorem region_disjoint (cfg : SeatCfg) (p : Int × Int) :
    ¬ (in_odd_region cfg p = true ∧ in_even_region cfg p = true) := by
  unfold in_odd_region in_even_region
  by_cases hm : cfg.mode_lr_or_fb = 0 <;> by_cases hs : cfg.odd_side = 0 <;>
    simp only [hm, hs, if_true, if_false, ne_eq, not_true_eq_false, not_false_eq_true,
      decide_eq_true_eq] <;> omega

theorem filter_rows_left (P : Write → Bool) (A B : Nat → List Write)
    (hA : ∀ r, ∀ w ∈ A r, P w = true) (hB : ∀ r, ∀ w ∈ B r, P w = false) (rows : List Nat) :
    ((rows.map (fun r => A r ++ B r)).flatten).filter P = (rows.map A).flatten := by
  induction rows with
  | nil => simp
  | cons r rows ih =>
    simp only [List.map_cons, List.flatten_cons, List.filter_append, ih]
    have h1 : (A r).filter P = A r := List.filter_eq_self.mpr (hA r)
    have h2 : (B r).filter P = [] := by
      rw [List.filter_eq_nil_iff]
      intro w hw; rw [hB r w hw]; simp
    rw [h1, h2, List.append_nil]

theorem filter_rows_right (P : Write → Bool) (A B : Nat → List Write)
    (hA : ∀ r, ∀ w ∈ A r, P w = false) (hB : ∀ r, ∀ w ∈ B r, P w = true) (rows : List Nat) :
    ((rows.map (fun r => A r ++ B r)).flatten).filter P = (rows.map B).flatten := by
  induction rows with
  | nil => simp
  | cons r rows ih =>
    simp only [List.map_cons, List.flatten_cons, List.filter_append, ih]
    have h1 : (B r).filter P = B r := List.filter_eq_self.mpr (hB r)
    have h2 : (A r).filter P = [] := by
      rw [List.filter_eq_nil_iff]
      intro w hw; rw [hA r w hw]; simp
    rw [h1, h2, List.nil_append]

/-- Values stored by consecutive rows of cells, each continuing where the previous one
stopped, read in order: a prefix of the source array. -/
theorem rows_values (p : Arr) (n W : Nat) (f : Nat → List Write)
    (hf : ∀ r, (f r).map Prod.snd = seg p (min (r * W) n) (min W (n - min (r * W) n)))
    (k : Nat) :
    (((List.range' 0 k).map f).flatten).map Prod.snd = slice p (min (k * W) n) := by
  rw [List.map_flatten, List.map_map]
  have := seg_rows p n W (fun r => (f r).map Prod.snd) hf k 0
  simp only [Nat.zero_mul, Nat.zero_min, Nat.zero_add, Nat.sub_zero] at this
  rw [← seg_zero]
  exact this

theorem bool_not_true_of_disjoint {a b : Bool} (h : ¬ (a = true ∧ b = true)) (hb : b = true) :
    a = false := by
  cases a <;> simp_all

/-- The assignments of the left-right mode: where they go and what they store. -/
theorem lr_log_facts (ds : Dataset) (cfg : SeatCfg) (hmode : cfg.mode_lr_or_fb = 0)
    (hrows : 1 ≤ cfg.rows) (hcols : 1 ≤ cfg.cols) :
    ((fill_writes ds cfg).map Prod.fst).Nodup ∧
    (∀ w ∈ fill_writes ds cfg, ((0 ≤ w.1.1 ∧ w.1.1 < cfg.rows) ∧ (0 ≤ w.1.2 ∧ w.1.2 < cfg.cols)) ∧
      ((in_odd_region cfg w.1 = true ∧ ∃ k : Nat, k < ds.n_odd ∧ w.2 = ds.odd k) ∨
       (in_even_region cfg w.1 = true ∧ ∃ k : Nat, k < ds.n_even ∧ w.2 = ds.even k))) ∧
    (∃ p : Nat, p ≤ ds.n_odd ∧
      ((fill_writes ds cfg).filter (fun w => in_odd_region cfg w.1)).map Prod.snd
        = slice ds.odd p) ∧
    (∃ q : Nat, q ≤ ds.n_even ∧
      ((fill_writes ds cfg).filter (fun w => in_even_region cfg w.1)).map Prod.snd
        = slice ds.even q) := by
  rw [fill_writes_lr ds cfg hmode (by omega)]
  have hsep := starts_cases cfg.odd_side (cfg.cols / 2).toNat
  have hhalf : cfg.cols / 2 = (((cfg.cols / 2).toNat : Nat) : Int) := by omega
  generalize hH : (cfg.cols / 2).toNat = H at hsep hhalf ⊢
  generalize hoS : (if cfg.odd_side ≠ 0 then (H : Int) else 0) = oS at hsep ⊢
  generalize heS : (if cfg.odd_side = 0 then (H : Int) else 0) = eS at hsep ⊢
  have hoddreg : ∀ (r : Int) (t : Nat), t < H → in_odd_region cfg (r, oS + (t : Int)) = true := by
    intro r t ht
    simp only [in_odd_region, if_pos hmode, hhalf, hoS, decide_eq_true_eq]
    omega
  have hevenreg : ∀ (r : Int) (t : Nat), t < H →
      in_even_region cfg (r, eS + (t : Int)) = true := by
    intro r t ht
    simp only [in_even_region, if_pos hmode, hhalf, heS, decide_eq_true_eq]
    omega
  have hA : ∀ r : Nat, ∀ w ∈ cells_cf ds.odd ds.n_odd (r : Int) oS H 0 (min (r * H) ds.n_odd),
      in_odd_region cfg w.1 = true ∧ in_even_region cfg w.1 = false := by
    intro r w hw
    obtain ⟨t, ht, _, rfl⟩ := mem_cells_cf.mp hw
    simp only [add_zero]
    exact ⟨hoddreg _ t ht, by
      have := region_disjoint cfg ((r : Int), oS + (t : Int))
      cases h : in_even_region cfg ((r : Int), oS + (t : Int))
      · rfl
      · exact absurd ⟨hoddreg _ t ht, h⟩ this⟩
  have hB : ∀ r : Nat, ∀ w ∈ cells_cf ds.even ds.n_even (r : Int) eS H 0 (min (r * H) ds.n_even),
      in_even_region cfg w.1 = true ∧ in_odd_region cfg w.1 = false := by
    intro r w hw
    obtain ⟨t, ht, _, rfl⟩ := mem_cells_cf.mp hw
    simp only [add_zero]
    exact ⟨hevenreg _ t ht, bool_not_true_of_disjoint (region_disjoint cfg _) (hevenreg _ t ht)⟩
  have hrowfun : lr_row ds H oS eS = (fun r : Nat =>
      cells_cf ds.odd ds.n_odd (r : Int) oS H 0 (min (r * H) ds.n_odd) ++
      cells_cf ds.even ds.n_even (r : Int) eS H 0 (min (r * H) ds.n_even)) := by
    funext r; rfl
  refine ⟨lr_nodup ds H oS eS (by omega) 0 _, ?_, ?_, ?_⟩
  · intro w hw
    obtain ⟨r, hr, hw1⟩ := mem_rows.mp hw
    obtain ⟨t, ht, (⟨h, rfl⟩ | ⟨h, rfl⟩)⟩ := mem_lr_row.mp hw1
    · refine ⟨⟨⟨by simp, by simp only; omega⟩, by simp only; omega⟩, Or.inl ⟨hoddreg _ t ht, _, h, rfl⟩⟩
    · refine ⟨⟨⟨by simp, by simp only; omega⟩, by simp only; omega⟩, Or.inr ⟨hevenreg _ t ht, _, h, rfl⟩⟩
  · refine ⟨min (cfg.rows.toNat * H) ds.n_odd, by omega, ?_⟩
    rw [hrowfun, filter_rows_left _ _ _ (fun r w hw => (hA r w hw).1) (fun r w hw => (hB r w hw).2)]
    apply rows_values
    intro r
    rw [cells_cf_values]
  · refine ⟨min (cfg.rows.toNat * H) ds.n_even, by omega, ?_⟩
    rw [hrowfun, filter_rows_right _ _ _ (fun r w hw => (hA r w hw).2) (fun r w hw => (hB r w hw).1)]
    apply rows_values
    intro r
    rw [cells_cf_values]

/-- The assignments of the front-back mode: where they go and what they store. -/
theorem fb_log_facts (ds : Dataset) (cfg : SeatCfg) (hmode : cfg.mode_lr_or_fb ≠ 0)
    (hrows : 1 ≤ cfg.rows) (hcols : 1 ≤ cfg.cols) :
    ((fill_writes ds cfg).map Prod.fst).Nodup ∧
    (∀ w ∈ fill_writes ds cfg, ((0 ≤ w.1.1 ∧ w.1.1 < cfg.rows) ∧ (0 ≤ w.1.2 ∧ w.1.2 < cfg.cols)) ∧
      ((in_odd_region cfg w.1 = true ∧ ∃ k : Nat, k < ds.n_odd ∧ w.2 = ds.odd k) ∨
       (in_even_region cfg w.1 = true ∧ ∃ k : Nat, k < ds.n_even ∧ w.2 = ds.even k))) ∧
    (∃ p : Nat, p ≤ ds.n_odd ∧
      ((fill_writes ds cfg).filter (fun w => in_odd_region cfg w.1)).map Prod.snd
        = slice ds.odd p) ∧
    (∃ q : Nat, q ≤ ds.n_even ∧
      ((fill_writes ds cfg).filter (fun w => in_even_region cfg w.1)).map Prod.snd
        = slice ds.even q) := by
  rw [fill_writes_fb ds cfg hmode (by omega) (by omega)]
  have hsep := starts_cases cfg.odd_side (cfg.rows / 2).toNat
  have hhalf : cfg.rows / 2 = (((cfg.rows / 2).toNat : Nat) : Int) := by omega
  generalize hH : (cfg.rows / 2).toNat = H at hsep hhalf ⊢
  generalize hoS : (if cfg.odd_side ≠ 0 then (H : Int) else 0) = rO at hsep ⊢
  generalize heS : (if cfg.odd_side = 0 then (H : Int) else 0) = rE at hsep ⊢
  have hoddreg : ∀ (r : Nat) (c : Int), r < H → in_odd_region cfg (rO + (r : Int), c) = true := by
    intro r c hr
    simp only [in_odd_region, if_neg hmode, hhalf, hoS, decide_eq_true_eq]
    omega
  have hevenreg : ∀ (r : Nat) (c : Int), r < H →
      in_even_region cfg (rE + (r : Int), c) = true := by
    intro r c hr
    simp only [in_even_region, if_neg hmode, hhalf, heS, decide_eq_true_eq]
    omega
  have hA : ∀ w ∈ ((List.range' 0 H).map (fb_row ds.odd ds.n_odd rO cfg.cols.toNat)).flatten,
      in_odd_region cfg w.1 = true ∧ in_even_region cfg w.1 = false := by
    intro w hw
    obtain ⟨r, t, hr, _, _, rfl⟩ := mem_fb_rows.mp hw
    exact ⟨hoddreg r _ hr, by
      have := region_disjoint cfg (rO + (r : Int), (t : Int))
      cases h : in_even_region cfg (rO + (r : Int), (t : Int))
      · rfl
      · exact absurd ⟨hoddreg r _ hr, h⟩ this⟩
  have hB : ∀ w ∈ ((List.range' 0 H).map (fb_row ds.even ds.n_even rE cfg.cols.toNat)).flatten,
      in_even_region cfg w.1 = true ∧ in_odd_region cfg w.1 = false := by
    intro w hw
    obtain ⟨r, t, hr, _, _, rfl⟩ := mem_fb_rows.mp hw
    exact ⟨hevenreg r _ hr, bool_not_true_of_disjoint (region_disjoint cfg _) (hevenreg r _ hr)⟩
  refine ⟨fb_all_nodup ds _ _ _ _ (by omega), ?_, ?_, ?_⟩
  · intro w hw
    rcases List.mem_append.mp hw with hw | hw
    · obtain ⟨r, t, hr, ht, h, rfl⟩ := mem_fb_rows.mp hw
      refine ⟨⟨by simp only; omega, by simp only; omega⟩, Or.inl ⟨hoddreg r _ hr, _, h, rfl⟩⟩
    · obtain ⟨r, t, hr, ht, h, rfl⟩ := mem_fb_rows.mp hw
      refine ⟨⟨by simp only; omega, by simp only; omega⟩, Or.inr ⟨hevenreg r _ hr, _, h, rfl⟩⟩
  · refine ⟨min (H * cfg.cols.toNat) ds.n_odd, by omega, ?_⟩
    rw [List.filter_append]
    have h1 : (((List.range' 0 H).map (fb_row ds.odd ds.n_odd rO cfg.cols.toNat)).flatten).filter
        (fun w => in_odd_region cfg w.1)
        = ((List.range' 0 H).map (fb_row ds.odd ds.n_odd rO cfg.cols.toNat)).flatten :=
      List.filter_eq_self.mpr (fun w hw => (hA w hw).1)
    have h2 : (((List.range' 0 H).map (fb_row ds.even ds.n_even rE cfg.cols.toNat)).flatten).filter
        (fun w => in_odd_region cfg w.1) = [] := by
      rw [List.filter_eq_nil_iff]
      intro w hw; rw [(hB w hw).2]; simp
    rw [h1, h2, List.append_nil]
    apply rows_values
    intro r
    simp only [fb_row, cells_cf_values]
  · refine ⟨min (H * cfg.cols.toNat) ds.n_even, by omega, ?_⟩
    rw [List.filter_append]
    have h1 : (((List.range' 0 H).map (fb_row ds.even ds.n_even rE cfg.cols.toNat)).flatten).filter
        (fun w => in_even_region cfg w.1)
        = ((List.range' 0 H).map (fb_row ds.even ds.n_even rE cfg.cols.toNat)).flatten :=
      List.filter_eq_self.mpr (fun w hw => (hB w hw).1)
    have h2 : (((List.range' 0 H).map (fb_row ds.odd ds.n_odd rO cfg.cols.toNat)).flatten).filter
        (fun w => in_even_region cfg w.1) = [] := by
      rw [List.filter_eq_nil_iff]
      intro w hw; rw [(hA w hw).2]; simp
    rw [h1, h2, List.nil_append]
    apply rows_values
    intro r
    simp only [fb_row, cells_cf_values]

/-- C7: for `1 ≤ rows ≤ 32` and `1 ≤ cols ≤ 32`, in both modes: the grid after `gen_seat_map`
is the zero-initialised grid followed by the assignments `fill_writes`; no cell is assigned
twice; the odd and the even region are disjoint; every assignment stays in the grid and
stores `odd[k]`, `k < n_odd`, in the odd region or `even[k]`, `k < n_even`, in the even
region; every non-empty cell holds such a value; and the values assigned in the odd region,
in program order, are `odd[0..p)` for some `p ≤ n_odd` (likewise `even[0..q)`). -/
theorem gen_seat_map_fill_invariants (ds : Dataset) (m : SeatMap) (cfg : SeatCfg)
    (hrows : 1 ≤ cfg.rows ∧ cfg.rows ≤ 32) (hcols : 1 ≤ cfg.cols ∧ cfg.cols ≤ 32) :
    (gen_seat_map ds m cfg).1
      = run m (clear_rows cfg.cols cfg.rows.toNat 0 ++ fill_writes ds cfg) ∧
    ((fill_writes ds cfg).map Prod.fst).Nodup ∧
    (∀ p : Int × Int, ¬ (in_odd_region cfg p = true ∧ in_even_region cfg p = true)) ∧
    (∀ w ∈ fill_writes ds cfg,
      ((0 ≤ w.1.1 ∧ w.1.1 < cfg.rows) ∧ (0 ≤ w.1.2 ∧ w.1.2 < cfg.cols)) ∧
      ((in_odd_region cfg w.1 = true ∧ ∃ k : Nat, k < ds.n_odd ∧ w.2 = ds.odd k) ∨
       (in_even_region cfg w.1 = true ∧ ∃ k : Nat, k < ds.n_even ∧ w.2 = ds.even k))) ∧
    (∀ r c : Int, 0 ≤ r → r < cfg.rows → 0 ≤ c → c < cfg.cols →
      (gen_seat_map ds m cfg).1 r c ≠ 0 →
      (∃ k : Nat, k < ds.n_odd ∧ (gen_seat_map ds m cfg).1 r c = ds.odd k) ∨
      (∃ k : Nat, k < ds.n_even ∧ (gen_seat_map ds m cfg).1 r c = ds.even k)) ∧
    (∃ p : Nat, p ≤ ds.n_odd ∧
      ((fill_writes ds cfg).filter (fun w => in_odd_region cfg w.1)).map Prod.snd
        = slice ds.odd p) ∧
    (∃ q : Nat, q ≤ ds.n_even ∧
      ((fill_writes ds cfg).filter (fun w => in_even_region cfg w.1)).map Prod.snd
        = slice ds.even q) := by
  have hres : resolve_dims ds.n cfg = cfg := resolve_dims_of_pos _ _ (by omega) (by omega)
  have hg : (gen_seat_map ds m cfg).1
      = run m (clear_rows cfg.cols cfg.rows.toNat 0 ++ fill_writes ds cfg) := by
    simp only [gen_seat_map, hres]
  have facts : ((fill_writes ds cfg).map Prod.fst).Nodup ∧
    (∀ w ∈ fill_writes ds cfg, ((0 ≤ w.1.1 ∧ w.1.1 < cfg.rows) ∧ (0 ≤ w.1.2 ∧ w.1.2 < cfg.cols)) ∧
      ((in_odd_region cfg w.1 = true ∧ ∃ k : Nat, k < ds.n_odd ∧ w.2 = ds.odd k) ∨
       (in_even_region cfg w.1 = true ∧ ∃ k : Nat, k < ds.n_even ∧ w.2 = ds.even k))) ∧
    (∃ p : Nat, p ≤ ds.n_odd ∧
      ((fill_writes ds cfg).filter (fun w => in_odd_region cfg w.1)).map Prod.snd
        = slice ds.odd p) ∧
    (∃ q : Nat, q ≤ ds.n_even ∧
      ((fill_writes ds cfg).filter (fun w => in_even_region cfg w.1)).map Prod.snd
        = slice ds.even q) := by
    by_cases hmode : cfg.mode_lr_or_fb = 0
    · exact lr_log_facts ds cfg hmode hrows.1 hcols.1
    · exact fb_log_facts ds cfg hmode hrows.1 hcols.1
  obtain ⟨hnd, hsrc, hodd, heven⟩ := facts
  refine ⟨hg, hnd, region_disjoint cfg, hsrc, ?_, hodd, heven⟩
  intro r c hr0 hr1 hc0 hc1 hne
  have key := run_clear_fill m cfg.rows cfg.cols (fill_writes ds cfg) hnd r c ⟨hr0, hr1⟩ ⟨hc0, hc1⟩
  rw [hg] at hne ⊢
  by_cases hmem : (r, c) ∈ (fill_writes ds cfg).map Prod.fst
  · obtain ⟨w, hw, e⟩ := List.mem_map.mp hmem
    have hv : run m (clear_rows cfg.cols cfg.rows.toNat 0 ++ fill_writes ds cfg) r c = w.2 := by
      apply key.1
      rw [← e]; exact hw
    rw [hv]
    rcases (hsrc w hw).2 with ⟨_, k, hk, e1⟩ | ⟨_, k, hk, e1⟩
    · exact Or.inl ⟨k, hk, e1⟩
    · exact Or.inr ⟨k, hk, e1⟩
  · exact absurd (key.2 hmem) hne

theorem gen_seat_map_fill_invariants_witness :
    (1 ≤ demo_lr_cfg.rows ∧ demo_lr_cfg.rows ≤ 32) ∧
    (1 ≤ demo_lr_cfg.cols ∧ demo_lr_cfg.cols ≤ 32) ∧
    ((fill_writes demo_lr_dataset demo_lr_cfg).map Prod.fst).Nodup ∧
    fill_writes demo_lr_dataset demo_lr_cfg
      = [((0, 0), 1), ((0, 1), 3), ((0, 2), 5), ((0, 3), 2), ((0, 4), 4)] :=
  ⟨by decide, by decide,
   (gen_seat_map_fill_invariants demo_lr_dataset (fun _ _ => 0) demo_lr_cfg
      (by decide) (by decide)).2.1,
   by decide⟩

theorem sorted_slice_iff (a : Arr) (n : Nat) :
    (slice a n).Sorted (· ≤ ·) ↔ ∀ i j : Nat, i < j → j < n → a i ≤ a j := by
  unfold List.Sorted
  rw [List.pairwise_iff_getElem]
  simp only [slice, List.length_map, List.length_range, List.getElem_map, List.getElem_range]
  constructor
  · intro h i j hij hj
    exact h i j (by omega) hj hij
  · intro h i j hi hj hij
    exact h i j hij hj

/-- Effect of the shifting loop of `insert_value`. -/
theorem shift_right_spec (val : Int) : ∀ (n : Nat) (a : Arr),
    (shift_right val n a).2 ≤ n ∧
    (∀ k : Int, k ≤ (shift_right val n a).2 → (shift_right val n a).1 k = a k) ∧
    (∀ k : Int, (n : Int) < k → (shift_right val n a).1 k = a k) ∧
    (∀ k : Int, ((shift_right val n a).2 : Int) < k → k ≤ n →
      (shift_right val n a).1 k = a (k - 1) ∧ val < a (k - 1)) ∧
    (0 < (shift_right val n a).2 → a (((shift_right val n a).2 : Int) - 1) ≤ val) := by
  intro n
  induction n with
  | zero =>
    intro a
    refine ⟨le_refl _, fun _ _ => rfl, fun _ _ => rfl, fun k h1 h2 => ?_, fun h => ?_⟩
    · simp only [shift_right] at h1 h2; omega
    · simp only [shift_right] at h; omega
  | succ n ih =>
    intro a
    rw [shift_right]
    by_cases h : a n > val
    · rw [if_pos h]
      obtain ⟨h1, h2, h3, h4, h5⟩ := ih (Function.update a ((n : Int) + 1) (a n))
      generalize shift_right val n (Function.update a ((n : Int) + 1) (a n)) = s at h1 h2 h3 h4 h5
      refine ⟨by omega, ?_, ?_, ?_, ?_⟩
      · intro k hk
        rw [h2 k hk, Function.update_noteq (by omega)]
      · intro k hk
        rw [h3 k (by push_cast at hk; omega), Function.update_noteq (by push_cast at hk; omega)]
      · intro k hk1 hk2
        by_cases hkn : k = (n : Int) + 1
        · subst hkn
          rw [h3 _ (by omega)]
          simp only [Function.update_same, add_sub_cancel_right]
          exact ⟨trivial, h⟩
        · have hk3 : k ≤ n := by push_cast at hk2; omega
          obtain ⟨e1, e2⟩ := h4 k hk1 hk3
          rw [Function.update_noteq (by omega)] at e1 e2
          exact ⟨e1, e2⟩
      · intro hpos
        have := h5 hpos
        rw [Function.update_noteq (by omega)] at this
        exact this
    · rw [if_neg h]
      refine ⟨le_refl _, fun _ _ => rfl, fun _ _ => rfl, fun k h1 h2 => by push_cast at h1 h2; omega, ?_⟩
      intro _
      simp only [Nat.cast_add, Nat.cast_one, add_sub_cancel_right]
      omega

/-- Ordered insertion into the first `n` cells of a sorted array. -/
theorem ordered_insert_spec (val : Int) (n : Nat) (a : Arr)
    (hs : (slice a n).Sorted (· ≤ ·)) :
    (slice (Function.update (shift_right val n a).1 (shift_right val n a).2 val)
      (n + 1)).Sorted (· ≤ ·) ∧
    (slice (Function.update (shift_right val n a).1 (shift_right val n a).2 val)
      (n + 1)).Perm (val :: slice a n) ∧
    (∀ k : Int, k < 0 ∨ (n : Int) < k →
      Function.update (shift_right val n a).1 (shift_right val n a).2 val k = a k) := by
  obtain ⟨h1, h2, h3, h4, h5⟩ := shift_right_spec val n a
  generalize shift_right val n a = s at h1 h2 h3 h4 h5 ⊢
  generalize hb : Function.update s.1 (s.2 : Int) val = b
  have hsa := (sorted_slice_iff a n).mp hs
  have hb_lt : ∀ k : Int, k < (s.2 : Int) → b k = a k := by
    intro k hk
    rw [← hb, Function.update_noteq (by omega)]
    exact h2 k (by omega)
  have hb_eq : b (s.2 : Int) = val := by
    rw [← hb]; simp
  have hb_gt : ∀ k : Int, (s.2 : Int) < k → k ≤ n → b k = a (k - 1) ∧ val < a (k - 1) := by
    intro k hk1 hk2
    rw [← hb, Function.update_noteq (by omega)]
    exact h4 k hk1 hk2
  have hle : ∀ k : Nat, k < s.2 → a k ≤ val := by
    intro k hk
    have h5' := h5 (by omega)
    by_cases hk1 : k + 1 = s.2
    · have : ((s.2 : Int) - 1) = (k : Int) := by omega
      rw [this] at h5'; exact h5'
    · have := hsa k (s.2 - 1) (by omega) (by omega)
      have e : (((s.2 - 1 : Nat)) : Int) = (s.2 : Int) - 1 := by omega
      rw [e] at this
      omega
  refine ⟨?_, ?_, ?_⟩
  · rw [sorted_slice_iff]
    intro i j hij hj
    rcases Nat.lt_trichotomy i s.2 with hi | hi | hi
    · rw [hb_lt i (by omega)]
      rcases Nat.lt_trichotomy j s.2 with hj1 | hj1 | hj1
      · rw [hb_lt j (by omega)]; exact hsa i j hij (by omega)
      · rw [hj1, hb_eq]; exact hle i hi
      · obtain ⟨e1, e2⟩ := hb_gt j (by omega) (by omega)
        rw [e1]
        have := hle i hi
        omega
    · rw [hi, hb_eq]
      obtain ⟨e1, e2⟩ := hb_gt j (by omega) (by omega)
      rw [e1]; omega
    · obtain ⟨e1, _⟩ := hb_gt i (by omega) (by omega)
      obtain ⟨e2, _⟩ := hb_gt j (by omega) (by omega)
      rw [e1, e2]
      have := hsa (i - 1) (j - 1) (by omega) (by omega)
      have c1 : (((i - 1 : Nat)) : Int) = (i : Int) - 1 := by omega
      have c2 : (((j - 1 : Nat)) : Int) = (j : Int) - 1 := by omega
      rw [c1, c2] at this
      exact this
  · have e : slice b (n + 1) = (slice a n).take s.2 ++ val :: (slice a n).drop s.2 := by
      apply List.ext_getElem
      · simp [slice_length]; omega
      · intro i hi1 hi2
        simp only [slice_length] at hi1
        rcases Nat.lt_trichotomy i s.2 with hi | hi | hi
        · rw [List.getElem_append_left (by simp [slice_length]; omega)]
          simp only [slice, List.getElem_map, List.getElem_range, List.getElem_take]
          exact hb_lt i (by omega)
        · rw [List.getElem_append_right (by simp [slice_length]; omega)]
          simp only [slice, List.getElem_map, List.getElem_range, List.length_take,
            List.length_map, List.length_range]
          have : i - min s.2 n = 0 := by omega
          simp only [this, List.getElem_cons_zero]
          rw [hi]; exact hb_eq
        · rw [List.getElem_append_right (by simp [slice_length]; omega)]
          simp only [slice, List.getElem_map, List.getElem_range, List.length_take,
            List.length_map, List.length_range]
          have : i - min s.2 n = (i - s.2 - 1) + 1 := by omega
          simp only [this, List.getElem_cons_succ, List.getElem_drop, List.getElem_map,
            List.getElem_range]
          rw [(hb_gt i (by omega) (by omega)).1]
          congr 1; omega
    rw [e]
    have := @List.perm_middle _ val ((slice a n).take s.2) ((slice a n).drop s.2)
    rw [List.take_append_drop] at this
    exact this
  · intro k hk
    rcases hk with hk | hk
    · rw [← hb, Function.update_noteq (by omega)]
      exact h2 k (by omega)
    · rw [← hb, Function.update_noteq (by omega)]
      exact h3 k hk

/-- C10: for every dataset with `n < 1024` and `n_odd + n_even = n` whose partition of the
parity of `val` is sorted ascending, `insert_value` returns 0, stores `val` at `raw[n]` and
makes `n` one larger (the rest of `raw` unchanged), leaves the partition of that parity one
longer, sorted ascending and a permutation of its old contents plus `val`, and leaves the
other partition and its count unchanged. -/
theorem insert_value_ordered (ds : Dataset) (val : Int) (hn : ds.n < MAX_N)
    (hcls : ds.n_odd + ds.n_even = ds.n)
    (hsorted : (Odd val → (slice ds.odd ds.n_odd).Sorted (· ≤ ·)) ∧
      (Even val → (slice ds.even ds.n_even).Sorted (· ≤ ·))) :
    (insert_value ds val).2 = 0 ∧
    (insert_value ds val).1.n = ds.n + 1 ∧
    (insert_value ds val).1.raw ds.n = val ∧
    (∀ k : Int, k ≠ ds.n → (insert_value ds val).1.raw k = ds.raw k) ∧
    (Odd val →
      (insert_value ds val).1.n_odd = ds.n_odd + 1 ∧
      (slice (insert_value ds val).1.odd (ds.n_odd + 1)).Sorted (· ≤ ·) ∧
      (slice (insert_value ds val).1.odd (ds.n_odd + 1)).Perm (val :: slice ds.odd ds.n_odd) ∧
      (insert_value ds val).1.even = ds.even ∧ (insert_value ds val).1.n_even = ds.n_even) ∧
    (Even val →
      (insert_value ds val).1.n_even = ds.n_even + 1 ∧
      (slice (insert_value ds val).1.even (ds.n_even + 1)).Sorted (· ≤ ·) ∧
      (slice (insert_value ds val).1.even (ds.n_even + 1)).Perm (val :: slice ds.even ds.n_even) ∧
      (insert_value ds val).1.odd = ds.odd ∧ (insert_value ds val).1.n_odd = ds.n_odd) := by
  have hcap : ¬ ds.n ≥ MAX_N := by omega
  have hc : ds.n_odd + ds.n_even = ds.n + 1 - 1 := by omega
  by_cases hodd : is_odd val ≠ 0
  · have hO : Odd val := (is_odd_ne_zero_iff val).mp hodd
    have hres : insert_value ds val =
        ({ raw := Function.update ds.raw ds.n val, n := ds.n + 1,
           odd := Function.update (shift_right val ds.n_odd ds.odd).1
             (shift_right val ds.n_odd ds.odd).2 val,
           n_odd := ds.n_odd + 1, even := ds.even, n_even := ds.n_even }, 0) := by
      simp only [insert_value, if_neg hcap, if_pos hc, if_pos hodd]
    rw [hres]
    obtain ⟨s1, s2, _⟩ := ordered_insert_spec val ds.n_odd ds.odd (hsorted.1 hO)
    refine ⟨rfl, rfl, by simp, fun k hk => by simp [Function.update_noteq hk], ?_, ?_⟩
    · intro _
      exact ⟨rfl, s1, s2, rfl, rfl⟩
    · intro hE
      exact absurd hE (Int.not_even_iff_odd.mpr hO)
  · have hE : Even val := (is_odd_eq_zero_iff val).mp (not_not.mp hodd)
    have hres : insert_value ds val =
        ({ raw := Function.update ds.raw ds.n val, n := ds.n + 1,
           odd := ds.odd, n_odd := ds.n_odd,
           even := Function.update (shift_right val ds.n_even ds.even).1
             (shift_right val ds.n_even ds.even).2 val,
           n_even := ds.n_even + 1 }, 0) := by
      simp only [insert_value, if_neg hcap, if_pos hc, if_neg hodd]
    rw [hres]
    obtain ⟨s1, s2, _⟩ := ordered_insert_spec val ds.n_even ds.even (hsorted.2 hE)
    refine ⟨rfl, rfl, by simp, fun k hk => by simp [Function.update_noteq hk], ?_, ?_⟩
    · intro hO
      exact absurd hE (Int.not_even_iff_odd.mpr hO)
    · intro _
      exact ⟨rfl, s1, s2, rfl, rfl⟩

theorem insert_value_ordered_witness :
    demo_sorted_dataset.n < MAX_N ∧
    demo_sorted_dataset.n_odd + demo_sorted_dataset.n_even = demo_sorted_dataset.n ∧
    (slice demo_sorted_dataset.even demo_sorted_dataset.n_even).Sorted (· ≤ ·) ∧
    (insert_value demo_sorted_dataset 4).2 = 0 ∧
    slice (insert_value demo_sorted_dataset 4).1.even 4 = [2, 4, 6, 8] ∧
    slice (insert_value demo_sorted_dataset 4).1.odd 1 = [1] ∧
    (insert_value demo_sorted_dataset 4).1.n_odd = 1 :=
  ⟨by decide, by decide, by decide,
   (insert_value_ordered demo_sorted_dataset 4 (by decide) (by decide)
      ⟨fun h => absurd h (by decide), fun _ => by decide⟩).1,
   by decide, by decide, by decide⟩

/-- C11: for every dataset with `n ≥ 1024` and every `val`, `insert_value` returns -1 and the
dataset it leaves is the dataset it was given (`raw`, `n`, `odd`, `n_odd`, `even`, `n_even`
all as before); for every dataset with `n < 1024` it returns 0. -/
theorem insert_value_capacity (ds : Dataset) (val : Int) :
    (ds.n ≥ MAX_N → insert_value ds val = (ds, -1)) ∧
    (ds.n < MAX_N → (insert_value ds val).2 = 0) := by
  constructor
  · intro h
    simp only [insert_value, if_pos h]
  · intro h
    have hcap : ¬ ds.n ≥ MAX_N := by omega
    simp only [insert_value, if_neg hcap]
    split
    · split <;> rfl
    · rfl

theorem insert_value_capacity_witness :
    demo_full_dataset.n ≥ MAX_N ∧ insert_value demo_full_dataset 7 = (demo_full_dataset, -1) ∧
    demo_sorted_dataset.n < MAX_N ∧ (insert_value demo_sorted_dataset 7).2 = 0 :=
  ⟨by decide, (insert_value_capacity demo_full_dataset 7).1 (by decide),
   by decide, (insert_value_capacity demo_sorted_dataset 7).2 (by decide)⟩

/-- C14: for every dataset with `n < 1024` and `n_odd + n_even ≠ n`, `insert_value` returns 0,
stores `val` at `raw[n]`, makes `n` one larger, leaves every other cell of `raw` as it was,
and leaves `odd`, `n_odd`, `even` and `n_even` unchanged. -/
theorem insert_value_unclassified (ds : Dataset) (val : Int) (hn : ds.n < MAX_N)
    (hcls : ds.n_odd + ds.n_even ≠ ds.n) :
    (insert_value ds val).2 = 0 ∧
    (insert_value ds val).1.n = ds.n + 1 ∧
    (insert_value ds val).1.raw ds.n = val ∧
    (∀ k : Int, k ≠ ds.n → (insert_value ds val).1.raw k = ds.raw k) ∧
    (insert_value ds val).1.odd = ds.odd ∧ (insert_value ds val).1.n_odd = ds.n_odd ∧
    (insert_value ds val).1.even = ds.even ∧ (insert_value ds val).1.n_even = ds.n_even := by
  have hcap : ¬ ds.n ≥ MAX_N := by omega
  have hc : ¬ ds.n_odd + ds.n_even = ds.n + 1 - 1 := by omega
  have hres : insert_value ds val =
      ({ raw := Function.update ds.raw ds.n val, n := ds.n + 1, odd := ds.odd,
         n_odd := ds.n_odd, even := ds.even, n_even := ds.n_even }, 0) := by
    simp only [insert_value, if_neg hcap, if_neg hc]
  rw [hres]
  exact ⟨rfl, rfl, by simp, fun k hk => by simp [Function.update_noteq hk], rfl, rfl, rfl, rfl⟩

theorem insert_value_unclassified_witness :
    demo_dataset.n < MAX_N ∧ demo_dataset.n_odd + demo_dataset.n_even ≠ demo_dataset.n ∧
    (insert_value demo_dataset 9).1.n = 8 ∧
    slice (insert_value demo_dataset 9).1.raw 8 = [2, 4, 6, 1, 3, 8, 5, 9] ∧
    (insert_value demo_dataset 9).1.n_odd = 0 :=
  ⟨by decide, by decide,
   (insert_value_unclassified demo_dataset 9 (by decide) (by decide)).2.1,
   by decide, by decide⟩

/-- C12: after `classify_stable`, `odd[0..n_odd)` is the subsequence of the odd elements of
`raw[0..n)` in their original order and `even[0..n_even)` the subsequence of its even
elements in their original order. -/
theorem classify_stable_preserves_order (ds : Dataset) :
    slice (classify_stable ds).odd (classify_stable ds).n_odd
      = (slice ds.raw ds.n).filter (fun x => decide (Odd x)) ∧
    slice (classify_stable ds).even (classify_stable ds).n_even
      = (slice ds.raw ds.n).filter (fun x => decide (Even x)) :=
  ⟨classify_stable_odd ds, classify_stable_even ds⟩

theorem classified_mem {ds ds1 : Dataset} (h : Classified ds ds1) {x : Int}
    (hx : x ∈ slice ds.raw ds.n) :
    (Odd x → x ∈ slice ds1.odd ds1.n_odd) ∧ (Even x → x ∈ slice ds1.even ds1.n_even) := by
  obtain ⟨_, _, _, ho, he, hp, _⟩ := h
  have hmem : x ∈ slice ds1.odd ds1.n_odd ++ slice ds1.even ds1.n_even := hp.mem_iff.mpr hx
  rcases List.mem_append.mp hmem with h1 | h1
  · exact ⟨fun _ => h1, fun hE => absurd hE (Int.not_even_iff_odd.mpr (ho x h1))⟩
  · exact ⟨fun hO => absurd (he x h1) (Int.not_even_iff_odd.mpr hO), fun _ => h1⟩

theorem insert_value_branch (ds : Dataset) (x : Int) (hn : ds.n < MAX_N)
    (hcls : ds.n_odd + ds.n_even = ds.n) :
    (Odd x → (insert_value ds x).1.n_odd = ds.n_odd + 1 ∧
      (insert_value ds x).1.n_even = ds.n_even) ∧
    (Even x → (insert_value ds x).1.n_even = ds.n_even + 1 ∧
      (insert_value ds x).1.n_odd = ds.n_odd) := by
  have hcap : ¬ ds.n ≥ MAX_N := by omega
  have hc : ds.n_odd + ds.n_even = ds.n + 1 - 1 := by omega
  by_cases hodd : is_odd x ≠ 0
  · have hO : Odd x := (is_odd_ne_zero_iff x).mp hodd
    simp only [insert_value, if_neg hcap, if_pos hc, if_pos hodd]
    exact ⟨fun _ => by simp, fun hE => absurd hE (Int.not_even_iff_odd.mpr hO)⟩
  · have hE : Even x := (is_odd_eq_zero_iff x).mp (not_not.mp hodd)
    simp only [insert_value, if_neg hcap, if_pos hc, if_neg hodd]
    exact ⟨fun hO => absurd hE (Int.not_even_iff_odd.mpr hO), fun _ => by simp⟩

/-- C15: `is_odd x` is non-zero exactly when `x` is odd (not divisible by 2), for every
integer `x`; this covers the whole 32-bit range, negative values and `INT_MIN` included:
`-1` and `-3` test odd, `0`, `-4` and `-2147483648` test even.  Hence each of the three
classifiers puts an odd `x` of `raw[0..n)` in the odd part and an even one in the even part,
and `insert_value` on a classified dataset counts an odd `x` under `n_odd` and an even one
under `n_even`. -/
theorem is_odd_correct (x : Int) :
    (is_odd x ≠ 0 ↔ Odd x) ∧ (is_odd x = 0 ↔ Even x) ∧ (is_odd x ≠ 0 ↔ ¬ (2 : Int) ∣ x) ∧
    (is_odd (-1) = 1 ∧ is_odd (-3) = 1 ∧ is_odd 0 = 0 ∧ is_odd (-4) = 0 ∧
      is_odd (-2147483648) = 0 ∧ is_odd 2147483647 = 1) ∧
    (∀ ds : Dataset, x ∈ slice ds.raw ds.n →
      (Odd x → x ∈ slice (classify_stable ds).odd (classify_stable ds).n_odd ∧
        x ∈ slice (classify_partition ds).odd (classify_partition ds).n_odd ∧
        ∃ ds1, classify_two_ptr ds = some ds1 ∧ x ∈ slice ds1.odd ds1.n_odd) ∧
      (Even x → x ∈ slice (classify_stable ds).even (classify_stable ds).n_even ∧
        x ∈ slice (classify_partition ds).even (classify_partition ds).n_even ∧
        ∃ ds1, classify_two_ptr ds = some ds1 ∧ x ∈ slice ds1.even ds1.n_even)) ∧
    (∀ ds : Dataset, ds.n < MAX_N → ds.n_odd + ds.n_even = ds.n →
      (Odd x → (insert_value ds x).1.n_odd = ds.n_odd + 1 ∧
        (insert_value ds x).1.n_even = ds.n_even) ∧
      (Even x → (insert_value ds x).1.n_even = ds.n_even + 1 ∧
        (insert_value ds x).1.n_odd = ds.n_odd)) := by
  refine ⟨is_odd_ne_zero_iff x, is_odd_eq_zero_iff x, ?_, ?_, ?_, ?_⟩
  · rw [is_odd_eq_emod]; omega
  · simp only [is_odd_eq_emod]; decide
  · intro ds hx
    obtain ⟨ds1, e, hc⟩ := classify_two_ptr_classified ds
    have h1 := classified_mem (classify_stable_classified ds) hx
    have h2 := classified_mem (classify_partition_classified ds) hx
    have h3 := classified_mem hc hx
    exact ⟨fun hO => ⟨h1.1 hO, h2.1 hO, ds1, e, h3.1 hO⟩,
      fun hE => ⟨h1.2 hE, h2.2 hE, ds1, e, h3.2 hE⟩⟩
  · intro ds hn hcls
    exact insert_value_branch ds x hn hcls

theorem is_odd_correct_witness :
    (-3 : Int) ∈ slice demo_negative_dataset.raw demo_negative_dataset.n ∧ Odd (-3 : Int) ∧
    (-3 : Int) ∈ slice (classify_partition demo_negative_dataset).odd
      (classify_partition demo_negative_dataset).n_odd ∧
    is_odd (-3) ≠ 0 :=
  ⟨by decide, by decide,
   (((is_odd_correct (-3)).2.2.2.2.1 demo_negative_dataset (by decide)).1 (by decide)).2.1,
   (is_odd_correct (-3)).1.mpr (by decide)⟩

theorem partition_loop_odd_order : ∀ (k i : Nat) (buf : Arr) (p : Nat), p ≤ i →
    slice (partition_loop k i (buf, p)).1 (partition_loop k i (buf, p)).2
      = slice buf p ++ (seg buf i k).filter (fun x => decide (Odd x)) := by
  intro k
  induction k with
  | zero => intro i buf p _; simp [partition_loop, seg]
  | succ k ih =>
    intro i buf p hp
    rw [partition_loop, seg_succ]
    by_cases h : is_odd (buf i) ≠ 0
    · rw [if_pos h, ih (i + 1) _ (p + 1) (by omega)]
      have ho : Odd (buf i) := (is_odd_ne_zero_iff _).mp h
      have e1 : slice (swap_int buf i p) (p + 1) = slice buf p ++ [buf i] := by
        rw [slice_succ, swap_int_right]
        congr 1
        apply slice_congr
        intro j hj
        exact swap_int_other _ (by omega) (by omega)
      have e2 : seg (swap_int buf i p) (i + 1) k = seg buf (i + 1) k := by
        unfold seg
        apply List.map_congr_left
        intro j hj
        have := (List.mem_range'_1.mp hj).1
        exact swap_int_other _ (by omega) (by omega)
      rw [e1, e2]
      simp [ho]
    · rw [if_neg h, ih (i + 1) _ p (by omega)]
      have ho : ¬ Odd (buf i) := fun hh => h ((is_odd_ne_zero_iff _).mpr hh)
      simp [ho]

/-- C18: after `classify_partition`, `odd[0..n_odd)` is the subsequence of the odd elements
of `raw[0..n)` in their original order, the odd output of `classify_stable`; the even
partition can be reordered: `raw = 2, 4, 1` gives `even = 4, 2`. -/
theorem classify_partition_odd_order (ds : Dataset) :
    slice (classify_partition ds).odd (classify_partition ds).n_odd
      = (slice ds.raw ds.n).filter (fun x => decide (Odd x)) ∧
    slice (classify_partition ds).odd (classify_partition ds).n_odd
      = slice (classify_stable ds).odd (classify_stable ds).n_odd ∧
    (classify_partition ds).n_odd = (classify_stable ds).n_odd ∧
    slice (classify_partition
        { raw := arr_of [2, 4, 1], n := 3, odd := arr_of [], n_odd := 0,
          even := arr_of [], n_even := 0 }).even 2 = [4, 2] := by
  have h := partition_loop_odd_order ds.n 0 (memcpy ds.odd ds.raw 0 ds.n) 0 (le_refl _)
  have e : seg (memcpy ds.odd ds.raw 0 ds.n) 0 ds.n = slice ds.raw ds.n := by
    rw [seg_zero, slice_memcpy_zero]
  have h1 : slice (classify_partition ds).odd (classify_partition ds).n_odd
      = (slice ds.raw ds.n).filter (fun x => decide (Odd x)) := by
    simp only [classify_partition]
    rw [h, e]; simp [slice]
  have h2 := classify_stable_odd ds
  refine ⟨h1, by rw [h1, h2], ?_, by decide⟩
  have l1 := congrArg List.length h1
  have l2 := congrArg List.length h2
  rw [slice_length] at l1 l2
  omega

theorem SortedOn.slice {a : Arr} {n : Nat} (h : SortedOn a 0 ((n : Int) - 1)) :
    (slice a n).Sorted (· ≤ ·) := by
  rw [sorted_slice_iff]
  intro i j hij hj
  exact h i j (by omega) (by omega) (by omega)

/-- What `_median3` leaves: a rearrangement of `a[l..r]` with `a[l] ≤ pivot`,
`a[r-1] = pivot` and `pivot ≤ a[r]`. -/
theorem median3_spec (a : Arr) (l r : Int) (h : 3 ≤ r - l) :
    PermOn l r a (_median3 a l r).2 ∧ (_median3 a l r).2 l ≤ (_median3 a l r).1 ∧
    (_median3 a l r).2 (r - 1) = (_median3 a l r).1 ∧
    (_median3 a l r).1 ≤ (_median3 a l r).2 r := by
  unfold _median3
  generalize hm : l + (r - l) / 2 = m
  have hm1 : l < m := by omega
  have hm2 : m < r - 1 := by omega
  dsimp only
  -- first comparison
  have s1 : ∃ a1 : Arr, (if a l > a m then swap_int a l m else a) = a1 ∧ PermOn l r a a1 ∧
      a1 l ≤ a1 m := by
    by_cases c : a l > a m
    · rw [if_pos c]
      refine ⟨_, rfl, PermOn.swap a (by omega) (by omega), ?_⟩
      rw [swap_int_left, swap_int_right]; omega
    · rw [if_neg c]
      exact ⟨_, rfl, PermOn.refl _ _ _, by omega⟩
  obtain ⟨a1, e1, p1, q1⟩ := s1
  rw [e1]
  have s2 : ∃ a2 : Arr, (if a1 l > a1 r then swap_int a1 l r else a1) = a2 ∧ PermOn l r a1 a2 ∧
      a2 l ≤ a2 m ∧ a2 l ≤ a2 r := by
    by_cases c : a1 l > a1 r
    · rw [if_pos c]
      refine ⟨_, rfl, PermOn.swap a1 (by omega) (by omega), ?_, ?_⟩
      · rw [swap_int_left, swap_int_other _ (by omega) (by omega)]; omega
      · rw [swap_int_left, swap_int_right]; omega
    · rw [if_neg c]
      exact ⟨_, rfl, PermOn.refl _ _ _, q1, by omega⟩
  obtain ⟨a2, e2, p2, q2, q2'⟩ := s2
  rw [e2]
  have s3 : ∃ a3 : Arr, (if a2 m > a2 r then swap_int a2 m r else a2) = a3 ∧ PermOn l r a2 a3 ∧
      a3 l ≤ a3 m ∧ a3 m ≤ a3 r := by
    by_cases c : a2 m > a2 r
    · rw [if_pos c]
      refine ⟨_, rfl, PermOn.swap a2 (by omega) (by omega), ?_, ?_⟩
      · rw [swap_int_left, swap_int_other _ (by omega) (by omega)]; omega
      · rw [swap_int_left, swap_int_right]; omega
    · rw [if_neg c]
      exact ⟨_, rfl, PermOn.refl _ _ _, q2, by omega⟩
  obtain ⟨a3, e3, p3, q3, q3'⟩ := s3
  rw [e3]
  have p4 : PermOn l r a3 (swap_int a3 m (r - 1)) := PermOn.swap a3 (by omega) (by omega)
  refine ⟨((p1.trans p2).trans p3).trans p4, ?_, rfl, ?_⟩
  · rw [swap_int_right, swap_int_other _ (by omega) (by omega)]; exact q3
  · rw [swap_int_right, swap_int_other _ (by omega) (by omega)]; exact q3'

/-- The upward scan stops at the first cell that is not below the pivot. -/
theorem scan_up_spec (a : Arr) (pivot : Int) : ∀ (k : Nat) (i s : Int),
    i < s → s ≤ i + k → pivot ≤ a s →
    ∃ i1, scan_up a pivot k i = some i1 ∧ i < i1 ∧ i1 ≤ s ∧
      (∀ x : Int, i < x → x < i1 → a x < pivot) ∧ pivot ≤ a i1 := by
  intro k
  induction k with
  | zero => intro i s h1 h2 _; simp at h2; omega
  | succ k ih =>
    intro i s h1 h2 h3
    rw [scan_up]
    by_cases c : a (i + 1) < pivot
    · rw [if_pos c]
      have hs : i + 1 < s := by
        by_contra hcon
        have : s = i + 1 := by omega
        rw [this] at h3; omega
      obtain ⟨i1, e, g1, g2, g3, g4⟩ := ih (i + 1) s hs (by push_cast at h2; omega) h3
      refine ⟨i1, e, by omega, g2, ?_, g4⟩
      intro x hx1 hx2
      by_cases hx : x = i + 1
      · rw [hx]; exact c
      · exact g3 x (by omega) hx2
    · rw [if_neg c]
      exact ⟨i + 1, rfl, by omega, by omega, fun x h1 h2 => by omega, by omega⟩

/-- The downward scan stops at the first cell that is not above the pivot. -/
theorem scan_down_spec (a : Arr) (pivot : Int) : ∀ (k : Nat) (j s : Int),
    s < j → j - k ≤ s → a s ≤ pivot →
    ∃ j1, scan_down a pivot k j = some j1 ∧ j1 < j ∧ s ≤ j1 ∧
      (∀ x : Int, j1 < x → x < j → pivot < a x) ∧ a j1 ≤ pivot := by
  intro k
  induction k with
  | zero => intro j s h1 h2 _; simp at h2; omega
  | succ k ih =>
    intro j s h1 h2 h3
    rw [scan_down]
    by_cases c : a (j - 1) > pivot
    · rw [if_pos c]
      have hs : s < j - 1 := by
        by_contra hcon
        have : s = j - 1 := by omega
        rw [this] at h3; omega
      obtain ⟨j1, e, g1, g2, g3, g4⟩ := ih (j - 1) s hs (by push_cast at h2; omega) h3
      refine ⟨j1, e, by omega, g2, ?_, g4⟩
      intro x hx1 hx2
      by_cases hx : x = j - 1
      · rw [hx]; exact c
      · exact g3 x hx1 (by omega)
    · rw [if_neg c]
      exact ⟨j - 1, rfl, by omega, by omega, fun x h1 h2 => by omega, by omega⟩

/-- The partition loop of `_qsort`: it returns, having moved only cells strictly between
`l` and `r-1`, with every cell left of the returned index at most the pivot and every cell
from it up to `r-1` at least the pivot. -/
theorem partition_scan_spec (pivot l r : Int) : ∀ (fuel : Nat) (a : Arr) (i j : Int),
    l ≤ i → i < j → j ≤ r - 1 → j - i ≤ fuel →
    (∀ x : Int, l ≤ x → x ≤ i → a x ≤ pivot) →
    (∀ x : Int, j ≤ x → x ≤ r - 1 → pivot ≤ a x) →
    ∃ (a1 : Arr) (i1 : Int), partition_scan pivot l r fuel a i j = some (a1, i1) ∧
      PermOn (i + 1) (j - 1) a a1 ∧ i < i1 ∧ i1 ≤ j ∧
      (∀ x : Int, l ≤ x → x < i1 → a1 x ≤ pivot) ∧
      (∀ x : Int, i1 ≤ x → x ≤ r - 1 → pivot ≤ a1 x) := by
  intro fuel
  induction fuel with
  | zero => intro a i j h1 h2 h3 h4; simp at h4; omega
  | succ fuel ih =>
    intro a i j h1 h2 h3 h4 hlo hhi
    rw [partition_scan]
    obtain ⟨i1, e1, u1, u2, u3, u4⟩ := scan_up_spec a pivot (r - i).toNat i j h2 (by omega)
      (hhi j (le_refl _) h3)
    obtain ⟨j1, e2, d1, d2, d3, d4⟩ := scan_down_spec a pivot (j - l).toNat j i h2 (by omega)
      (hlo i h1 (le_refl _))
    simp only [e1, e2]
    by_cases c : i1 < j1
    · rw [if_pos c]
      obtain ⟨a2, i2, e, p, g1, g2, g3, g4⟩ := ih (swap_int a i1 j1) i1 j1 (by omega) c
        (by omega) (by push_cast at h4; omega)
        (by
          intro x hx1 hx2
          by_cases hx : x = i1
          · rw [hx, swap_int_left]; exact d4
          · rw [swap_int_other _ hx (by omega)]
            by_cases hxi : x ≤ i
            · exact hlo x hx1 hxi
            · exact le_of_lt (u3 x (by omega) (by omega)))
        (by
          intro x hx1 hx2
          by_cases hx : x = j1
          · rw [hx, swap_int_right]; exact u4
          · rw [swap_int_other _ (by omega) hx]
            by_cases hxj : j ≤ x
            · exact hhi x hxj hx2
            · exact le_of_lt (d3 x (by omega) (by omega)))
      have hsw : PermOn (i + 1) (j - 1) a (swap_int a i1 j1) :=
        PermOn.swap a (by omega) (by omega)
      exact ⟨a2, i2, e, hsw.trans (p.mono (by omega) (by omega)), by omega, by omega, g3, g4⟩
    · rw [if_neg c]
      refine ⟨a, i1, rfl, PermOn.refl _ _ _, u1, u2, ?_, ?_⟩
      · intro x hx1 hx2
        by_cases hxi : x ≤ i
        · exact hlo x hx1 hxi
        · exact le_of_lt (u3 x (by omega) hx2)
      · intro x hx1 hx2
        by_cases hx : x = i1
        · rw [hx]; exact u4
        · by_cases hxj : j ≤ x
          · exact hhi x hxj hx2
          · exact le_of_lt (d3 x (by omega) (by omega))

/-- The state of `_qsort` after the partition of `[l, r]` and the final swap. -/
theorem partition_step_spec (a : Arr) (l r : Int) (h : 16 ≤ r - l) :
    ∃ (a2 : Arr) (i : Int),
      partition_scan (_median3 a l r).1 l r (r - l).toNat (_median3 a l r).2 l (r - 1)
        = some (a2, i) ∧
      PermOn l r a (swap_int a2 i (r - 1)) ∧ l < i ∧ i ≤ r - 1 ∧
      (∀ x : Int, l ≤ x → x < i → swap_int a2 i (r - 1) x ≤ swap_int a2 i (r - 1) i) ∧
      (∀ x : Int, i < x → x ≤ r → swap_int a2 i (r - 1) i ≤ swap_int a2 i (r - 1) x) := by
  obtain ⟨pm, m1, m2, m3⟩ := median3_spec a l r (by omega)
  generalize _median3 a l r = p at pm m1 m2 m3 ⊢
  obtain ⟨a2, i, e, pp, g1, g2, g3, g4⟩ := partition_scan_spec p.1 l r (r - l).toNat p.2 l (r - 1)
    (le_refl _) (by omega) (le_refl _) (by omega)
    (by intro x h1 h2; have : x = l := by omega
        rw [this]; exact m1)
    (by intro x h1 h2; have : x = r - 1 := by omega
        rw [this, m2])
  have f1 : a2 (r - 1) = p.1 := by rw [pp.frame (by omega), m2]
  have f2 : a2 r = p.2 r := pp.frame (by omega)
  have hpiv : swap_int a2 i (r - 1) i = p.1 := by rw [swap_int_left, f1]
  refine ⟨a2, i, e, ?_, g1, g2, ?_, ?_⟩
  · exact (pm.trans (pp.mono (by omega) (by omega))).trans
      (PermOn.swap a2 (by omega) (by omega))
  · intro x hx1 hx2
    rw [hpiv, swap_int_other _ (by omega) (by omega)]
    exact g3 x hx1 hx2
  · intro x hx1 hx2
    rw [hpiv]
    by_cases hx : x = r - 1
    · rw [hx, swap_int_right]; exact g4 i (le_refl _) g2
    · rw [swap_int_other _ (by omega) hx]
      by_cases hxr : x = r
      · rw [hxr, f2]; exact m3
      · exact g4 x (by omega) (by omega)

/-- The function `_sift_down` returns and restores the heap order below `i`. -/
theorem sift_down_spec (n s : Int) (hs : 0 ≤ s) : ∀ (fuel : Nat) (a : Arr) (i : Int),
    s ≤ i → 1 ≤ fuel → n - i ≤ fuel → HeapExcept a n s i →
    ∃ b, _sift_down n fuel a i = some b ∧ PermOn i (n - 1) a b ∧ IsHeapFrom b n s := by
  intro fuel
  induction fuel with
  | zero => intro a i _ h; omega
  | succ fuel ih =>
    intro a i hi hf1 hf2 hx
    rw [_sift_down]
    generalize hl1 : (if 2 * i + 1 < n ∧ a (2 * i + 1) > a i then 2 * i + 1 else i) = g1
    generalize hl2 : (if 2 * i + 1 + 1 < n ∧ a (2 * i + 1 + 1) > a g1 then 2 * i + 1 + 1 else g1)
      = g2
    -- what the two comparisons establish
    have hg1 : (g1 = i ∨ (g1 = 2 * i + 1 ∧ g1 < n ∧ a i < a g1)) ∧
        (2 * i + 1 < n → a (2 * i + 1) ≤ a g1) ∧ a i ≤ a g1 := by
      by_cases c : 2 * i + 1 < n ∧ a (2 * i + 1) > a i
      · rw [if_pos c] at hl1
        rw [← hl1]
        exact ⟨Or.inr ⟨rfl, c.1, c.2⟩, fun _ => le_refl _, by omega⟩
      · rw [if_neg c] at hl1
        rw [← hl1]
        refine ⟨Or.inl rfl, fun h => ?_, le_refl _⟩
        by_contra hcon
        exact c ⟨h, by omega⟩
    have hg2 : (g2 = i ∨ ((g2 = 2 * i + 1 ∨ g2 = 2 * i + 2) ∧ g2 < n ∧ a i < a g2)) ∧
        (2 * i + 1 < n → a (2 * i + 1) ≤ a g2) ∧ (2 * i + 2 < n → a (2 * i + 2) ≤ a g2) ∧
        a i ≤ a g2 := by
      have e : 2 * i + 1 + 1 = 2 * i + 2 := by ring
      rw [e] at hl2
      by_cases c : 2 * i + 2 < n ∧ a (2 * i + 2) > a g1
      · rw [if_pos c] at hl2
        rw [← hl2]
        refine ⟨Or.inr ⟨Or.inr rfl, c.1, by omega⟩, fun h => ?_, fun _ => le_refl _, by omega⟩
        have := hg1.2.1 h
        omega
      · rw [if_neg c] at hl2
        rw [← hl2]
        refine ⟨?_, hg1.2.1, fun h => ?_, hg1.2.2⟩
        · rcases hg1.1 with h | ⟨h1, h2, h3⟩
          · exact Or.inl h
          · exact Or.inr ⟨Or.inl h1, h2, h3⟩
        · by_contra hcon
          exact c ⟨h, by omega⟩
    by_cases hbr : g2 = i
    · rw [if_pos hbr]
      refine ⟨a, rfl, PermOn.refl _ _ _, ?_⟩
      intro p c hp hc hcn
      by_cases hpi : p = i
      · rw [hbr] at hg2
        rcases hc with hc | hc
        · rw [hc, hpi]; exact hg2.2.1 (by rw [hc, hpi] at hcn; exact hcn)
        · rw [hc, hpi]; exact hg2.2.2.1 (by rw [hc, hpi] at hcn; exact hcn)
      · exact hx.1 p c hp hpi hc hcn
    · rw [if_neg hbr]
      obtain ⟨hch, hgn, hgt⟩ : (g2 = 2 * i + 1 ∨ g2 = 2 * i + 2) ∧ g2 < n ∧ a i < a g2 := by
        rcases hg2.1 with h | h
        · exact absurd h hbr
        · exact h
      have hne : ∀ p c : Int, (c = 2 * p + 1 ∨ c = 2 * p + 2) → c = g2 → p = i := by
        intro p c hc hcg; omega
      obtain ⟨b, e, pb, hb⟩ := ih (swap_int a i g2) g2 (by omega) (by omega)
        (by push_cast at hf2; omega)
        (by
          constructor
          · intro p c hp hpg hc hcn
            by_cases hpi : p = i
            · rw [hpi, swap_int_left]
              by_cases hcg : c = g2
              · rw [hcg, swap_int_right]; omega
              · rw [swap_int_other _ (by omega) hcg]
                rcases hc with hc | hc
                · rw [hc, hpi]; exact hg2.2.1 (by rw [hc, hpi] at hcn; exact hcn)
                · rw [hc, hpi]; exact hg2.2.2.1 (by rw [hc, hpi] at hcn; exact hcn)
            · have hcg : c ≠ g2 := fun h => hpi (hne p c hc h)
              rw [swap_int_other a hpi hpg]
              by_cases hci : c = i
              · rw [hci, swap_int_left]
                exact hx.2 p g2 hp (by rw [← hci]; exact hc) hch hgn
              · rw [swap_int_other a hci hcg]
                exact hx.1 p c hp hpi hc hcn
          · intro g c hg hgc hc hcn
            have hgi : g = i := by omega
            rw [hgi, swap_int_left, swap_int_other a (by omega) (by omega)]
            exact hx.1 g2 c (by omega) hbr hc hcn)
      have hsw : PermOn i (n - 1) a (swap_int a i g2) := PermOn.swap a (by omega) (by omega)
      exact ⟨b, e, hsw.trans (pb.mono (by omega) (le_refl _)), hb⟩

/-- The root of a heap is its largest element. -/
theorem heap_root_max (a : Arr) (n : Int) (h : IsHeapFrom a n 0) :
    ∀ x : Int, 0 ≤ x → x < n → a x ≤ a 0 := by
  have key : ∀ (m : Nat) (x : Int), 0 ≤ x → x ≤ m → x < n → a x ≤ a 0 := by
    intro m
    induction m with
    | zero =>
      intro x h1 h2 _
      have : x = 0 := by push_cast at h2; omega
      rw [this]
    | succ m ih =>
      intro x h1 h2 h3
      by_cases hx : x = 0
      · rw [hx]
      · have hp := h ((x - 1) / 2) x (by omega) (by omega) h3
        have := ih ((x - 1) / 2) (by omega) (by push_cast at h2; omega) (by omega)
        omega
  intro x h1 h2
  exact key x.toNat x h1 (by omega) h2

/-- The first loop of `heap_sort` returns with heap order from parent `i + 1 - k` on. -/
theorem build_heap_spec (n : Int) : ∀ (k : Nat) (i : Int) (a : Arr),
    (k : Int) = i + 1 → 2 * (i + 1) ≤ n → IsHeapFrom a n (i + 1) →
    ∃ b, build_heap n k i a = some b ∧ PermOn 0 (n - 1) a b ∧ IsHeapFrom b n 0 := by
  intro k
  induction k with
  | zero =>
    intro i a hk _ hh
    have : i + 1 = 0 := by push_cast at hk; omega
    rw [this] at hh
    exact ⟨a, rfl, PermOn.refl _ _ _, hh⟩
  | succ k ih =>
    intro i a hk hn hh
    rw [build_heap]
    have hi : 0 ≤ i := by push_cast at hk; omega
    obtain ⟨b, e, pb, hb⟩ := sift_down_spec n i hi n.toNat a i (le_refl _) (by omega) (by omega)
      ⟨fun p c hp hpi hc hcn => hh p c (by omega) hc hcn,
       fun g c hg hgc _ _ => by omega⟩
    simp only [e]
    have e1 : i - 1 + 1 = i := by ring
    obtain ⟨b2, e2, pb2, hb2⟩ := ih (i - 1) b (by push_cast at hk; omega) (by omega)
      (by rw [e1]; exact hb)
    exact ⟨b2, e2, (pb.mono hi (le_refl _)).trans pb2, hb2⟩

/-- The second loop of `heap_sort`: from a heap on `a[0..i]` below a sorted tail of larger
values it returns with `a[0..n)` sorted. -/
theorem extract_max_spec (n : Int) : ∀ (k : Nat) (i : Int) (a : Arr),
    (k : Int) = i → i ≤ n - 1 → IsHeapFrom a (i + 1) 0 → SortedOn a (i + 1) (n - 1) →
    (∀ x y : Int, 0 ≤ x → x ≤ i → i < y → y ≤ n - 1 → a x ≤ a y) →
    ∃ b, extract_max k i a = some b ∧ PermOn 0 (n - 1) a b ∧ SortedOn b 0 (n - 1) := by
  intro k
  induction k with
  | zero =>
    intro i a hk _ _ hs hc
    have hi : i = 0 := by push_cast at hk; omega
    subst hi
    refine ⟨a, rfl, PermOn.refl _ _ _, ?_⟩
    intro x y hx hxy hy
    by_cases hx0 : x = 0
    · by_cases hy0 : y = 0
      · rw [hx0, hy0]
      · rw [hx0]; exact hc 0 y (le_refl _) (le_refl _) (by omega) hy
    · exact hs x y (by omega) hxy hy
  | succ k ih =>
    intro i a hk hin hh hs hc
    rw [extract_max]
    have hi : 1 ≤ i := by push_cast at hk; omega
    have hroot := heap_root_max a (i + 1) hh
    obtain ⟨b, e, pb, hb⟩ := sift_down_spec i 0 (le_refl _) i.toNat (swap_int a 0 i) 0
      (le_refl _) (by omega) (by omega)
      ⟨fun p c hp hp0 hc1 hcn => by
          rw [swap_int_other a (by omega) (by omega), swap_int_other a (by omega) (by omega)]
          exact hh p c hp hc1 (by omega),
       fun g c hg hgc _ _ => by omega⟩
    simp only [e]
    have hsw : PermOn 0 (n - 1) a (swap_int a 0 i) := PermOn.swap a (by omega) (by omega)
    have hbi : b i = a 0 := by rw [pb.frame (by omega), swap_int_right]
    have hby : ∀ y : Int, i < y → b y = a y := by
      intro y hy
      rw [pb.frame (by omega), swap_int_other a (by omega) (by omega)]
    -- every cell of the reduced heap holds a value of the old heap
    have hsrc : ∀ x : Int, 0 ≤ x → x ≤ i - 1 → ∃ x1 : Int, (0 ≤ x1 ∧ x1 ≤ i) ∧ b x = a x1 := by
      intro x hx1 hx2
      obtain ⟨x1, hx1r, ex⟩ := pb.exists_source (k := x) ⟨by omega, by omega⟩
      by_cases h0 : x1 = 0
      · exact ⟨i, ⟨by omega, le_refl _⟩, by rw [ex, h0, swap_int_left]⟩
      · exact ⟨x1, ⟨by omega, by omega⟩, by
          rw [ex, swap_int_other a h0 (by omega)]⟩
    have e1 : i - 1 + 1 = i := by ring
    obtain ⟨b2, e2, pb2, hb2⟩ := ih (i - 1) b (by push_cast at hk; omega) (by omega)
      (by rw [e1]; exact hb)
      (by
        rw [e1]
        intro x y hx hxy hy
        by_cases hxi : x = i
        · by_cases hyi : y = i
          · rw [hxi, hyi]
          · rw [hxi, hbi, hby y (by omega)]
            exact hc 0 y (le_refl _) (by omega) (by omega) hy
        · rw [hby x (by omega), hby y (by omega)]
          exact hs x y (by omega) hxy hy)
      (by
        intro x y hx1 hx2 hy1 hy2
        obtain ⟨x1, hx1r, ex⟩ := hsrc x hx1 hx2
        rw [ex]
        by_cases hyi : y = i
        · rw [hyi, hbi]; exact hroot x1 hx1r.1 (by omega)
        · rw [hby y (by omega)]
          exact hc x1 y hx1r.1 hx1r.2 (by omega) hy2)
    exact ⟨b2, e2, (hsw.trans (pb.mono (le_refl _) (by omega))).trans pb2, hb2⟩

/-- The function `heap_sort` returns, with `a[0..n)` sorted and a rearrangement of its old
cells. -/
theorem heap_sort_spec (a : Arr) (n : Nat) :
    ∃ b, heap_sort a n = some b ∧ SortedOn b 0 ((n : Int) - 1) ∧
      PermOn 0 ((n : Int) - 1) a b := by
  unfold heap_sort
  have hdiv : Int.tdiv (n : Int) 2 = (n : Int) / 2 := Int.tdiv_eq_ediv (by omega) (by norm_num)
  rw [hdiv]
  obtain ⟨b1, e1, p1, h1⟩ := build_heap_spec (n : Int) ((n : Int) / 2).toNat ((n : Int) / 2 - 1) a
    (by omega) (by omega) (by intro p c hp hc hcn; omega)
  simp only [e1]
  have e : (n : Int) - 1 + 1 = n := by ring
  by_cases hn : n = 0
  · subst hn
    refine ⟨b1, by simp [extract_max], ?_, p1⟩
    intro x y hx hxy hy
    simp at hy; omega
  · obtain ⟨b2, e2, p2, s2⟩ := extract_max_spec (n : Int) ((n : Int) - 1).toNat ((n : Int) - 1) b1
      (by omega) (le_refl _) (by rw [e]; exact h1)
      (by intro x y hx hxy hy; omega)
      (by intro x y _ _ _ _; omega)
    exact ⟨b2, e2, s2, p1.trans p2⟩

/-- C3: for every array `a` and every `n ≥ 0`, `heap_sort(a, n)` returns (the fuel of the
embedding is never used up) with `a[0..n)` non-decreasing and a permutation of the input
cells, and no cell outside `a[0..n)` changed; `sort_array` with `SORT_HEAP` is this call. -/
theorem heap_sort_correct (a : Arr) (n : Nat) :
    ∃ b, heap_sort a n = some b ∧
      (slice b n).Sorted (· ≤ ·) ∧ (slice b n).Perm (slice a n) ∧
      (∀ k : Int, k < 0 ∨ (n : Int) ≤ k → b k = a k) ∧
      sort_array a n SORT_HEAP = some b := by
  obtain ⟨b, e, s, p⟩ := heap_sort_spec a n
  refine ⟨b, e, s.slice, p.slice_perm, fun k hk => p.frame (by omega), ?_⟩
  have h1 : ¬ SORT_HEAP = SORT_QUICK := by decide
  simp only [sort_array, if_neg h1, if_true, e]

theorem slice_eq_iff {a b : Arr} {n : Nat} :
    slice a n = slice b n ↔ ∀ k : Nat, k < n → a k = b k := by
  constructor
  · intro h k hk
    have h1 := congrArg (fun l : List Int => l.getD k 0) h
    simpa [slice, hk] using h1
  · exact slice_congr

/-- A sorted rearrangement of a sorted range is the same array. -/
theorem eq_of_sorted_perm {a b : Arr} {n : Nat} (ha : (slice a n).Sorted (· ≤ ·))
    (hb : SortedOn b 0 ((n : Int) - 1)) (hp : PermOn 0 ((n : Int) - 1) a b) : b = a := by
  have hs : slice b n = slice a n :=
    List.eq_of_perm_of_sorted hp.slice_perm hb.slice ha
  funext k
  by_cases hk : 0 ≤ k ∧ k < n
  · obtain ⟨k1, rfl⟩ := Int.eq_ofNat_of_zero_le hk.1
    exact slice_eq_iff.mp hs k1 (by omega)
  · exact hp.frame (by omega)

theorem filter_odd_even_length (l : List Int) :
    (l.filter (fun x => decide (Odd x))).length + (l.filter (fun x => decide (Even x))).length
      = l.length := by
  have h := (List.filter_append_perm (fun x => decide (Odd x)) l).length_eq
  have e : (fun x : Int => !decide (Odd x)) = (fun x => decide (Even x)) := by
    funext x; by_cases hx : Odd x
    · have : ¬ Even x := Int.not_even_iff_odd.mpr hx
      simp [hx, this]
    · have : Even x := Int.not_odd_iff_even.mp hx
      simp [hx, this]
  rw [e, List.length_append] at h
  exact h

/-- The parts of a classified dataset are permutations of the odd and of the even values of
`raw`. -/
theorem classified_parts {ds c : Dataset} (h : Classified ds c) :
    (slice c.odd c.n_odd).Perm ((slice ds.raw ds.n).filter (fun x => decide (Odd x))) ∧
    (slice c.even c.n_even).Perm ((slice ds.raw ds.n).filter (fun x => decide (Even x))) := by
  obtain ⟨_, _, _, ho, he, hp, _⟩ := h
  constructor
  · have := hp.filter (fun x => decide (Odd x))
    rw [List.filter_append] at this
    have h1 : (slice c.odd c.n_odd).filter (fun x => decide (Odd x)) = slice c.odd c.n_odd :=
      List.filter_eq_self.mpr (fun x hx => by simpa using ho x hx)
    have h2 : (slice c.even c.n_even).filter (fun x => decide (Odd x)) = [] := by
      rw [List.filter_eq_nil_iff]
      intro x hx
      simpa using he x hx
    rw [h1, h2, List.append_nil] at this
    exact this
  · have := hp.filter (fun x => decide (Even x))
    rw [List.filter_append] at this
    have h1 : (slice c.even c.n_even).filter (fun x => decide (Even x)) = slice c.even c.n_even :=
      List.filter_eq_self.mpr (fun x hx => by simpa using he x hx)
    have h2 : (slice c.odd c.n_odd).filter (fun x => decide (Even x)) = [] := by
      rw [List.filter_eq_nil_iff]
      intro x hx
      simpa using ho x hx
    rw [h1, h2, List.nil_append] at this
    exact this

theorem slice_update_last (a : Arr) (n : Nat) (v : Int) :
    slice (Function.update a (n : Int) v) (n + 1) = slice a n ++ [v] := by
  rw [slice_succ, Function.update_same, slice_update_ge _ _ _ _ (le_refl _)]

/-- After `insert_value` on a dataset whose parts are the sorted odd and even values of
`raw`, the parts are again the sorted odd and even values of the longer `raw`. -/
theorem insert_value_keeps_sorted_parts (ds : Dataset) (val : Int) (hn : ds.n < MAX_N)
    (ho : (slice ds.odd ds.n_odd).Sorted (· ≤ ·)) (he : (slice ds.even ds.n_even).Sorted (· ≤ ·))
    (po : (slice ds.odd ds.n_odd).Perm ((slice ds.raw ds.n).filter (fun x => decide (Odd x))))
    (pe : (slice ds.even ds.n_even).Perm ((slice ds.raw ds.n).filter (fun x => decide (Even x)))) :
    slice (insert_value ds val).1.raw (insert_value ds val).1.n = slice ds.raw ds.n ++ [val] ∧
    (slice (insert_value ds val).1.odd (insert_value ds val).1.n_odd).Sorted (· ≤ ·) ∧
    (slice (insert_value ds val).1.even (insert_value ds val).1.n_even).Sorted (· ≤ ·) ∧
    (slice (insert_value ds val).1.odd (insert_value ds val).1.n_odd).Perm
      ((slice ds.raw ds.n ++ [val]).filter (fun x => decide (Odd x))) ∧
    (slice (insert_value ds val).1.even (insert_value ds val).1.n_even).Perm
      ((slice ds.raw ds.n ++ [val]).filter (fun x => decide (Even x))) := by
  have hcap : ¬ ds.n ≥ MAX_N := by omega
  have hsum : ds.n_odd + ds.n_even = ds.n := by
    have l1 := po.length_eq
    have l2 := pe.length_eq
    have l3 := filter_odd_even_length (slice ds.raw ds.n)
    rw [slice_length] at l1 l2 l3
    omega
  have hc : ds.n_odd + ds.n_even = ds.n + 1 - 1 := by omega
  by_cases hodd : is_odd val ≠ 0
  · have hO : Odd val := (is_odd_ne_zero_iff val).mp hodd
    have hnE : ¬ Even val := Int.not_even_iff_odd.mpr hO
    have hres : insert_value ds val =
        ({ raw := Function.update ds.raw ds.n val, n := ds.n + 1,
           odd := Function.update (shift_right val ds.n_odd ds.odd).1
             (shift_right val ds.n_odd ds.odd).2 val,
           n_odd := ds.n_odd + 1, even := ds.even, n_even := ds.n_even }, 0) := by
      simp only [insert_value, if_neg hcap, if_pos hc, if_pos hodd]
    rw [hres]
    obtain ⟨s1, s2, _⟩ := ordered_insert_spec val ds.n_odd ds.odd ho
    refine ⟨slice_update_last _ _ _, s1, he, ?_, ?_⟩
    · rw [List.filter_append]
      have : [val].filter (fun x => decide (Odd x)) = [val] := by simp [hO]
      rw [this]
      exact s2.trans ((List.Perm.cons val po).trans (List.perm_append_singleton val _).symm)
    · rw [List.filter_append]
      have : [val].filter (fun x => decide (Even x)) = [] := by simp [hnE]
      rw [this, List.append_nil]
      exact pe
  · have hE : Even val := (is_odd_eq_zero_iff val).mp (not_not.mp hodd)
    have hnO : ¬ Odd val := fun h => (Int.not_even_iff_odd.mpr h) hE
    have hres : insert_value ds val =
        ({ raw := Function.update ds.raw ds.n val, n := ds.n + 1,
           odd := ds.odd, n_odd := ds.n_odd,
           even := Function.update (shift_right val ds.n_even ds.even).1
             (shift_right val ds.n_even ds.even).2 val,
           n_even := ds.n_even + 1 }, 0) := by
      simp only [insert_value, if_neg hcap, if_pos hc, if_neg hodd]
    rw [hres]
    obtain ⟨s1, s2, _⟩ := ordered_insert_spec val ds.n_even ds.even he
    refine ⟨slice_update_last _ _ _, ho, s1, ?_, ?_⟩
    · rw [List.filter_append]
      have : [val].filter (fun x => decide (Odd x)) = [] := by simp [hnO]
      rw [this, List.append_nil]
      exact po
    · rw [List.filter_append]
      have : [val].filter (fun x => decide (Even x)) = [val] := by simp [hE]
      rw [this]
      exact s2.trans ((List.Perm.cons val pe).trans (List.perm_append_singleton val _).symm)

theorem log_half_le (s S : Nat) (h : 2 * s ≤ S) : Nat.log 2 s ≤ Nat.log 2 S - 1 := by
  rw [← Nat.log_div_base]
  exact Nat.log_mono_right (by omega)

theorem four_le_log (S : Nat) (h : 16 ≤ S) : 4 ≤ Nat.log 2 S := by
  have : Nat.log 2 16 = 4 := by
    rw [show (16 : Nat) = 2 ^ 4 by norm_num, Nat.log_pow (by norm_num)]
  rw [← this]
  exact Nat.log_mono_right h

/-- The instrumented `_qsort` computes the array of `_qsort`, stacks at most
`log2 (cells) - 1` activations below itself, and recurses on the smaller side only. -/
theorem qsort_calls_spec : ∀ (fuel : Nat) (a : Arr) (l r : Int), 1 ≤ fuel → r - l + 1 ≤ fuel →
    ∃ (b : Arr) (d : Nat) (c : List RecCall), _qsort_calls fuel a l r = some (b, d, c) ∧
      _qsort fuel a l r = some b ∧ d ≤ Nat.log 2 (r - l + 1).toNat - 1 ∧
      ∀ e ∈ c, SmallerSide e := by
  intro fuel
  induction fuel with
  | zero => intro a l r h; omega
  | succ fuel ih =>
    intro a l r hf1 hf2
    rw [_qsort_calls, _qsort]
    by_cases hlr : l < r
    · rw [if_pos hlr, if_pos hlr]
      by_cases hsmall : r - l < 16
      · rw [if_pos hsmall, if_pos hsmall]
        exact ⟨_, 0, [], rfl, rfl, Nat.zero_le _, fun e he => by simp at he⟩
      · rw [if_neg hsmall, if_neg hsmall]
        obtain ⟨a2, i, e, _, g1, g2, _, _⟩ := partition_step_spec a l r (by omega)
        simp only [e]
        generalize swap_int a2 i (r - 1) = a3
        have hB := four_le_log (r - l + 1).toNat (by omega)
        by_cases hbr : i - l < r - i
        · rw [if_pos hbr, if_pos hbr]
          obtain ⟨b1, d1, c1, e1, q1, k1, m1⟩ := ih a3 l (i - 1) (by push_cast at hf2; omega)
            (by push_cast at hf2; omega)
          obtain ⟨b2, d2, c2, e2, q2, k2, m2⟩ := ih b1 (i + 1) r (by push_cast at hf2; omega)
            (by push_cast at hf2; omega)
          simp only [e1, e2, q1, q2]
          refine ⟨b2, _, _, rfl, rfl, ?_, ?_⟩
          · have hA := log_half_le (i - 1 - l + 1).toNat (r - l + 1).toNat (by omega)
            have hC : Nat.log 2 (r - (i + 1) + 1).toNat ≤ Nat.log 2 (r - l + 1).toNat :=
              Nat.log_mono_right (by omega)
            omega
          · intro x hx
            rcases List.mem_cons.mp hx with hx | hx
            · subst hx
              refine ⟨by simp only; omega, by simp only; omega, by simp only; omega,
                by simp only; omega, by simp only; omega, by simp only; omega,
                by simp only; omega, by simp only; omega⟩
            · rcases List.mem_append.mp hx with hx | hx
              · exact m1 x hx
              · exact m2 x hx
        · rw [if_neg hbr, if_neg hbr]
          obtain ⟨b1, d1, c1, e1, q1, k1, m1⟩ := ih a3 (i + 1) r (by push_cast at hf2; omega)
            (by push_cast at hf2; omega)
          obtain ⟨b2, d2, c2, e2, q2, k2, m2⟩ := ih b1 l (i - 1) (by push_cast at hf2; omega)
            (by push_cast at hf2; omega)
          simp only [e1, e2, q1, q2]
          refine ⟨b2, _, _, rfl, rfl, ?_, ?_⟩
          · have hA := log_half_le (r - (i + 1) + 1).toNat (r - l + 1).toNat (by omega)
            have hC : Nat.log 2 (i - 1 - l + 1).toNat ≤ Nat.log 2 (r - l + 1).toNat :=
              Nat.log_mono_right (by omega)
            omega
          · intro x hx
            rcases List.mem_cons.mp hx with hx | hx
            · subst hx
              refine ⟨by simp only; omega, by simp only; omega, by simp only; omega,
                by simp only; omega, by simp only; omega, by simp only; omega,
                by simp only; omega, by simp only; omega⟩
            · rcases List.mem_append.mp hx with hx | hx
              · exact m1 x hx
              · exact m2 x hx
    · rw [if_neg hlr, if_neg hlr]
      exact ⟨a, 0, [], rfl, rfl, Nat.zero_le _, fun e he => by simp at he⟩

/-- C16: in `_qsort` every recursive call is made from a range `[l, r]` with `r - l ≥ 16`, on
the sub-range that has no more cells than the one kept for the loop and at most
`(r - l) / 2` cells; and the recursion depth of `quick_sort_wrapper` on `n` cells is at most
`ceil(log2 n)` (indeed at most `floor(log2 n)`).  The instrumented function returns the
array of `quick_sort_wrapper`. -/
theorem quick_sort_depth_bound (a : Arr) (n : Nat) :
    ∃ (b : Arr) (d : Nat) (c : List RecCall),
      quick_sort_wrapper_calls a n = some (b, d, c) ∧ quick_sort_wrapper a n = some b ∧
      d ≤ Nat.clog 2 n ∧ d ≤ Nat.log 2 n ∧ ∀ e ∈ c, SmallerSide e := by
  unfold quick_sort_wrapper_calls quick_sort_wrapper
  by_cases h : (n : Int) > 1
  · rw [if_pos h, if_pos h]
    obtain ⟨b, d, c, e, q, k, m⟩ := qsort_calls_spec ((n : Int)).toNat a 0 ((n : Int) - 1)
      (by omega) (by omega)
    simp only [e, q]
    have e1 : ((n : Int) - 1 - 0 + 1).toNat = n := by omega
    rw [e1] at k
    have hpos : 0 < Nat.log 2 n := Nat.log_pos (by norm_num) (by omega)
    have hd : d + 1 ≤ Nat.log 2 n := by omega
    exact ⟨b, d + 1, c, rfl, rfl, le_trans hd (Nat.log_le_clog 2 n), hd, m⟩
  · rw [if_neg h, if_neg h]
    exact ⟨a, 0, [], rfl, rfl, Nat.zero_le _, Nat.zero_le _, fun e he => by simp at he⟩

theorem scan_up_reads_fst (a : Arr) (pivot : Int) : ∀ (k : Nat) (i : Int),
    (scan_up_reads a pivot k i).1 = scan_up a pivot k i := by
  intro k
  induction k with
  | zero => intro i; rfl
  | succ k ih =>
    intro i
    rw [scan_up_reads, scan_up]
    split
    · exact ih (i + 1)
    · rfl

theorem scan_down_reads_fst (a : Arr) (pivot : Int) : ∀ (k : Nat) (j : Int),
    (scan_down_reads a pivot k j).1 = scan_down a pivot k j := by
  intro k
  induction k with
  | zero => intro j; rfl
  | succ k ih =>
    intro j
    rw [scan_down_reads, scan_down]
    split
    · exact ih (j - 1)
    · rfl

theorem partition_scan_reads_fst (pivot l r : Int) : ∀ (fuel : Nat) (a : Arr) (i j : Int),
    (partition_scan_reads pivot l r fuel a i j).1 = partition_scan pivot l r fuel a i j := by
  intro fuel
  induction fuel with
  | zero => intro a i j; rfl
  | succ fuel ih =>
    intro a i j
    rw [partition_scan_reads, partition_scan]
    simp only [scan_up_reads_fst, scan_down_reads_fst]
    cases scan_up a pivot (r - i).toNat i with
    | none => rfl
    | some i1 =>
      simp only
      cases scan_down a pivot (j - l).toNat j with
      | none => rfl
      | some j1 =>
        simp only
        split
        · exact ih _ _ _
        · rfl

/-- A round of the inner loop of the insertion sort stores the value it has just read into
the cell it read it from: the loop returns the array it was given. -/
theorem insert_shift_array (l key : Int) : ∀ (k : Nat) (j : Int) (a : Arr),
    (insert_shift l key k j a).1 = a := by
  intro k
  induction k with
  | zero => intro j a; rfl
  | succ k ih =>
    intro j a
    rw [insert_shift]
    by_cases h : j ≥ l ∧ a j > key
    · rw [if_pos h, ih]
      have e : j - 1 + 1 = j := by ring
      rw [e, Function.update_eq_self]
    · rw [if_neg h]

/-- The inner loop of the insertion sort stops with `j` between `l - 1` and its start. -/
theorem insert_shift_final (l key : Int) : ∀ (k : Nat) (j : Int) (a : Arr),
    l - 1 ≤ j → j - l + 1 ≤ k →
    l - 1 ≤ (insert_shift l key k j a).2 ∧ (insert_shift l key k j a).2 ≤ j := by
  intro k
  induction k with
  | zero =>
    intro j a h1 h2
    simp only [insert_shift]
    omega
  | succ k ih =>
    intro j a h1 h2
    rw [insert_shift]
    by_cases h : j ≥ l ∧ a j > key
    · rw [if_pos h]
      have := ih (j - 1) (Function.update a (j - 1 + 1) (a j)) (by omega) (by omega)
      omega
    · rw [if_neg h]
      omega

theorem insert_shift_acc_fst (l key : Int) : ∀ (k : Nat) (j : Int) (a : Arr),
    (insert_shift_acc l key k j a).1 = insert_shift l key k j a := by
  intro k
  induction k with
  | zero => intro j a; rfl
  | succ k ih =>
    intro j a
    rw [insert_shift_acc, insert_shift]
    by_cases h1 : j ≥ l
    · by_cases h2 : a j > key
      · rw [if_pos h1, if_pos h2, if_pos ⟨h1, h2⟩]
        exact ih _ _
      · rw [if_pos h1, if_neg h2, if_neg (fun h => h2 h.2)]
    · rw [if_neg h1, if_neg (fun h => h1 h.1)]

theorem insertion_loop_acc_fst (l : Int) : ∀ (k : Nat) (i : Int) (a : Arr),
    (insertion_loop_acc l k i a).1 = insertion_loop l k i a := by
  intro k
  induction k with
  | zero => intro i a; rfl
  | succ k ih =>
    intro i a
    rw [insertion_loop_acc, insertion_loop]
    simp only [insert_shift_acc_fst]
    exact ih _ _

theorem scan_up_reads_bounds (a : Arr) (pivot : Int) : ∀ (k : Nat) (i s : Int),
    i < s → s ≤ i + k → pivot ≤ a s →
    ∀ x ∈ (scan_up_reads a pivot k i).2, i < x ∧ x ≤ s := by
  intro k
  induction k with
  | zero => intro i s h1 h2 _; simp at h2; omega
  | succ k ih =>
    intro i s h1 h2 h3 x hx
    rw [scan_up_reads] at hx
    by_cases c : a (i + 1) < pivot
    · rw [if_pos c] at hx
      have hs : i + 1 < s := by
        by_contra hcon
        have : s = i + 1 := by omega
        rw [this] at h3; omega
      rcases List.mem_cons.mp hx with hx | hx
      · omega
      · have := ih (i + 1) s hs (by push_cast at h2; omega) h3 x hx
        omega
    · rw [if_neg c] at hx
      simp only [List.mem_singleton] at hx
      omega

theorem scan_down_reads_bounds (a : Arr) (pivot : Int) : ∀ (k : Nat) (j s : Int),
    s < j → j - k ≤ s → a s ≤ pivot →
    ∀ x ∈ (scan_down_reads a pivot k j).2, s ≤ x ∧ x < j := by
  intro k
  induction k with
  | zero => intro j s h1 h2 _; simp at h2; omega
  | succ k ih =>
    intro j s h1 h2 h3 x hx
    rw [scan_down_reads] at hx
    by_cases c : a (j - 1) > pivot
    · rw [if_pos c] at hx
      have hs : s < j - 1 := by
        by_contra hcon
        have : s = j - 1 := by omega
        rw [this] at h3; omega
      rcases List.mem_cons.mp hx with hx | hx
      · omega
      · have := ih (j - 1) s hs (by push_cast at h2; omega) h3 x hx
        omega
    · rw [if_neg c] at hx
      simp only [List.mem_singleton] at hx
      omega

theorem partition_scan_reads_bounds (pivot l r : Int) : ∀ (fuel : Nat) (a : Arr) (i j : Int),
    l ≤ i → i < j → j ≤ r - 1 → j - i ≤ fuel →
    (∀ x : Int, l ≤ x → x ≤ i → a x ≤ pivot) →
    (∀ x : Int, j ≤ x → x ≤ r - 1 → pivot ≤ a x) →
    (∀ x ∈ (partition_scan_reads pivot l r fuel a i j).2.1, i < x ∧ x ≤ j) ∧
    (∀ x ∈ (partition_scan_reads pivot l r fuel a i j).2.2, i ≤ x ∧ x < j) := by
  intro fuel
  induction fuel with
  | zero => intro a i j h1 h2 h3 h4; simp at h4; omega
  | succ fuel ih =>
    intro a i j h1 h2 h3 h4 hlo hhi
    rw [partition_scan_reads]
    obtain ⟨i1, e1, u1, u2, u3, u4⟩ := scan_up_spec a pivot (r - i).toNat i j h2 (by omega)
      (hhi j (le_refl _) h3)
    obtain ⟨j1, e2, d1, d2, d3, d4⟩ := scan_down_spec a pivot (j - l).toNat j i h2 (by omega)
      (hlo i h1 (le_refl _))
    have bu := scan_up_reads_bounds a pivot (r - i).toNat i j h2 (by omega) (hhi j (le_refl _) h3)
    have bd := scan_down_reads_bounds a pivot (j - l).toNat j i h2 (by omega)
      (hlo i h1 (le_refl _))
    have f1 := scan_up_reads_fst a pivot (r - i).toNat i
    have f2 := scan_down_reads_fst a pivot (j - l).toNat j
    rw [e1] at f1
    rw [e2] at f2
    simp only [f1, f2]
    by_cases c : i1 < j1
    · rw [if_pos c]
      obtain ⟨g1, g2⟩ := ih (swap_int a i1 j1) i1 j1 (by omega) c
        (by omega) (by push_cast at h4; omega)
        (by
          intro x hx1 hx2
          by_cases hx : x = i1
          · rw [hx, swap_int_left]; exact d4
          · rw [swap_int_other _ hx (by omega)]
            by_cases hxi : x ≤ i
            · exact hlo x hx1 hxi
            · exact le_of_lt (u3 x (by omega) (by omega)))
        (by
          intro x hx1 hx2
          by_cases hx : x = j1
          · rw [hx, swap_int_right]; exact u4
          · rw [swap_int_other _ (by omega) hx]
            by_cases hxj : j ≤ x
            · exact hhi x hxj hx2
            · exact le_of_lt (d3 x (by omega) (by omega)))
      constructor
      · intro x hx
        rcases List.mem_append.mp hx with hx | hx
        · exact bu x hx
        · have := g1 x hx; omega
      · intro x hx
        rcases List.mem_append.mp hx with hx | hx
        · exact bd x hx
        · have := g2 x hx; omega
    · rw [if_neg c]
      exact ⟨bu, bd⟩

theorem insert_shift_acc_bounds (l key : Int) : ∀ (k : Nat) (j : Int) (a : Arr),
    ∀ x ∈ (insert_shift_acc l key k j a).2, l ≤ x ∧ x ≤ j + 1 := by
  intro k
  induction k with
  | zero => intro j a x hx; simp [insert_shift_acc] at hx
  | succ k ih =>
    intro j a x hx
    rw [insert_shift_acc] at hx
    by_cases h1 : j ≥ l
    · by_cases h2 : a j > key
      · rw [if_pos h1, if_pos h2] at hx
        rcases List.mem_cons.mp hx with hx | hx
        · omega
        · rcases List.mem_cons.mp hx with hx | hx
          · omega
          · rcases List.mem_cons.mp hx with hx | hx
            · omega
            · have := ih (j - 1) _ x hx
              omega
      · rw [if_pos h1, if_neg h2] at hx
        simp only [List.mem_singleton] at hx
        omega
    · rw [if_neg h1] at hx
      simp at hx

theorem insertion_loop_acc_bounds (l r : Int) : ∀ (k : Nat) (i : Int) (a : Arr),
    l + 1 ≤ i → i ≤ r + 1 → k = (r - i + 1).toNat →
    ∀ x ∈ (insertion_loop_acc l k i a).2, l ≤ x ∧ x ≤ r := by
  intro k
  induction k with
  | zero => intro i a _ _ _ x hx; simp [insertion_loop_acc] at hx
  | succ k ih =>
    intro i a h1 h2 hk x hx
    rw [insertion_loop_acc] at hx
    have hb := insert_shift_final l (a i) (i - l).toNat (i - 1) a (by omega) (by omega)
    rw [← insert_shift_acc_fst] at hb
    rcases List.mem_cons.mp hx with hx | hx
    · omega
    · rcases List.mem_append.mp hx with hx | hx
      · have := insert_shift_acc_bounds l (a i) (i - l).toNat (i - 1) a x hx
        omega
      · rcases List.mem_cons.mp hx with hx | hx
        · omega
        · exact ih (i + 1) _ (by omega) (by omega) (by omega) x hx

/-- C17: for every array and every range `[l, r]` with `r - l ≥ 16`, `_median3` leaves
`a[l] ≤ pivot`, `a[r-1] = pivot` and `pivot ≤ a[r]`; the partition loop, which tests no
bound, then returns, every index it reads through `i` satisfies `l < i ≤ r-1` and every
index it reads through `j` satisfies `l ≤ j < r-1`.  For every range `[l, r]` with `l < r`
the insertion sort reads and writes indices of `[l, r]` only.  The instrumented functions
compute what `partition_scan` and `insertion_loop` compute. -/
theorem qsort_accesses_in_range (a : Arr) (l r : Int) :
    (16 ≤ r - l →
      (_median3 a l r).2 l ≤ (_median3 a l r).1 ∧
      (_median3 a l r).2 (r - 1) = (_median3 a l r).1 ∧
      (_median3 a l r).1 ≤ (_median3 a l r).2 r ∧
      (partition_scan_reads (_median3 a l r).1 l r (r - l).toNat (_median3 a l r).2 l (r - 1)).1
        = partition_scan (_median3 a l r).1 l r (r - l).toNat (_median3 a l r).2 l (r - 1) ∧
      (∃ res, partition_scan (_median3 a l r).1 l r (r - l).toNat (_median3 a l r).2 l (r - 1)
        = some res ∧ l < res.2 ∧ res.2 ≤ r - 1) ∧
      (∀ x ∈ (partition_scan_reads (_median3 a l r).1 l r (r - l).toNat
          (_median3 a l r).2 l (r - 1)).2.1, l < x ∧ x ≤ r - 1) ∧
      (∀ x ∈ (partition_scan_reads (_median3 a l r).1 l r (r - l).toNat
          (_median3 a l r).2 l (r - 1)).2.2, l ≤ x ∧ x < r - 1)) ∧
    (l < r →
      (insertion_loop_acc l (r - l).toNat (l + 1) a).1 = insertion_loop l (r - l).toNat (l + 1) a ∧
      ∀ x ∈ (insertion_loop_acc l (r - l).toNat (l + 1) a).2, l ≤ x ∧ x ≤ r) := by
  constructor
  · intro h
    obtain ⟨_, m1, m2, m3⟩ := median3_spec a l r (by omega)
    generalize _median3 a l r = p at m1 m2 m3 ⊢
    have hlo : ∀ x : Int, l ≤ x → x ≤ l → p.2 x ≤ p.1 := by
      intro x h1 h2
      have : x = l := by omega
      rw [this]; exact m1
    have hhi : ∀ x : Int, r - 1 ≤ x → x ≤ r - 1 → p.1 ≤ p.2 x := by
      intro x h1 h2
      have : x = r - 1 := by omega
      rw [this, m2]
    obtain ⟨a1, i1, e, _, g1, g2, _, _⟩ := partition_scan_spec p.1 l r (r - l).toNat p.2 l (r - 1)
      (le_refl _) (by omega) (le_refl _) (by omega) hlo hhi
    have hb := partition_scan_reads_bounds p.1 l r (r - l).toNat p.2 l (r - 1)
      (le_refl _) (by omega) (le_refl _) (by omega) hlo hhi
    exact ⟨m1, m2, m3, partition_scan_reads_fst _ _ _ _ _ _ _, ⟨(a1, i1), e, g1, g2⟩,
      hb.1, hb.2⟩
  · intro h
    exact ⟨insertion_loop_acc_fst _ _ _ _,
      insertion_loop_acc_bounds l r (r - l).toNat (l + 1) a (le_refl _) (by omega) (by omega)⟩

theorem qsort_accesses_in_range_witness :
    (16 : Int) ≤ 19 - 0 ∧
    (_median3 (arr_of [5, 4, 3, 2, 1, 0, 9, 8, 7, 6, 5, 4, 3, 2, 1, 0, 7, 7, 7, 7]) 0 19).1 = 6 ∧
    (∀ x ∈ (partition_scan_reads
        (_median3 (arr_of [5, 4, 3, 2, 1, 0, 9, 8, 7, 6, 5, 4, 3, 2, 1, 0, 7, 7, 7, 7]) 0 19).1
        0 19 ((19 : Int) - 0).toNat
        (_median3 (arr_of [5, 4, 3, 2, 1, 0, 9, 8, 7, 6, 5, 4, 3, 2, 1, 0, 7, 7, 7, 7]) 0 19).2
        0 (19 - 1)).2.1, (0 : Int) < x ∧ x ≤ 19 - 1) :=
  ⟨by decide, by decide,
   ((qsort_accesses_in_range
      (arr_of [5, 4, 3, 2, 1, 0, 9, 8, 7, 6, 5, 4, 3, 2, 1, 0, 7, 7, 7, 7]) 0 19).1
      (by decide)).2.2.2.2.2.1⟩

/-- The function `quick_sort_wrapper` returns for every array and every `n`: the fuel of
`_qsort` is never used up. -/
theorem quick_sort_wrapper_returns (a : Arr) (n : Nat) :
    ∃ b, quick_sort_wrapper a n = some b := by
  unfold quick_sort_wrapper
  by_cases h : (n : Int) > 1
  · rw [if_pos h]
    obtain ⟨b, _, _, _, q, _⟩ := qsort_calls_spec ((n : Int)).toNat a 0 ((n : Int) - 1)
      (by omega) (by omega)
    exact ⟨b, q⟩
  · rw [if_neg h]
    exact ⟨a, rfl⟩

/-- C2 (the code at the failing input): on the two cells `[4, 2]` the call
`quick_sort_wrapper(a, 2)` returns with the cells `[2, 2]`, and so does `sort_array` with
`SORT_QUICK` and with an unknown tag: the value 4 is lost and the result is no permutation
of the input.  The insertion sort of `_qsort` stores `key` over a cell it never moved. -/
theorem quick_sort_loses_value :
    (quick_sort_wrapper (arr_of [4, 2]) 2).map (fun b => slice b 2) = some [2, 2] ∧
    (sort_array (arr_of [4, 2]) 2 SORT_QUICK).map (fun b => slice b 2) = some [2, 2] ∧
    (sort_array (arr_of [4, 2]) 2 0).map (fun b => slice b 2) = some [2, 2] ∧
    ¬ ([2, 2] : List Int).Perm (slice (arr_of [4, 2]) 2) := by
  refine ⟨by decide, by decide, by decide, by decide⟩

/-- With the tag `SORT_HEAP`, `sort_array` returns with `a[0..n)` sorted and rearranged. -/
theorem sort_array_heap_spec (a : Arr) (n : Nat) :
    ∃ b, sort_array a n SORT_HEAP = some b ∧ SortedOn b 0 ((n : Int) - 1) ∧
      PermOn 0 ((n : Int) - 1) a b := by
  have h1 : ¬ SORT_HEAP = SORT_QUICK := by decide
  simp only [sort_array, if_neg h1, if_true]
  exact heap_sort_spec a n

/-- With the tag `SORT_HEAP`, `sort_array` returns an array whose cells `a[0..n)` are
already non-decreasing as it is, and sorting the result of a sort returns it unchanged. -/
theorem sort_array_heap_idempotent (a : Arr) (n : Nat) :
    ((slice a n).Sorted (· ≤ ·) → sort_array a n SORT_HEAP = some a) ∧
    (∀ b, sort_array a n SORT_HEAP = some b → sort_array b n SORT_HEAP = some b) := by
  have key : ∀ c : Arr, (slice c n).Sorted (· ≤ ·) → sort_array c n SORT_HEAP = some c := by
    intro c hc
    obtain ⟨b, e, s, p⟩ := sort_array_heap_spec c n
    rw [e, eq_of_sorted_perm hc s p]
  refine ⟨key a, ?_⟩
  intro b hb
  obtain ⟨b1, e, s, p⟩ := sort_array_heap_spec a n
  rw [e] at hb
  have : b1 = b := Option.some.inj hb
  rw [← this]
  exact key b1 s.slice

/-- C13 (the code at the failing input): the twenty cells of `demo_sorted_evens` are
non-decreasing, yet `sort_array` with `SORT_QUICK` returns them with the value 38 replaced by
18, so it does not return the array it was given; `sort_array` with `SORT_HEAP` returns the
array unchanged. -/
theorem sort_array_quick_changes_sorted :
    (slice demo_sorted_evens 20).Sorted (· ≤ ·) ∧
    (sort_array demo_sorted_evens 20 SORT_QUICK).map (fun b => slice b 20)
      = some [2, 4, 6, 8, 10, 12, 14, 16, 18, 18, 22, 24, 26, 28, 30, 32, 34, 36, 18, 40] ∧
    sort_array demo_sorted_evens 20 SORT_QUICK ≠ some demo_sorted_evens ∧
    sort_array demo_sorted_evens 20 SORT_HEAP = some demo_sorted_evens := by
  have h1 : (slice demo_sorted_evens 20).Sorted (· ≤ ·) := by decide
  have h2 : (sort_array demo_sorted_evens 20 SORT_QUICK).map (fun b => slice b 20)
      = some [2, 4, 6, 8, 10, 12, 14, 16, 18, 18, 22, 24, 26, 28, 30, 32, 34, 36, 18, 40] := by
    set_option maxRecDepth 100000 in decide
  refine ⟨h1, h2, ?_, (sort_array_heap_idempotent demo_sorted_evens 20).1 h1⟩
  intro h
  rw [h] at h2
  revert h2
  decide

/-- Sorting a rearrangement of a sorted list with `sort_array` and `SORT_HEAP` gives the
sorted list. -/
theorem sort_array_heap_of_perm (a : Arr) (n : Nat) (l : List Int)
    (hl : l.Sorted (· ≤ ·)) (hp : (slice a n).Perm l) :
    ∃ b, sort_array a n SORT_HEAP = some b ∧ slice b n = l := by
  obtain ⟨b, e, s, p⟩ := sort_array_heap_spec a n
  exact ⟨b, e, List.eq_of_perm_of_sorted (p.slice_perm.trans hp) s.slice hl⟩

theorem rerun_agrees_heap_of (cur c : Dataset)
    (ho : (slice cur.odd cur.n_odd).Sorted (· ≤ ·)) (he : (slice cur.even cur.n_even).Sorted (· ≤ ·))
    (po : (slice cur.odd cur.n_odd).Perm ((slice cur.raw cur.n).filter (fun x => decide (Odd x))))
    (pe : (slice cur.even cur.n_even).Perm
      ((slice cur.raw cur.n).filter (fun x => decide (Even x))))
    (hc : Classified cur c) : RerunAgrees SORT_HEAP cur c := by
  obtain ⟨co, ce⟩ := classified_parts hc
  have l1 := (co.trans po.symm).length_eq
  have l2 := (ce.trans pe.symm).length_eq
  rw [slice_length, slice_length] at l1 l2
  refine ⟨l1, l2, ?_⟩
  obtain ⟨bo, e1, s1⟩ := sort_array_heap_of_perm c.odd c.n_odd _ ho (co.trans po.symm)
  obtain ⟨be, e2, s2⟩ := sort_array_heap_of_perm c.even c.n_even _ he (ce.trans pe.symm)
  exact ⟨bo, be, e1, e2, s1, s2⟩

/-- For every dataset with `n < 1024` whose odd and even sequences are the ascending sorted
odd and even elements of `raw[0..n)`, after `insert_value(ds, val)` the raw sequence is the
old one followed by `val`, and the odd and even sequences are, element for element, what
each of the three classifiers followed by `sort_array` with `SORT_HEAP` produces from it. -/
theorem insert_value_agrees_with_heap_rerun (ds : Dataset) (val : Int) (hn : ds.n < MAX_N)
    (ho : (slice ds.odd ds.n_odd).Sorted (· ≤ ·)) (he : (slice ds.even ds.n_even).Sorted (· ≤ ·))
    (po : (slice ds.odd ds.n_odd).Perm ((slice ds.raw ds.n).filter (fun x => decide (Odd x))))
    (pe : (slice ds.even ds.n_even).Perm ((slice ds.raw ds.n).filter (fun x => decide (Even x)))) :
    slice (insert_value ds val).1.raw (insert_value ds val).1.n = slice ds.raw ds.n ++ [val] ∧
    RerunAgrees SORT_HEAP (insert_value ds val).1 (classify_stable (insert_value ds val).1) ∧
    RerunAgrees SORT_HEAP (insert_value ds val).1 (classify_partition (insert_value ds val).1) ∧
    (∃ c, classify_two_ptr (insert_value ds val).1 = some c ∧
      RerunAgrees SORT_HEAP (insert_value ds val).1 c) := by
  obtain ⟨r, s1, s2, p1, p2⟩ := insert_value_keeps_sorted_parts ds val hn ho he po pe
  rw [← r] at p1 p2
  obtain ⟨c, ec, hc⟩ := classify_two_ptr_classified (insert_value ds val).1
  exact ⟨r, rerun_agrees_heap_of _ _ s1 s2 p1 p2 (classify_stable_classified _),
    rerun_agrees_heap_of _ _ s1 s2 p1 p2 (classify_partition_classified _),
    c, ec, rerun_agrees_heap_of _ _ s1 s2 p1 p2 hc⟩

/-- C19 (the code at the failing input): `demo_loaded_dataset` holds twenty values, its odd
and even sequences are the ascending sorted odd and even elements of `raw`, and
`insert_value` of 4 leaves the even sequence `[4, 6, 8]`; classifying the longer `raw` again
and sorting with `SORT_QUICK` gives the even sequence `[4, 8, 4]`, so the re-run does not
agree with the insertion, while the re-run with `SORT_HEAP` does. -/
theorem insert_value_rerun_quick_differs :
    demo_loaded_dataset.n < MAX_N ∧
    (slice demo_loaded_dataset.odd demo_loaded_dataset.n_odd).Sorted (· ≤ ·) ∧
    (slice demo_loaded_dataset.even demo_loaded_dataset.n_even).Sorted (· ≤ ·) ∧
    (slice demo_loaded_dataset.odd demo_loaded_dataset.n_odd).Perm
      ((slice demo_loaded_dataset.raw demo_loaded_dataset.n).filter (fun x => decide (Odd x))) ∧
    (slice demo_loaded_dataset.even demo_loaded_dataset.n_even).Perm
      ((slice demo_loaded_dataset.raw demo_loaded_dataset.n).filter (fun x => decide (Even x))) ∧
    slice (insert_value demo_loaded_dataset 4).1.even (insert_value demo_loaded_dataset 4).1.n_even
      = [4, 6, 8] ∧
    slice (classify_stable (insert_value demo_loaded_dataset 4).1).even
      (classify_stable (insert_value demo_loaded_dataset 4).1).n_even = [6, 8, 4] ∧
    (sort_array (classify_stable (insert_value demo_loaded_dataset 4).1).even
      (classify_stable (insert_value demo_loaded_dataset 4).1).n_even SORT_QUICK).map
        (fun b => slice b 3) = some [4, 8, 4] ∧
    ¬ RerunAgrees SORT_QUICK (insert_value demo_loaded_dataset 4).1
      (classify_stable (insert_value demo_loaded_dataset 4).1) ∧
    RerunAgrees SORT_HEAP (insert_value demo_loaded_dataset 4).1
      (classify_stable (insert_value demo_loaded_dataset 4).1) := by
  have hn : demo_loaded_dataset.n < MAX_N := by decide
  have ho : (slice demo_loaded_dataset.odd demo_loaded_dataset.n_odd).Sorted (· ≤ ·) := by decide
  have he : (slice demo_loaded_dataset.even demo_loaded_dataset.n_even).Sorted (· ≤ ·) := by
    decide
  have po : (slice demo_loaded_dataset.odd demo_loaded_dataset.n_odd).Perm
      ((slice demo_loaded_dataset.raw demo_loaded_dataset.n).filter (fun x => decide (Odd x))) := by
    decide
  have pe : (slice demo_loaded_dataset.even demo_loaded_dataset.n_even).Perm
      ((slice demo_loaded_dataset.raw demo_loaded_dataset.n).filter (fun x => decide (Even x))) := by
    decide
  have e1 : slice (insert_value demo_loaded_dataset 4).1.even
      (insert_value demo_loaded_dataset 4).1.n_even = [4, 6, 8] := by decide
  have e2 : slice (classify_stable (insert_value demo_loaded_dataset 4).1).even
      (classify_stable (insert_value demo_loaded_dataset 4).1).n_even = [6, 8, 4] := by decide
  have e3 : (sort_array (classify_stable (insert_value demo_loaded_dataset 4).1).even
      (classify_stable (insert_value demo_loaded_dataset 4).1).n_even SORT_QUICK).map
        (fun b => slice b 3) = some [4, 8, 4] := by decide
  have e4 : (classify_stable (insert_value demo_loaded_dataset 4).1).n_even = 3 := by decide
  refine ⟨hn, ho, he, po, pe, e1, e2, e3, ?_,
    (insert_value_agrees_with_heap_rerun demo_loaded_dataset 4 hn ho he po pe).2.1⟩
  rintro ⟨_, _, bo, be, _, q, _, r⟩
  rw [q] at e3
  rw [e4, e1] at r
  simp only [Option.map_some', Option.some.injEq] at e3
  rw [r] at e3
  revert e3
  decide

end SeatSort
